import Mathlib

/-!
Verification development for the wfc single-file Wave Function Collapse
library (`wfc.h`).  The C code is shallowly embedded: rasters become lists
of byte values (`Nat`), machine integers become `Nat`/`Int` with explicit
wrap-around where it matters, the platform RNG becomes an explicit stream
of drawn values, and the `double` entropy bookkeeping (whose values no
claim depends on) is modelled over `ℚ` with the transcendental
`p * log p` removal delta abstracted into a per-solver function `plogp`.
-/

namespace WfcSpec

/-! ## Rasters (`struct wfc_image`)

`data` is the tightly packed byte buffer; a byte is modelled as a `Nat`
(every byte produced by the C code is `< 256`).  Out-of-range reads
default to `0`. -/

structure WfcImage where
  data : List Nat
  component_cnt : Nat
  width : Nat
  height : Nat
deriving DecidableEq

instance : Inhabited WfcImage := ⟨⟨[], 0, 0, 0⟩⟩

/-- Flat byte access into a raster buffer, `image->data[i]`. -/
def byteAt (img : WfcImage) (i : Nat) : Nat :=
  img.data.getD i 0

/-- `wfc__img_cmp`: the two images are the same iff the dimensions and
components match and the `width*height*component_cnt` byte buffers are
byte-identical (`memcmp`). -/
def wfc__img_cmp (a b : WfcImage) : Bool :=
  if a.width = b.width ∧ a.height = b.height ∧ a.component_cnt = b.component_cnt then
    (List.range (a.width * a.height * a.component_cnt)).all
      fun i => decide (byteAt a i = byteAt b i)
  else
    false

/-- One output row of `wfc__img_expand`: the row `y % height` of the
input (`memcpy` of `width*component_cnt` bytes) followed by the first
`xexp` pixels of that same row start (`memcpy` of `xexp*component_cnt`
bytes). -/
def expandRow (image : WfcImage) (xexp y : Nat) : List Nat :=
  ((List.range (image.width * image.component_cnt)).map
    fun k => byteAt image ((y % image.height) * image.width * image.component_cnt + k))
  ++ ((List.range (xexp * image.component_cnt)).map
    fun k => byteAt image ((y % image.height) * image.width * image.component_cnt + k))

/-- `wfc__img_expand`: produce a raster of size
`(width+xexp, height+yexp)` built row by row with the two `memcpy`
calls of the C loop. -/
def wfc__img_expand (image : WfcImage) (xexp yexp : Nat) : WfcImage :=
  { width := image.width + xexp
    height := image.height + yexp
    component_cnt := image.component_cnt
    data := (List.range (image.height + yexp)).flatMap (expandRow image xexp) }

/-! ## Directions -/

inductive Direction where
  | up
  | down
  | left
  | right
deriving DecidableEq

instance : Inhabited Direction := ⟨Direction.up⟩

/-- The involution swapping `UP ↔ DOWN` and `LEFT ↔ RIGHT`. -/
def opposite : Direction → Direction
  | Direction.up => Direction.down
  | Direction.down => Direction.up
  | Direction.left => Direction.right
  | Direction.right => Direction.left

/-- Offsets and comparison-rectangle size chosen by the `switch` in
`wfc__img_cmpoverlap`: `(a_offx, a_offy, b_offx, b_offy, width, height)`.
All sizes are taken from image `a`, as in the C code. -/
def overlapParams (a : WfcImage) : Direction → Nat × Nat × Nat × Nat × Nat × Nat
  | Direction.up => (0, 0, 0, 1, a.width, a.height - 1)
  | Direction.down => (0, 1, 0, 0, a.width, a.height - 1)
  | Direction.left => (0, 0, 1, 0, a.width - 1, a.height)
  | Direction.right => (1, 0, 0, 0, a.width - 1, a.height)

/-- `wfc__img_cmpoverlap`: the two images overlap perfectly except the
edges in the given direction.  Each row comparison is the `memcmp` of
`width * a->component_cnt` bytes at the respective offsets. -/
def wfc__img_cmpoverlap (a b : WfcImage) (d : Direction) : Bool :=
  match overlapParams a d with
  | (a_offx, a_offy, b_offx, b_offy, width, height) =>
    (List.range height).all fun y =>
      (List.range (width * a.component_cnt)).all fun k =>
        decide
          (byteAt a ((y + a_offy) * a.width * a.component_cnt + a_offx * a.component_cnt + k)
            = byteAt b ((y + b_offy) * a.width * a.component_cnt + b_offx * a.component_cnt + k))

/-! ## Tiles (`struct wfc__tile`) and the compiled adjacency matrix -/

structure WfcTile where
  image : WfcImage
  freq : Nat
deriving DecidableEq

instance : Inhabited WfcTile := ⟨default, 0⟩

/-- `wfc__compute_allowed_tiles`: for every direction and ordered tile
pair, `allowed_tiles[d][i*tile_cnt + j] = wfc__img_cmpoverlap(tiles[i].image,
tiles[j].image, d)`.  The flat array lookup is modelled as a function. -/
def wfc__compute_allowed_tiles (tiles : List WfcTile) :
    Direction → Nat → Nat → Bool :=
  fun d i j =>
    wfc__img_cmpoverlap (tiles.getD i default).image (tiles.getD j default).image d

def tileStripeA : WfcTile := ⟨⟨[0, 255], 1, 2, 1⟩, 1⟩

def tileStripeB : WfcTile := ⟨⟨[255, 0], 1, 2, 1⟩, 1⟩

/-! ## Claim C7: wrap-expansion -/

/-- Input raster refuting the unrestricted claim: 1 pixel wide, 2 tall,
one component, expanded by `xexp = 2 > width`. -/
def imgTall : WfcImage := ⟨[5, 7], 1, 1, 2⟩

def imgSquare : WfcImage := ⟨[1, 2, 3, 4], 1, 2, 2⟩

/-! ## Deduplication (`wfc__remove_duplicate_tiles`)

The C routine compacts the tile array in place, keeping the first
occurrence of each distinct image and bumping its `freq` for every
later duplicate.  The in-place compaction is modelled as a left fold
carrying the kept prefix. -/

/-- Scan the kept tiles in order and bump the `freq` of the first one
whose image equals `img` (`wfc__img_cmp((*tiles)[j].image,
(*tiles)[k].image)` with `img` the candidate); `none` when no kept tile
matches. -/
def bumpFirstMatch : List WfcTile → WfcImage → Option (List WfcTile)
  | [], _ => none
  | k :: rest, img =>
    if wfc__img_cmp img k.image then
      some (⟨k.image, k.freq + 1⟩ :: rest)
    else
      match bumpFirstMatch rest img with
      | some rest' => some (k :: rest')
      | none => none

/-- One iteration of the outer dedup loop for candidate tile `t`. -/
def dedupStep (kept : List WfcTile) (t : WfcTile) : List WfcTile :=
  match bumpFirstMatch kept t.image with
  | some kept' => kept'
  | none => kept ++ [t]

/-- `wfc__remove_duplicate_tiles`: tiles after index `0` are tested
against every already-kept tile; matches bump the kept tile's `freq`,
non-matches are appended (the in-place swap preserves first-occurrence
order). -/
def wfc__remove_duplicate_tiles : List WfcTile → List WfcTile
  | [] => []
  | t :: rest => rest.foldl dedupStep [t]

/-- Modelled from the spec: the subsequence of first occurrences of
distinct images, in order, used as the reference for what dedup keeps. -/
def specFirstOccurrences (l : List WfcImage) : List WfcImage :=
  l.foldl (fun acc x => if acc.any fun i => wfc__img_cmp i x then acc else acc ++ [x]) []

/-- Invariant of the dedup fold: after processing prefix `pre`, the kept
tiles are the first occurrences of `pre` in order, carry occurrence
counts as frequencies, cover every processed tile, and are pairwise
distinct. -/
def DedupInv (pre kept : List WfcTile) : Prop :=
  kept.map (fun t => t.image) = specFirstOccurrences (pre.map fun t => t.image)
  ∧ (∀ t ∈ kept, t.freq = pre.countP fun u => wfc__img_cmp u.image t.image)
  ∧ (∀ y ∈ pre, ∃ k ∈ kept, wfc__img_cmp k.image y.image = true)
  ∧ kept.Pairwise fun a b => wfc__img_cmp a.image b.image = false

def tileBlack : WfcTile := ⟨⟨[0], 1, 1, 1⟩, 1⟩

def tileWhite : WfcTile := ⟨⟨[255], 1, 1, 1⟩, 1⟩

/-! ## Solver state (`struct wfc`, `struct wfc__cell`, `struct wfc__prop`)

Machine-model notes.
* `entropy` is a C `double`; no claim depends on its value, so it is
  modelled over `ℚ` and the transcendental removal delta
  `(freq/sum)*log(freq/sum)` is the solver-level function `plogp`.
* `rand()` is modelled as an explicit stream `rand : Nat → Nat` with a
  cursor `ridx`; every C call site that draws consumes one entry.
* `DBL_MAX` (the initial minimum in `wfc__next_cell`) is modelled as an
  absent minimum (`Option ℚ`, starting at `none`), matching the C code
  whenever entropies are finite doubles below `DBL_MAX`.
* `sum_freqs` is a C `int`; `%` on a non-negative dividend agrees with
  `Int.emod`, and `x % 0` (undefined behavior in C) is modelled by
  `Int.emod x 0 = x`. -/

structure Cell where
  tiles : List Nat
  sum_freqs : Int
  entropy : ℚ
deriving DecidableEq

instance : Inhabited Cell := ⟨[], 0, 0⟩

structure WfcProp where
  src_cell_idx : Nat
  dst_cell_idx : Nat
  direction : Direction
deriving DecidableEq

instance : Inhabited WfcProp := ⟨0, 0, Direction.up⟩

structure Wfc where
  tiles : List WfcTile
  allowed : Direction → Nat → Nat → Bool
  output_width : Nat
  output_height : Nat
  image_component_cnt : Nat
  cells : List Cell
  sum_freqs : Int
  props : List WfcProp
  prop_idx : Nat
  collapsed_cell_cnt : Nat
  rand : Nat → Nat
  ridx : Nat
  plogp : Nat → ℚ

def cellAt (w : Wfc) (i : Nat) : Cell :=
  w.cells.getD i default

def setCell (w : Wfc) (i : Nat) (c : Cell) : Wfc :=
  {w with cells := w.cells.set i c}

def freqOf (w : Wfc) (t : Nat) : Nat :=
  (w.tiles.getD t default).freq

/-- Total number of candidate entries over all cells; the propagation
and run loops strictly decrease it whenever a cell shrinks, which
bounds the fuel below. -/
def totalTiles (w : Wfc) : Nat :=
  (w.cells.map fun c => c.tiles.length).sum

/-- In-bounds neighbour of cell `i` in direction `d`: exactly the guard
conditions of `wfc__add_prop_up/down/left/right`. -/
def neighborOf (w : Wfc) (i : Nat) (d : Direction) : Option Nat :=
  match d with
  | Direction.up =>
      if w.output_width ≤ i then some (i - w.output_width) else none
  | Direction.down =>
      if i + w.output_width < w.cells.length then some (i + w.output_width)
      else none
  | Direction.left =>
      if i % w.output_width ≠ 0 then some (i - 1) else none
  | Direction.right =>
      if i % w.output_width ≠ w.output_width - 1 then some (i + 1) else none

/-- `wfc__add_prop`: append an entry to the worklist. -/
def wfc__add_prop (w : Wfc) (src dst : Nat) (d : Direction) : Wfc :=
  {w with props := w.props ++ [⟨src, dst, d⟩]}

/-- `wfc__add_prop_up/down/left/right`: append the entry toward the
in-bounds neighbour, or do nothing. -/
def wfc__add_prop_dir (w : Wfc) (src : Nat) (d : Direction) : Wfc :=
  match neighborOf w src d with
  | some dst => wfc__add_prop w src dst d
  | none => w

/-- `wfc__tile_enabled`: the source cell enables `tile_idx` in direction
`d` iff some candidate of the source cell allows it. -/
def wfc__tile_enabled (w : Wfc) (tile_idx cell_idx : Nat) (d : Direction) : Bool :=
  (cellAt w cell_idx).tiles.any fun s => w.allowed d s tile_idx

/-- `wfc__is_prop_pending`: scan the worklist tail
`[prop_idx+1, prop_cnt)` for an entry with the given source cell and
direction. -/
def wfc__is_prop_pending (w : Wfc) (cell_idx : Nat) (d : Direction) : Bool :=
  (w.props.drop (w.prop_idx + 1)).any fun q =>
    decide (q.src_cell_idx = cell_idx ∧ q.direction = d)

/-- The per-destination filtering loop of `wfc__propagate_prop`:
candidates enabled by the source survive; each removal subtracts the
tile's `freq` from `sum_freqs` and adds the removal delta to `entropy`,
and the loop aborts returning failure as soon as `sum_freqs` reaches
`0`.  Returns `(survivors written so far, sum_freqs, entropy, ok)`. -/
def wfc__filter_tiles (w : Wfc) (src : Nat) (d : Direction) :
    List Nat → Int → ℚ → List Nat × Int × ℚ × Bool
  | [], s, e => ([], s, e, true)
  | t :: rest, s, e =>
    if wfc__tile_enabled w t src d then
      match wfc__filter_tiles w src d rest s e with
      | (l, s', e', ok) => (t :: l, s', e', ok)
    else
      let s' := s - (freqOf w t : Int)
      let e' := e + w.plogp (freqOf w t)
      if s' = 0 then ([], s', e', false)
      else wfc__filter_tiles w src d rest s' e'

/-- Enqueue one direction from the shrunk destination of `p`, guarded
exactly as in `wfc__propagate_prop`: the direction pointing back toward
the source (for incoming `p.direction` that is `opposite p.direction`)
is skipped, as is any direction for which an identical entry is already
pending in the worklist tail. -/
def enqueueOne (p : WfcProp) (d : Direction) (w : Wfc) : Wfc :=
  if p.direction ≠ opposite d
      ∧ wfc__is_prop_pending w p.dst_cell_idx d = false then
    wfc__add_prop_dir w p.dst_cell_idx d
  else w

/-- The post-shrink bookkeeping of `wfc__propagate_prop`: bump
`collapsed_cell_cnt` when the destination became a singleton, then try
to enqueue UP, DOWN, LEFT, RIGHT in that order. -/
def bumpAndEnqueue (w : Wfc) (p : WfcProp) (newLen : Nat) : Wfc :=
  let wa := if newLen = 1 then
      {w with collapsed_cell_cnt := w.collapsed_cell_cnt + 1}
    else w
  enqueueOne p Direction.right
    (enqueueOne p Direction.left
      (enqueueOne p Direction.down
        (enqueueOne p Direction.up wa)))

/-- `wfc__propagate_prop`: filter the destination cell's candidates by
the source cell.  On failure (some prefix of removals drove `sum_freqs`
to `0`, or no candidate survived) the destination keeps its partially
compacted candidate buffer and the updated `sum_freqs`/`entropy`; on
success, if the candidate set shrank, run the post-shrink bookkeeping
and store the survivors. -/
def wfc__propagate_prop (w : Wfc) (p : WfcProp) : Bool × Wfc :=
  let dst := cellAt w p.dst_cell_idx
  match wfc__filter_tiles w p.src_cell_idx p.direction dst.tiles
      dst.sum_freqs dst.entropy with
  | (sv, s', e', false) =>
    (false, setCell w p.dst_cell_idx ⟨sv ++ dst.tiles.drop sv.length, s', e'⟩)
  | (sv, s', e', true) =>
    if sv.length = 0 then
      (false, setCell w p.dst_cell_idx ⟨dst.tiles, s', e'⟩)
    else
      let w1 := if dst.tiles.length ≠ sv.length then bumpAndEnqueue w p sv.length
        else w
      (true, setCell w1 p.dst_cell_idx ⟨sv, s', e'⟩)

/-- The worklist loop of `wfc__propagate`, with fuel standing in for the
C `for` loop over the growing worklist (the chosen fuel strictly
exceeds the lexicographic bound `4*totalTiles + pending`, so the `0`
case is never reached from `wfc__propagate`). -/
def wfc__propagate_loop : Nat → Wfc → Bool × Wfc
  | 0, w => (false, w)
  | Nat.succ fuel, w =>
    if w.prop_idx < w.props.length then
      match wfc__propagate_prop w (w.props.getD w.prop_idx default) with
      | (false, w') => (false, w')
      | (true, w') => wfc__propagate_loop fuel {w' with prop_idx := w'.prop_idx + 1}
    else (true, w)

/-- `wfc__propagate`: reset the worklist, seed it with the up-to-four
in-bounds neighbours of `cell_idx`, then run entries to exhaustion. -/
def wfc__propagate (w : Wfc) (cell_idx : Nat) : Bool × Wfc :=
  let w0 := {w with props := [], prop_idx := 0}
  let w1 := wfc__add_prop_dir w0 cell_idx Direction.up
  let w2 := wfc__add_prop_dir w1 cell_idx Direction.down
  let w3 := wfc__add_prop_dir w2 cell_idx Direction.left
  let w4 := wfc__add_prop_dir w3 cell_idx Direction.right
  wfc__propagate_loop (4 * totalTiles w4 + w4.props.length + 1) w4

/-- The candidate-selection loop of `wfc__collapse`: subtract each
candidate's frequency from `remaining` until it no longer covers it. -/
def wfc__collapse_find (w : Wfc) : Int → List Nat → Option Nat
  | _, [] => none
  | remaining, t :: rest =>
    if (freqOf w t : Int) ≤ remaining then
      wfc__collapse_find w (remaining - (freqOf w t : Int)) rest
    else some t

/-- `wfc__collapse`: frequency-weighted sampling by
`rand() % sum_freqs`; the winner becomes the singleton candidate with
`sum_freqs = 0` and `entropy = 0`, and `collapsed_cell_cnt` is bumped.
Returns failure when no candidate absorbs the draw. -/
def wfc__collapse (w : Wfc) (cell_idx : Nat) : Bool × Wfc :=
  let remaining : Int := (w.rand w.ridx : Int) % (cellAt w cell_idx).sum_freqs
  match wfc__collapse_find w remaining (cellAt w cell_idx).tiles with
  | none => (false, {w with ridx := w.ridx + 1})
  | some t =>
    (true,
      {setCell {w with ridx := w.ridx + 1} cell_idx ⟨[t], 0, 0⟩ with
        collapsed_cell_cnt := w.collapsed_cell_cnt + 1})

/-- One iteration of the `wfc__next_cell` scan over cell `i`: jittered
entropy below the running minimum (an absent minimum is `DBL_MAX`) and
`tile_cnt != 1` make `i` the new best. -/
def nextCellStep (w : Wfc) (acc : Int × Option ℚ) (i : Nat) : Int × Option ℚ :=
  let e : ℚ := (cellAt w i).entropy
    + (w.rand (w.ridx + i) : ℚ) / (100000 * 2147483647)
  let cond : Bool :=
    decide ((cellAt w i).tiles.length ≠ 1)
      && (match acc.2 with
          | none => true
          | some m => decide (e < m))
  if cond = true then ((i : Int), some e) else acc

/-- `wfc__next_cell`: scan all cells, drawing one jitter value per cell,
and return the index of the minimum-entropy cell among those with
`tile_cnt != 1`, or `-1` when every cell is a singleton. -/
def wfc__next_cell (w : Wfc) : Int × Wfc :=
  let n := w.cells.length
  let best := (List.range n).foldl (nextCellStep w) ((-1 : Int), (none : Option ℚ))
  (best.1, {w with ridx := w.ridx + n})

/-- `wfc__init_cells`: recompute the global frequency sum and initial
entropy, reset every cell to all `tile_cnt` candidates in canonical
order, and clear the worklist. -/
def wfc__init_cells (w : Wfc) : Wfc :=
  let sf : Int := (w.tiles.map fun t => (t.freq : Int)).sum
  let ent : ℚ := -((w.tiles.map fun t => w.plogp t.freq).sum)
  {w with
    sum_freqs := sf
    cells := w.cells.map fun _ => ⟨List.range w.tiles.length, sf, ent⟩
    props := []}

/-- `wfc_init`: zero the collapsed counter and reset the cells (the
reseeded RNG is the state's abstract stream). -/
def wfc_init (w : Wfc) : Wfc :=
  wfc__init_cells {w with collapsed_cell_cnt := 0}

/-- The `while(1)` loop of `wfc_run`, with fuel standing in for the
unbounded C loop (each successful iteration collapses a cell picked by
`wfc__next_cell`, so `totalTiles + 1` iterations always suffice; fuel
exhaustion conservatively reports failure). -/
def wfc__run_loop : Nat → Wfc → Int → Nat → Bool × Wfc
  | 0, w, _, _ => (false, w)
  | Nat.succ fuel, w, maxc, cell_idx =>
    match wfc__collapse w cell_idx with
    | (false, w1) => (false, w1)
    | (true, w1) =>
      match wfc__propagate w1 cell_idx with
      | (false, w2) => (false, w2)
      | (true, w2) =>
        match wfc__next_cell w2 with
        | (ci, w3) =>
          if ci = -1 ∨ (w3.collapsed_cell_cnt : Int) = maxc then (true, w3)
          else wfc__run_loop fuel w3 maxc ci.toNat

/-- `wfc_run`: pick the first cell uniformly at random, then loop
collapse → propagate → next-cell until no choosable cell remains, the
budget is hit, or a contradiction occurs. -/
def wfc_run (w0 : Wfc) (max_collapse_cnt : Int) : Bool × Wfc :=
  let r := w0.rand w0.ridx
  let w := {w0 with ridx := w0.ridx + 1}
  let cell_idx := r % (w.output_height * w.output_width)
  wfc__run_loop (totalTiles w + 1) w max_collapse_cnt cell_idx

/-- `wfc_output_image`: per output pixel, average component `j` of the
first `component_cnt` bytes (the top-left pixel) of every remaining
candidate's image, truncating the division; the byte store is the
`unsigned char` cast. -/
def wfc_output_image (w : Wfc) : WfcImage :=
  { width := w.output_width
    height := w.output_height
    component_cnt := w.image_component_cnt
    data :=
      (List.range w.output_height).flatMap fun y =>
        (List.range w.output_width).flatMap fun x =>
          (List.range w.image_component_cnt).map fun i =>
            (((cellAt w (y * w.output_width + x)).tiles.map fun t =>
                byteAt (w.tiles.getD t default).image i).sum
              / (cellAt w (y * w.output_width + x)).tiles.length) % 256 }

/-! ## Frame: fields the solver loop never changes -/

/-- The rule data, grid geometry and cell count are never modified by
the solving operations. -/
def Frame (w w' : Wfc) : Prop :=
  w'.tiles = w.tiles ∧ w'.allowed = w.allowed
  ∧ w'.output_width = w.output_width ∧ w'.output_height = w.output_height
  ∧ w'.image_component_cnt = w.image_component_cnt
  ∧ w'.cells.length = w.cells.length
  ∧ w'.plogp = w.plogp ∧ w'.rand = w.rand

/-! ## Concrete solver states used by witnesses and counterexamples -/

/-- A two-pattern solver on a `2×1` grid whose compiled rules allow
every adjacency, with the RNG stream pinned to `0`. -/
def solverStripe : Wfc :=
  { tiles := [⟨⟨[0], 1, 1, 1⟩, 1⟩, ⟨⟨[255], 1, 1, 1⟩, 1⟩]
    allowed := fun _ _ _ => true
    output_width := 2
    output_height := 1
    image_component_cnt := 1
    cells := [default, default]
    sum_freqs := 0
    props := []
    prop_idx := 0
    collapsed_cell_cnt := 0
    rand := fun _ => 0
    ridx := 0
    plogp := fun _ => 0 }

/-- Same grid and tiles as `solverStripe` but with an all-false
adjacency matrix: the first propagation always contradicts. -/
def solverContra : Wfc :=
  { solverStripe with allowed := fun _ _ _ => false }

/-- A single-pattern solver on a `2×1` grid: after init every cell is
already a singleton. -/
def solverSingle : Wfc :=
  { solverStripe with tiles := [⟨⟨[42], 1, 1, 1⟩, 1⟩] }

/-! ### Collapse success and collapsed-count bookkeeping -/

/-- Sum of the tile frequencies referenced by a candidate list. -/
def intFreqSum (w : Wfc) (l : List Nat) : Int :=
  (l.map fun t => (freqOf w t : Int)).sum

/-! ## Claim C4: collapse on a cell with `sum_freqs = 0` -/

/-- A solver state whose cell `0` has `sum_freqs = 0` while still
holding candidate `0` of frequency `5` (exactly the shape every
collapsed cell has), with the next drawn random value `3`. -/
def solverSumZero : Wfc :=
  { tiles := [⟨⟨[7], 1, 1, 1⟩, 5⟩]
    allowed := fun _ _ _ => true
    output_width := 1
    output_height := 1
    image_component_cnt := 1
    cells := [⟨[0], 0, 0⟩]
    sum_freqs := 5
    props := []
    prop_idx := 0
    collapsed_cell_cnt := 0
    rand := fun _ => 3
    ridx := 0
    plogp := fun _ => 0 }

/-- A one-cell solver with two surviving candidates whose top-left
bytes are `10` and `20`. -/
def solverBlend : Wfc :=
  { tiles := [⟨⟨[10], 1, 1, 1⟩, 1⟩, ⟨⟨[20], 1, 1, 1⟩, 1⟩]
    allowed := fun _ _ _ => true
    output_width := 1
    output_height := 1
    image_component_cnt := 1
    cells := [⟨[0, 1], 2, 0⟩]
    sum_freqs := 2
    props := []
    prop_idx := 0
    collapsed_cell_cnt := 0
    rand := fun _ => 0
    ridx := 0
    plogp := fun _ => 0 }

/-! ### The collapsed-count bookkeeping invariant -/

/-- Number of cells whose candidate count equals `1`. -/
def countSingles (w : Wfc) : Nat :=
  w.cells.countP fun c => decide (c.tiles.length = 1)

/-- `collapsed_cell_cnt` agrees with the number of singleton cells. -/
def CountInv (w : Wfc) : Prop :=
  w.collapsed_cell_cnt = countSingles w

/-! ### Grid geometry -/

/-- `(u, v)` are grid-adjacent in direction `d`: `v` is the in-bounds
neighbour that `wfc__add_prop_up/down/left/right` would choose. -/
def Adjacent (w : Wfc) (u v : Nat) (d : Direction) : Prop :=
  u < w.cells.length ∧ neighborOf w u d = some v

/-! ### The arc-consistency invariant for C1 -/

/-- A propagation from cell `i` in direction `d` is still queued: some
not-yet-consumed worklist entry carries that source and direction. -/
def pendingFrom (w : Wfc) (i : Nat) (d : Direction) : Prop :=
  ∃ q ∈ w.props.drop w.prop_idx, q.src_cell_idx = i ∧ q.direction = d

/-- Same, restricted to entries strictly after the one being processed:
the range scanned by `wfc__is_prop_pending`. -/
def tailPending (w : Wfc) (i : Nat) (d : Direction) : Prop :=
  ∃ q ∈ w.props.drop (w.prop_idx + 1), q.src_cell_idx = i ∧ q.direction = d

/-- Every worklist entry records a genuine in-bounds grid edge. -/
def PropsWF (w : Wfc) : Prop :=
  ∀ q ∈ w.props, q.src_cell_idx < w.cells.length ∧
    neighborOf w q.src_cell_idx q.direction = some q.dst_cell_idx

/-- The candidate of a collapsed (singleton) cell. -/
def tileOf (w : Wfc) (i : Nat) : Nat := (cellAt w i).tiles.getD 0 0

/-- Arc consistency modulo pending work on the edge `(u, v, d)`:
if both endpoints are singletons, they are compatible unless a
propagation across that edge is still queued in either orientation. -/
def EdgeOK (w : Wfc) (u v : Nat) (d : Direction) : Prop :=
  (cellAt w u).tiles.length = 1 → (cellAt w v).tiles.length = 1 →
    (w.allowed d (tileOf w u) (tileOf w v) = true ∨
      pendingFrom w u d ∨ pendingFrom w v (opposite d))

def KInv (w : Wfc) : Prop := ∀ u v d, Adjacent w u v d → EdgeOK w u v d

/-- Arc consistency with no escape hatch: what `KInv` becomes once the
worklist is exhausted. -/
def QuiescentK (w : Wfc) : Prop :=
  ∀ u v d, Adjacent w u v d → (cellAt w u).tiles.length = 1 →
    (cellAt w v).tiles.length = 1 →
    w.allowed d (tileOf w u) (tileOf w v) = true

/-- Worklist extension: within one propagation step the solver only
appends entries to `props` and leaves the cursor alone. -/
def PropsExt (w w' : Wfc) : Prop :=
  w'.prop_idx = w.prop_idx ∧ ∃ e, w'.props = w.props ++ e

/-- The worklist-seeding prefix of `wfc__propagate`: clear the
worklist, then enqueue the up-to-four in-bounds neighbours of
`cell_idx`. -/
def seedState (w : Wfc) (cell_idx : Nat) : Wfc :=
  wfc__add_prop_dir (wfc__add_prop_dir (wfc__add_prop_dir
    (wfc__add_prop_dir {w with props := [], prop_idx := 0}
      cell_idx Direction.up) cell_idx Direction.down) cell_idx
    Direction.left) cell_idx Direction.right

/-! ### The single-pattern (`tile_cnt = 1`) special case -/

/-- With a single pattern, every in-bounds cell holds the candidate
list `[0]` throughout the run. -/
def AllP1 (w : Wfc) : Prop :=
  ∀ i, i < w.cells.length → (cellAt w i).tiles = [0]

/-! ## Theorems -/

/-! ## List indexing helpers -/

theorem getD_append_left {α : Type} (l l' : List α) (d : α) (n : Nat)
    (h : n < l.length) : (l ++ l').getD n d = l.getD n d := by
  induction l generalizing n with
  | nil => simp at h
  | cons a t ih =>
    cases n with
    | zero => rfl
    | succ m =>
      simp only [List.cons_append, List.getD_cons_succ]
      exact ih m (by simpa using h)

theorem getD_append_right {α : Type} (l l' : List α) (d : α) (n : Nat)
    (h : l.length ≤ n) : (l ++ l').getD n d = l'.getD (n - l.length) d := by
  induction l generalizing n with
  | nil => simp
  | cons a t ih =>
    cases n with
    | zero => simp at h
    | succ m =>
      simp only [List.cons_append, List.getD_cons_succ, List.length_cons]
      rw [ih m (by simpa using h)]
      congr 1
      omega

/-- Length of a concatenation of `n` constant-length chunks. -/
theorem length_range_flatMap {α : Type} (f : Nat → List α) (L n : Nat)
    (hL : ∀ i, (f i).length = L) :
    ((List.range n).flatMap f).length = n * L := by
  induction n with
  | zero => simp
  | succ m ih =>
    rw [List.range_succ, List.flatMap_append]
    simp only [List.length_append, ih, List.flatMap_cons, List.flatMap_nil,
      List.append_nil, hL]
    ring

/-- Indexing into a concatenation of constant-length chunks. -/
theorem getD_range_flatMap {α : Type} (f : Nat → List α) (L n q r : Nat)
    (d : α) (hL : ∀ i, (f i).length = L) (hq : q < n) (hr : r < L) :
    ((List.range n).flatMap f).getD (q * L + r) d = (f q).getD r d := by
  induction n with
  | zero => omega
  | succ m ih =>
    rw [List.range_succ, List.flatMap_append]
    rcases Nat.lt_or_ge q m with hq' | hq'
    · rw [getD_append_left]
      · exact ih hq'
      · rw [length_range_flatMap f L m hL]
        calc q * L + r < q * L + L := by omega
          _ = (q + 1) * L := by ring
          _ ≤ m * L := Nat.mul_le_mul_right L (by omega)
    · have hqm : q = m := by omega
      subst hqm
      rw [getD_append_right]
      · rw [length_range_flatMap f L q hL]
        simp only [List.flatMap_cons, List.flatMap_nil, List.append_nil]
        congr 1
        omega
      · rw [length_range_flatMap f L q hL]
        omega

/-! ## Overlap symmetry helpers -/

theorem all_all_congr {m n : Nat} {f g : Nat → Nat → Bool}
    (h : ∀ y, y < m → ∀ k, k < n → f y k = g y k) :
    ((List.range m).all fun y => (List.range n).all fun k => f y k)
      = ((List.range m).all fun y => (List.range n).all fun k => g y k) := by
  rw [Bool.eq_iff_iff]
  simp only [List.all_eq_true, List.mem_range]
  constructor <;> intro H y hy k hk
  · rw [← h y hy k hk]
    exact H y hy k hk
  · rw [h y hy k hk]
    exact H y hy k hk

/-- Direction-reversal symmetry of the overlap test for images of equal
dimensions and components. -/
theorem cmpoverlap_symm (a b : WfcImage) (hw : a.width = b.width)
    (hh : a.height = b.height) (hc : a.component_cnt = b.component_cnt)
    (d : Direction) :
    wfc__img_cmpoverlap a b d = wfc__img_cmpoverlap b a (opposite d) := by
  cases d <;>
    (simp only [wfc__img_cmpoverlap, overlapParams, opposite, ← hw, ← hh, ← hc]
     exact all_all_congr fun y _ k _ => decide_eq_decide.mpr eq_comm)

theorem getD_map_range {α : Type} (f : Nat → α) (n i : Nat) (d : α)
    (h : i < n) : ((List.range n).map f).getD i d = f i := by
  rw [List.getD_eq_getElem ((List.range n).map f) d (by simpa using h)]
  simp

theorem expandRow_length (image : WfcImage) (xexp y : Nat) :
    (expandRow image xexp y).length
      = (image.width + xexp) * image.component_cnt := by
  simp only [expandRow, List.length_append, List.length_map, List.length_range]
  ring

/-- The byte each result coordinate of `wfc__img_expand` receives, as a
function of the input raster.  Horizontal coordinates `x < width` come
from the first `memcpy`; coordinates `width ≤ x < width + xexp` come
from the second, which rereads the first `xexp` pixels of the source
row. -/
theorem img_expand_byte (image : WfcImage) (xexp yexp x y c : Nat)
    (hxr : x < image.width + xexp) (hyr : y < image.height + yexp)
    (hcc : c < image.component_cnt) :
    byteAt (wfc__img_expand image xexp yexp)
        ((y * (image.width + xexp) + x) * image.component_cnt + c)
      = if x < image.width then
          byteAt image
            ((y % image.height) * image.width * image.component_cnt
              + x * image.component_cnt + c)
        else
          byteAt image
            ((y % image.height) * image.width * image.component_cnt
              + (x - image.width) * image.component_cnt + c) := by
  have hidx : (y * (image.width + xexp) + x) * image.component_cnt + c
      = y * ((image.width + xexp) * image.component_cnt)
        + (x * image.component_cnt + c) := by ring
  have hr : x * image.component_cnt + c
      < (image.width + xexp) * image.component_cnt := by
    calc x * image.component_cnt + c
        < x * image.component_cnt + image.component_cnt := by omega
      _ = (x + 1) * image.component_cnt := by ring
      _ ≤ (image.width + xexp) * image.component_cnt :=
          Nat.mul_le_mul_right _ (by omega)
  rw [byteAt, wfc__img_expand, hidx,
    getD_range_flatMap (expandRow image xexp)
      ((image.width + xexp) * image.component_cnt)
      (image.height + yexp) y (x * image.component_cnt + c) 0
      (fun i => expandRow_length image xexp i) hyr hr]
  rw [expandRow]
  rcases Nat.lt_or_ge x image.width with hx | hx
  · have hb : x * image.component_cnt + c
        < image.width * image.component_cnt := by
      calc x * image.component_cnt + c
          < x * image.component_cnt + image.component_cnt := by omega
        _ = (x + 1) * image.component_cnt := by ring
        _ ≤ image.width * image.component_cnt :=
            Nat.mul_le_mul_right _ (by omega)
    rw [if_pos hx, getD_append_left]
    · rw [getD_map_range]
      · ring_nf
      · exact hb
    · simpa using hb
  · rw [if_neg (by omega), getD_append_right]
    · simp only [List.length_map, List.length_range]
      rw [getD_map_range]
      · have : x * image.component_cnt + c - image.width * image.component_cnt
            = (x - image.width) * image.component_cnt + c := by
          have h1 : x * image.component_cnt
              = (x - image.width) * image.component_cnt
                + image.width * image.component_cnt := by
            rw [← Nat.add_mul]
            congr 1
            omega
          omega
        rw [this]
        ring_nf
      · have hxe : x - image.width < xexp := by omega
        calc x * image.component_cnt + c - image.width * image.component_cnt
            ≤ (x - image.width) * image.component_cnt + c := by
              have h1 : x * image.component_cnt
                  = (x - image.width) * image.component_cnt
                    + image.width * image.component_cnt := by
                rw [← Nat.add_mul]
                congr 1
                omega
              omega
          _ < (x - image.width) * image.component_cnt + image.component_cnt := by
              omega
          _ = (x - image.width + 1) * image.component_cnt := by ring
          _ ≤ xexp * image.component_cnt := Nat.mul_le_mul_right _ (by omega)
    · simp only [List.length_map, List.length_range]
      calc image.width * image.component_cnt
          ≤ x * image.component_cnt := Nat.mul_le_mul_right _ hx
        _ ≤ x * image.component_cnt + c := by omega

/-! ## Claim C6: overlap symmetry -/

/-- C6: for every two patterns of equal dimensions and components and
every direction `d`, the overlap test is symmetric under direction
reversal, `overlap(a,b,d) = overlap(b,a,opposite(d))`; consequently the
compiled matrix satisfies `allowed[d][a][b] = allowed[opposite(d)][b][a]`
whenever all tiles share one dimension triple. -/
theorem claim_C6 :
    (∀ a b : WfcImage, a.width = b.width → a.height = b.height →
      a.component_cnt = b.component_cnt → ∀ d : Direction,
        wfc__img_cmpoverlap a b d = wfc__img_cmpoverlap b a (opposite d))
    ∧ (∀ (tiles : List WfcTile) (tw th cc : Nat),
        (∀ t ∈ tiles, t.image.width = tw ∧ t.image.height = th
          ∧ t.image.component_cnt = cc) →
        ∀ (d : Direction) (i j : Nat), i < tiles.length → j < tiles.length →
          wfc__compute_allowed_tiles tiles d i j
            = wfc__compute_allowed_tiles tiles (opposite d) j i) := by
  constructor
  · exact fun a b hw hh hc d => cmpoverlap_symm a b hw hh hc d
  · intro tiles tw th cc hdims d i j hi hj
    have hmi : tiles.getD i default ∈ tiles := by
      rw [List.getD_eq_getElem tiles default hi]
      exact List.getElem_mem hi
    have hmj : tiles.getD j default ∈ tiles := by
      rw [List.getD_eq_getElem tiles default hj]
      exact List.getElem_mem hj
    obtain ⟨hwi, hhi, hci⟩ := hdims _ hmi
    obtain ⟨hwj, hhj, hcj⟩ := hdims _ hmj
    exact cmpoverlap_symm _ _ (hwi.trans hwj.symm) (hhi.trans hhj.symm)
      (hci.trans hcj.symm) d

/-- Witness for C6 at concrete 2×1 single-channel tiles. -/
theorem claim_C6_witness :
    wfc__img_cmpoverlap tileStripeA.image tileStripeB.image Direction.right
        = wfc__img_cmpoverlap tileStripeB.image tileStripeA.image Direction.left
    ∧ wfc__compute_allowed_tiles [tileStripeA, tileStripeB] Direction.right 0 1
        = wfc__compute_allowed_tiles [tileStripeA, tileStripeB] Direction.left 1 0 :=
  ⟨claim_C6.1 tileStripeA.image tileStripeB.image rfl rfl rfl Direction.right,
    claim_C6.2 [tileStripeA, tileStripeB] 2 1 1 (by decide) Direction.right 0 1
      (by decide) (by decide)⟩

/-- C7 counterexample: with `xexp = 2` larger than the input width `1`,
the result pixel `(2, 0)` is `7` (the second `memcpy` reads past the
source row into the next row), while the claimed value
`input(2 mod 1, 0 mod 2) = input(0,0)` is `5`. -/
theorem claim_C7_cex :
    ¬ (byteAt (wfc__img_expand imgTall 2 0)
          ((0 * (imgTall.width + 2) + 2) * imgTall.component_cnt + 0)
        = byteAt imgTall
          (((0 % imgTall.height) * imgTall.width + 2 % imgTall.width)
            * imgTall.component_cnt + 0)) := by
  decide

/-- C7 (amended): for every raster with positive dimensions and every
expansion amounts with `xexp ≤ width`, wrap-expansion produces a raster
of size `(W+xexp, H+yexp)` in which pixel `(x, y)` equals the input
pixel `(x mod W, y mod H)`. -/
theorem claim_C7 (image : WfcImage) (xexp yexp x y c : Nat)
    (hW : 0 < image.width) (hH : 0 < image.height)
    (hxe : xexp ≤ image.width)
    (hxr : x < image.width + xexp) (hyr : y < image.height + yexp)
    (hcc : c < image.component_cnt) :
    (wfc__img_expand image xexp yexp).width = image.width + xexp
    ∧ (wfc__img_expand image xexp yexp).height = image.height + yexp
    ∧ byteAt (wfc__img_expand image xexp yexp)
        ((y * (image.width + xexp) + x) * image.component_cnt + c)
      = byteAt image
        (((y % image.height) * image.width + x % image.width)
          * image.component_cnt + c) := by
  refine ⟨rfl, rfl, ?_⟩
  rw [img_expand_byte image xexp yexp x y c hxr hyr hcc]
  rcases Nat.lt_or_ge x image.width with hx | hx
  · rw [if_pos hx, Nat.mod_eq_of_lt hx]
    congr 1
    ring
  · rw [if_neg (by omega)]
    have hmod : x % image.width = x - image.width := by
      rw [Nat.mod_eq_sub_mod hx, Nat.mod_eq_of_lt (by omega)]
    rw [hmod]
    congr 1
    ring

/-- Witness for C7 at the spec's 2×2 example expanded by `(1,1)`:
result pixel `(2,2)` equals input pixel `(0,0) = 1`. -/
theorem claim_C7_witness :
    byteAt (wfc__img_expand imgSquare 1 1) ((2 * (2 + 1) + 2) * 1 + 0)
      = byteAt imgSquare (((2 % 2) * 2 + 2 % 2) * 1 + 0) :=
  (claim_C7 imgSquare 1 1 2 2 0 (by decide) (by decide) (by decide)
    (by decide) (by decide) (by decide)).2.2

/-! ## Byte-equality of images is an equivalence -/

theorem all_range_congr {n : Nat} {f g : Nat → Bool}
    (h : ∀ i, i < n → f i = g i) :
    (List.range n).all f = (List.range n).all g := by
  rw [Bool.eq_iff_iff]
  simp only [List.all_eq_true, List.mem_range]
  constructor <;> intro H i hi
  · rw [← h i hi]
    exact H i hi
  · rw [h i hi]
    exact H i hi

theorem img_cmp_refl (a : WfcImage) : wfc__img_cmp a a = true := by
  rw [wfc__img_cmp, if_pos ⟨rfl, rfl, rfl⟩]
  simp

theorem img_cmp_symm (a b : WfcImage) : wfc__img_cmp a b = wfc__img_cmp b a := by
  by_cases hd : a.width = b.width ∧ a.height = b.height
      ∧ a.component_cnt = b.component_cnt
  · rw [wfc__img_cmp, wfc__img_cmp, if_pos hd,
      if_pos ⟨hd.1.symm, hd.2.1.symm, hd.2.2.symm⟩]
    obtain ⟨hw, hh, hc⟩ := hd
    simp only [← hw, ← hh, ← hc]
    exact all_range_congr fun i _ => decide_eq_decide.mpr eq_comm
  · rw [wfc__img_cmp, wfc__img_cmp, if_neg hd, if_neg]
    intro h
    exact hd ⟨h.1.symm, h.2.1.symm, h.2.2.symm⟩

theorem img_cmp_trans {a b c : WfcImage} (hab : wfc__img_cmp a b = true)
    (hbc : wfc__img_cmp b c = true) : wfc__img_cmp a c = true := by
  rw [wfc__img_cmp] at hab hbc ⊢
  by_cases hd : a.width = b.width ∧ a.height = b.height
      ∧ a.component_cnt = b.component_cnt
  · rw [if_pos hd] at hab
    by_cases hd' : b.width = c.width ∧ b.height = c.height
        ∧ b.component_cnt = c.component_cnt
    · rw [if_pos hd'] at hbc
      rw [if_pos ⟨hd.1.trans hd'.1, hd.2.1.trans hd'.2.1, hd.2.2.trans hd'.2.2⟩]
      simp only [List.all_eq_true, List.mem_range, decide_eq_true_eq] at hab hbc ⊢
      intro i hi
      rw [hab i hi, hbc i]
      rw [← hd.1, ← hd.2.1, ← hd.2.2]
      exact hi
    · rw [if_neg hd'] at hbc
      exact absurd hbc (by simp)
  · rw [if_neg hd] at hab
    exact absurd hab (by simp)

theorem bumpFirstMatch_none (kept : List WfcTile) (img : WfcImage)
    (h : bumpFirstMatch kept img = none) :
    ∀ k ∈ kept, wfc__img_cmp img k.image = false := by
  induction kept with
  | nil => simp
  | cons k rest ih =>
    rw [bumpFirstMatch] at h
    by_cases hk : wfc__img_cmp img k.image
    · rw [if_pos hk] at h
      exact absurd h (by simp)
    · rw [if_neg hk] at h
      intro k' hk'
      rcases List.mem_cons.mp hk' with rfl | hmem
      · exact Bool.not_eq_true _ ▸ (by simpa using hk)
      · rcases hrec : bumpFirstMatch rest img with _ | v
        · exact ih hrec k' hmem
        · rw [hrec] at h
          exact absurd h (by simp)

theorem bumpFirstMatch_some (kept : List WfcTile) (img : WfcImage)
    (kept' : List WfcTile) (h : bumpFirstMatch kept img = some kept') :
    ∃ l1 k0 l2, kept = l1 ++ k0 :: l2
      ∧ (∀ k ∈ l1, wfc__img_cmp img k.image = false)
      ∧ wfc__img_cmp img k0.image = true
      ∧ kept' = l1 ++ ⟨k0.image, k0.freq + 1⟩ :: l2 := by
  induction kept generalizing kept' with
  | nil => exact absurd h (by simp [bumpFirstMatch])
  | cons k rest ih =>
    rw [bumpFirstMatch] at h
    by_cases hk : wfc__img_cmp img k.image
    · rw [if_pos hk] at h
      refine ⟨[], k, rest, by simp, by simp, hk, ?_⟩
      simpa using h.symm
    · rw [if_neg hk] at h
      rcases hrec : bumpFirstMatch rest img with _ | v
      · rw [hrec] at h
        exact absurd h (by simp)
      · rw [hrec] at h
        obtain ⟨l1, k0, l2, hsplit, hl1, hk0, hv⟩ := ih v hrec
        refine ⟨k :: l1, k0, l2, by simp [hsplit], ?_, hk0, ?_⟩
        · intro k' hk'
          rcases List.mem_cons.mp hk' with rfl | hmem
          · simpa using hk
          · exact hl1 k' hmem
        · have : kept' = k :: v := by simpa using h.symm
          simp [this, hv]

theorem specFirstOccurrences_append (l : List WfcImage) (x : WfcImage) :
    specFirstOccurrences (l ++ [x])
      = if (specFirstOccurrences l).any fun i => wfc__img_cmp i x then
          specFirstOccurrences l
        else specFirstOccurrences l ++ [x] := by
  rw [specFirstOccurrences, List.foldl_append]
  rfl

theorem dedupStep_inv (pre kept : List WfcTile) (t : WfcTile)
    (ht : t.freq = 1) (hinv : DedupInv pre kept) :
    DedupInv (pre ++ [t]) (dedupStep kept t) := by
  obtain ⟨hmap, hfreq, hcover, hpw⟩ := hinv
  rw [dedupStep]
  rcases hbump : bumpFirstMatch kept t.image with _ | kept'
  · -- no kept tile matches: `t` is appended with its own freq
    have hnomatch := bumpFirstMatch_none kept t.image hbump
    have hnomatch' : ∀ k ∈ kept, wfc__img_cmp k.image t.image = false :=
      fun k hk => (img_cmp_symm k.image t.image).trans (hnomatch k hk)
    have hmapt : (pre ++ [t]).map (fun u => u.image)
        = pre.map (fun u => u.image) ++ [t.image] := by simp
    refine ⟨?_, ?_, ?_, ?_⟩
    · have hc : ¬ ((kept.map fun u => u.image).any
          fun i => wfc__img_cmp i t.image) = true := by
        rw [List.any_eq_true]
        rintro ⟨i, hi, hci⟩
        obtain ⟨k, hk, rfl⟩ := List.mem_map.mp hi
        rw [hnomatch' k hk] at hci
        exact absurd hci (by simp)
      rw [hmapt, specFirstOccurrences_append, ← hmap, if_neg hc]
      simp
    · intro u hu
      rcases List.mem_append.mp hu with hu | hu
      · rw [hfreq u hu, List.countP_append]
        simp [List.countP_cons, hnomatch u hu]
      · have hu' : u = t := by simpa using hu
        subst hu'
        rw [List.countP_append]
        have hzero : pre.countP (fun v => wfc__img_cmp v.image u.image) = 0 := by
          rw [List.countP_eq_zero]
          intro v hv hmatch
          obtain ⟨k, hk, hkv⟩ := hcover v hv
          have : wfc__img_cmp k.image u.image = true :=
            img_cmp_trans hkv (by simpa using hmatch)
          rw [hnomatch' k hk] at this
          exact absurd this (by simp)
        simp [hzero, List.countP_cons, img_cmp_refl, ht]
    · intro y hy
      rcases List.mem_append.mp hy with hy | hy
      · obtain ⟨k, hk, hky⟩ := hcover y hy
        exact ⟨k, List.mem_append_left _ hk, hky⟩
      · have hy' : y = t := by simpa using hy
        subst hy'
        exact ⟨y, List.mem_append_right _ (by simp), img_cmp_refl _⟩
    · rw [List.pairwise_append]
      refine ⟨hpw, by simp, ?_⟩
      intro a ha b hb
      have hb' : b = t := by simpa using hb
      subst hb'
      exact hnomatch' a ha
  · -- first matching kept tile `k0` gets its freq bumped
    obtain ⟨l1, k0, l2, hsplit, hl1, hk0, hkept'⟩ :=
      bumpFirstMatch_some kept t.image kept' hbump
    subst hsplit hkept'
    have himg : (l1 ++ (⟨k0.image, k0.freq + 1⟩ : WfcTile) :: l2).map
        (fun t => t.image) = (l1 ++ k0 :: l2).map fun t => t.image := by
      simp
    -- pairwise distinctness of the kept tiles, restated per element
    have hk0l2 : ∀ k ∈ l2, wfc__img_cmp k0.image k.image = false := by
      have := (List.pairwise_append.mp hpw).2.1
      exact fun k hk => (List.pairwise_cons.mp this).1 k hk
    have hl1k0l2 : ∀ a ∈ l1, ∀ b ∈ k0 :: l2,
        wfc__img_cmp a.image b.image = false :=
      (List.pairwise_append.mp hpw).2.2
    -- `t` matches no kept tile other than `k0`
    have honly : ∀ k ∈ l1 ++ k0 :: l2, k ≠ k0 ∨ (k = k0 ∧ k ∈ l2) →
        True := fun _ _ _ => trivial
    have hmatch_l1 : ∀ k ∈ l1, wfc__img_cmp t.image k.image = false := hl1
    have hmatch_l2 : ∀ k ∈ l2, wfc__img_cmp t.image k.image = false := by
      intro k hk
      by_contra hne
      have hkt : wfc__img_cmp t.image k.image = true := by
        simpa using hne
      have h1 : wfc__img_cmp k0.image k.image = true :=
        img_cmp_trans ((img_cmp_symm k0.image t.image).trans hk0) hkt
      rw [hk0l2 k hk] at h1
      exact absurd h1 (by simp)
    have hmapt : (pre ++ [t]).map (fun u => u.image)
        = pre.map (fun u => u.image) ++ [t.image] := by simp
    refine ⟨?_, ?_, ?_, ?_⟩
    · have hc : (((l1 ++ k0 :: l2).map fun u => u.image).any
          fun i => wfc__img_cmp i t.image) = true := by
        rw [List.any_eq_true]
        exact ⟨k0.image, List.mem_map.mpr ⟨k0, by simp, rfl⟩,
          (img_cmp_symm k0.image t.image).trans hk0⟩
      rw [hmapt, specFirstOccurrences_append, ← hmap, if_pos hc]
      exact himg
    · intro u hu
      rw [List.countP_append]
      have hsingle : List.countP (fun v => wfc__img_cmp v.image u.image) [t]
          = if wfc__img_cmp t.image u.image then 1 else 0 := by
        simp [List.countP_cons]
      rcases List.mem_append.mp hu with hu | hu
      · have hul1 : u ∈ l1 ++ k0 :: l2 := List.mem_append_left _ hu
        rw [hfreq u hul1, hsingle, if_neg]
        · omega
        · simp [hmatch_l1 u hu]
      · rcases List.mem_cons.mp hu with rfl | hu
        · -- the bumped tile
          have hk0mem : k0 ∈ l1 ++ k0 :: l2 := by simp
          rw [hsingle, if_pos]
          · have := hfreq k0 hk0mem
            simp only at this ⊢
            omega
          · simpa using hk0
        · have hul2 : u ∈ l1 ++ k0 :: l2 := by simp [hu]
          rw [hfreq u hul2, hsingle, if_neg]
          · omega
          · simp [hmatch_l2 u hu]
    · intro y hy
      rcases List.mem_append.mp hy with hy | hy
      · obtain ⟨k, hk, hky⟩ := hcover y hy
        rcases List.mem_append.mp hk with hk | hk
        · exact ⟨k, List.mem_append_left _ hk, hky⟩
        · rcases List.mem_cons.mp hk with rfl | hk
          · exact ⟨⟨k.image, k.freq + 1⟩, by simp, hky⟩
          · exact ⟨k, by simp [hk], hky⟩
      · have hy' : y = t := by simpa using hy
        subst hy'
        exact ⟨⟨k0.image, k0.freq + 1⟩, by simp,
          (img_cmp_symm k0.image y.image).trans hk0⟩
    · rw [List.pairwise_append] at hpw ⊢
      obtain ⟨hp1, hp2, hp12⟩ := hpw
      rw [List.pairwise_cons] at hp2 ⊢
      refine ⟨hp1, ⟨fun b hb => hp2.1 b hb, hp2.2⟩, ?_⟩
      intro a ha b hb
      rcases List.mem_cons.mp hb with rfl | hb
      · exact hp12 a ha k0 (by simp)
      · exact hp12 a ha b (by simp [hb])

theorem dedup_fold_inv (rest : List WfcTile)
    (hfreq : ∀ t ∈ rest, t.freq = 1) :
    ∀ pre kept, DedupInv pre kept →
      DedupInv (pre ++ rest) (rest.foldl dedupStep kept) := by
  induction rest with
  | nil => intro pre kept h; simpa using h
  | cons t rest ih =>
    intro pre kept h
    have h1 : DedupInv (pre ++ [t]) (dedupStep kept t) :=
      dedupStep_inv pre kept t (hfreq t (by simp)) h
    have h2 := ih (fun u hu => hfreq u (by simp [hu])) (pre ++ [t])
      (dedupStep kept t) h1
    simpa using h2

/-! ## Claim C8: deduplication -/

/-- C8: for every nonempty pattern sequence with all initial `freq`
values `1`, deduplication keeps exactly the first occurrence of each
distinct image in first-occurrence order, and each kept pattern's
`freq` is its number of occurrences in the sequence. -/
theorem claim_C8 (tiles : List WfcTile) (hne : tiles ≠ [])
    (hfreq : ∀ t ∈ tiles, t.freq = 1) :
    ((wfc__remove_duplicate_tiles tiles).map fun t => t.image)
        = specFirstOccurrences (tiles.map fun t => t.image)
    ∧ ∀ t ∈ wfc__remove_duplicate_tiles tiles,
        t.freq = tiles.countP fun u => wfc__img_cmp u.image t.image := by
  cases tiles with
  | nil => exact absurd rfl hne
  | cons t0 rest =>
    have hbase : DedupInv [t0] [t0] := by
      refine ⟨?_, ?_, ?_, ?_⟩
      · simp [specFirstOccurrences]
      · intro u hu
        have hu' : u = t0 := by simpa using hu
        rw [hu']
        simp [List.countP_cons, img_cmp_refl, hfreq t0 (by simp)]
      · intro y hy
        have hy' : y = t0 := by simpa using hy
        refine ⟨t0, by simp, ?_⟩
        rw [hy']
        exact img_cmp_refl _
      · simp
    have h := dedup_fold_inv rest (fun u hu => hfreq u (by simp [hu]))
      [t0] [t0] hbase
    rw [wfc__remove_duplicate_tiles]
    simp only [List.singleton_append] at h
    exact ⟨h.1, h.2.1⟩

/-- Witness for C8 on the spec's `A,B,A,B` sequence: dedup yields
`A` then `B`, each with frequency `2`. -/
theorem claim_C8_witness :
    (((wfc__remove_duplicate_tiles [tileBlack, tileWhite, tileBlack, tileWhite]).map
          fun t => t.image)
        = specFirstOccurrences
            ([tileBlack, tileWhite, tileBlack, tileWhite].map fun t => t.image)
      ∧ ∀ t ∈ wfc__remove_duplicate_tiles [tileBlack, tileWhite, tileBlack, tileWhite],
          t.freq = [tileBlack, tileWhite, tileBlack, tileWhite].countP
            fun u => wfc__img_cmp u.image t.image)
    ∧ wfc__remove_duplicate_tiles [tileBlack, tileWhite, tileBlack, tileWhite]
        = [⟨tileBlack.image, 2⟩, ⟨tileWhite.image, 2⟩] :=
  ⟨claim_C8 [tileBlack, tileWhite, tileBlack, tileWhite] (by decide) (by decide),
    by decide⟩

theorem frame_refl (w : Wfc) : Frame w w :=
  ⟨rfl, rfl, rfl, rfl, rfl, rfl, rfl, rfl⟩

theorem frame_trans {w1 w2 w3 : Wfc} (h12 : Frame w1 w2) (h23 : Frame w2 w3) :
    Frame w1 w3 :=
  ⟨h23.1.trans h12.1, h23.2.1.trans h12.2.1, h23.2.2.1.trans h12.2.2.1,
    h23.2.2.2.1.trans h12.2.2.2.1, h23.2.2.2.2.1.trans h12.2.2.2.2.1,
    h23.2.2.2.2.2.1.trans h12.2.2.2.2.2.1,
    h23.2.2.2.2.2.2.1.trans h12.2.2.2.2.2.2.1,
    h23.2.2.2.2.2.2.2.trans h12.2.2.2.2.2.2.2⟩

theorem frame_setCell (w : Wfc) (i : Nat) (c : Cell) :
    Frame w (setCell w i c) := by
  refine ⟨rfl, rfl, rfl, rfl, rfl, ?_, rfl, rfl⟩
  simp [setCell]

theorem frame_add_prop (w : Wfc) (src dst : Nat) (d : Direction) :
    Frame w (wfc__add_prop w src dst d) :=
  ⟨rfl, rfl, rfl, rfl, rfl, rfl, rfl, rfl⟩

theorem frame_add_prop_dir (w : Wfc) (src : Nat) (d : Direction) :
    Frame w (wfc__add_prop_dir w src d) := by
  rw [wfc__add_prop_dir]
  rcases neighborOf w src d with _ | dst
  · exact frame_refl w
  · exact frame_add_prop w src dst d

/-! ### Equation lemmas for `wfc__propagate_prop` -/

theorem propagate_prop_eq_fail (w : Wfc) (p : WfcProp) (sv : List Nat)
    (s' : Int) (e' : ℚ)
    (hf : wfc__filter_tiles w p.src_cell_idx p.direction
        (cellAt w p.dst_cell_idx).tiles (cellAt w p.dst_cell_idx).sum_freqs
        (cellAt w p.dst_cell_idx).entropy = (sv, s', e', false)) :
    wfc__propagate_prop w p
      = (false, setCell w p.dst_cell_idx
          ⟨sv ++ (cellAt w p.dst_cell_idx).tiles.drop sv.length, s', e'⟩) := by
  simp only [wfc__propagate_prop]
  rw [hf]

theorem propagate_prop_eq_empty (w : Wfc) (p : WfcProp) (s' : Int) (e' : ℚ)
    (hf : wfc__filter_tiles w p.src_cell_idx p.direction
        (cellAt w p.dst_cell_idx).tiles (cellAt w p.dst_cell_idx).sum_freqs
        (cellAt w p.dst_cell_idx).entropy = ([], s', e', true)) :
    wfc__propagate_prop w p
      = (false, setCell w p.dst_cell_idx
          ⟨(cellAt w p.dst_cell_idx).tiles, s', e'⟩) := by
  simp only [wfc__propagate_prop]
  rw [hf]
  simp

theorem propagate_prop_eq_success (w : Wfc) (p : WfcProp) (sv : List Nat)
    (s' : Int) (e' : ℚ) (hne : sv ≠ [])
    (hf : wfc__filter_tiles w p.src_cell_idx p.direction
        (cellAt w p.dst_cell_idx).tiles (cellAt w p.dst_cell_idx).sum_freqs
        (cellAt w p.dst_cell_idx).entropy = (sv, s', e', true)) :
    wfc__propagate_prop w p
      = (true, setCell
          (if (cellAt w p.dst_cell_idx).tiles.length ≠ sv.length then
            bumpAndEnqueue w p sv.length
          else w) p.dst_cell_idx ⟨sv, s', e'⟩) := by
  simp only [wfc__propagate_prop]
  rw [hf]
  simp [List.length_eq_zero, hne]

theorem frame_enqueueOne (p : WfcProp) (d : Direction) (w : Wfc) :
    Frame w (enqueueOne p d w) := by
  rw [enqueueOne]
  by_cases hc : p.direction ≠ opposite d
      ∧ wfc__is_prop_pending w p.dst_cell_idx d = false
  · rw [if_pos hc]
    exact frame_add_prop_dir _ _ _
  · rw [if_neg hc]
    exact frame_refl w

theorem frame_bumpAndEnqueue (w : Wfc) (p : WfcProp) (n : Nat) :
    Frame w (bumpAndEnqueue w p n) := by
  have h1 : Frame w
      (if n = 1 then {w with collapsed_cell_cnt := w.collapsed_cell_cnt + 1}
       else w) := by
    by_cases hn : n = 1
    · rw [if_pos hn]
      exact ⟨rfl, rfl, rfl, rfl, rfl, rfl, rfl, rfl⟩
    · rw [if_neg hn]
      exact frame_refl w
  simp only [bumpAndEnqueue]
  exact frame_trans
    (frame_trans
      (frame_trans (frame_trans h1 (frame_enqueueOne _ _ _))
        (frame_enqueueOne _ _ _))
      (frame_enqueueOne _ _ _))
    (frame_enqueueOne _ _ _)

theorem frame_propagate_prop (w : Wfc) (p : WfcProp) :
    Frame w (wfc__propagate_prop w p).2 := by
  rcases hf : wfc__filter_tiles w p.src_cell_idx p.direction
      (cellAt w p.dst_cell_idx).tiles (cellAt w p.dst_cell_idx).sum_freqs
      (cellAt w p.dst_cell_idx).entropy with ⟨sv, s', e', ok⟩
  cases ok with
  | false =>
    rw [propagate_prop_eq_fail w p sv s' e' hf]
    exact frame_setCell _ _ _
  | true =>
    rcases sv with _ | ⟨t, rest⟩
    · rw [propagate_prop_eq_empty w p s' e' hf]
      exact frame_setCell _ _ _
    · rw [propagate_prop_eq_success w p (t :: rest) s' e' (by simp) hf]
      refine frame_trans ?_ (frame_setCell _ _ _)
      by_cases hs : (cellAt w p.dst_cell_idx).tiles.length = (t :: rest).length
      · rw [if_neg (by simpa using hs)]
        exact frame_refl w
      · rw [if_pos hs]
        exact frame_bumpAndEnqueue _ _ _

theorem getD_set_eq {α : Type} (l : List α) (i : Nat) (a d : α)
    (h : i < l.length) : (l.set i a).getD i d = a := by
  induction l generalizing i with
  | nil => simp at h
  | cons x t ih =>
    cases i with
    | zero => rfl
    | succ m => exact ih m (by simpa using h)

theorem getD_set_ne {α : Type} (l : List α) (i j : Nat) (a d : α)
    (h : i ≠ j) : (l.set i a).getD j d = l.getD j d := by
  induction l generalizing i j with
  | nil => simp
  | cons x t ih =>
    cases i with
    | zero =>
      cases j with
      | zero => exact absurd rfl h
      | succ m => rfl
    | succ m =>
      cases j with
      | zero => rfl
      | succ k => exact ih m k (by omega)

theorem cellAt_setCell_eq (w : Wfc) (i : Nat) (c : Cell)
    (h : i < w.cells.length) : cellAt (setCell w i c) i = c := by
  rw [cellAt, setCell]
  exact getD_set_eq w.cells i c default h

theorem cellAt_setCell_ne (w : Wfc) (i j : Nat) (c : Cell) (h : i ≠ j) :
    cellAt (setCell w i c) j = cellAt w j := by
  rw [cellAt, setCell]
  exact getD_set_ne w.cells i j c default h

theorem cells_enqueueOne (p : WfcProp) (d : Direction) (w : Wfc) :
    (enqueueOne p d w).cells = w.cells := by
  rw [enqueueOne]
  by_cases hc : p.direction ≠ opposite d
      ∧ wfc__is_prop_pending w p.dst_cell_idx d = false
  · rw [if_pos hc, wfc__add_prop_dir]
    rcases neighborOf w p.dst_cell_idx d with _ | dst <;> rfl
  · rw [if_neg hc]

theorem cells_bumpAndEnqueue (w : Wfc) (p : WfcProp) (n : Nat) :
    (bumpAndEnqueue w p n).cells = w.cells := by
  simp only [bumpAndEnqueue, cells_enqueueOne]
  by_cases hn : n = 1
  · rw [if_pos hn]
  · rw [if_neg hn]

/-! ### Equation lemmas for the two loops -/

theorem propagate_loop_eq_done (fuel : Nat) (w : Wfc)
    (h : ¬ w.prop_idx < w.props.length) :
    wfc__propagate_loop (fuel + 1) w = (true, w) := by
  rw [wfc__propagate_loop, if_neg h]

theorem propagate_loop_eq_fail (fuel : Nat) (w w' : Wfc)
    (h : w.prop_idx < w.props.length)
    (hp : wfc__propagate_prop w (w.props.getD w.prop_idx default)
      = (false, w')) :
    wfc__propagate_loop (fuel + 1) w = (false, w') := by
  rw [wfc__propagate_loop, if_pos h]
  simp only [hp]

theorem propagate_loop_eq_step (fuel : Nat) (w w' : Wfc)
    (h : w.prop_idx < w.props.length)
    (hp : wfc__propagate_prop w (w.props.getD w.prop_idx default)
      = (true, w')) :
    wfc__propagate_loop (fuel + 1) w
      = wfc__propagate_loop fuel {w' with prop_idx := w'.prop_idx + 1} := by
  rw [wfc__propagate_loop, if_pos h]
  simp only [hp]

theorem run_loop_eq_cfail (fuel : Nat) (w w1 : Wfc) (maxc : Int) (ci : Nat)
    (hc : wfc__collapse w ci = (false, w1)) :
    wfc__run_loop (fuel + 1) w maxc ci = (false, w1) := by
  rw [wfc__run_loop]
  simp only [hc]

theorem run_loop_eq_pfail (fuel : Nat) (w w1 w2 : Wfc) (maxc : Int) (ci : Nat)
    (hc : wfc__collapse w ci = (true, w1))
    (hp : wfc__propagate w1 ci = (false, w2)) :
    wfc__run_loop (fuel + 1) w maxc ci = (false, w2) := by
  rw [wfc__run_loop]
  simp only [hc, hp]

theorem run_loop_eq_step (fuel : Nat) (w w1 w2 w3 : Wfc) (maxc : Int)
    (ci : Nat) (ci' : Int)
    (hc : wfc__collapse w ci = (true, w1))
    (hp : wfc__propagate w1 ci = (true, w2))
    (hn : wfc__next_cell w2 = (ci', w3)) :
    wfc__run_loop (fuel + 1) w maxc ci
      = if ci' = -1 ∨ (w3.collapsed_cell_cnt : Int) = maxc then (true, w3)
        else wfc__run_loop fuel w3 maxc ci'.toNat := by
  rw [wfc__run_loop]
  simp only [hc, hp, hn]

theorem frame_propagate_loop (fuel : Nat) (w : Wfc) :
    Frame w (wfc__propagate_loop fuel w).2 := by
  induction fuel generalizing w with
  | zero => exact frame_refl w
  | succ fuel ih =>
    by_cases h : w.prop_idx < w.props.length
    · rcases hp : wfc__propagate_prop w (w.props.getD w.prop_idx default)
        with ⟨b, w'⟩
      have hf : Frame w w' := by
        have := frame_propagate_prop w (w.props.getD w.prop_idx default)
        rw [hp] at this
        exact this
      cases b
      · rw [propagate_loop_eq_fail fuel w w' h hp]
        exact hf
      · rw [propagate_loop_eq_step fuel w w' h hp]
        exact frame_trans hf
          (frame_trans ⟨rfl, rfl, rfl, rfl, rfl, rfl, rfl, rfl⟩ (ih _))
    · rw [propagate_loop_eq_done fuel w h]
      exact frame_refl w

theorem frame_propagate (w : Wfc) (i : Nat) :
    Frame w (wfc__propagate w i).2 := by
  rw [wfc__propagate]
  refine frame_trans ?_ (frame_propagate_loop _ _)
  exact frame_trans
    (frame_trans
      (frame_trans
        (frame_trans (⟨rfl, rfl, rfl, rfl, rfl, rfl, rfl, rfl⟩ :
            Frame w {w with props := [], prop_idx := 0})
          (frame_add_prop_dir _ _ _))
        (frame_add_prop_dir _ _ _))
      (frame_add_prop_dir _ _ _))
    (frame_add_prop_dir _ _ _)

theorem collapse_eq_none (w : Wfc) (i : Nat)
    (hs : wfc__collapse_find w
        ((w.rand w.ridx : Int) % (cellAt w i).sum_freqs)
        (cellAt w i).tiles = none) :
    wfc__collapse w i = (false, {w with ridx := w.ridx + 1}) := by
  simp only [wfc__collapse]
  rw [hs]

theorem collapse_eq_some (w : Wfc) (i t : Nat)
    (hs : wfc__collapse_find w
        ((w.rand w.ridx : Int) % (cellAt w i).sum_freqs)
        (cellAt w i).tiles = some t) :
    wfc__collapse w i
      = (true,
          {setCell {w with ridx := w.ridx + 1} i ⟨[t], 0, 0⟩ with
            collapsed_cell_cnt := w.collapsed_cell_cnt + 1}) := by
  simp only [wfc__collapse]
  rw [hs]

theorem frame_collapse (w : Wfc) (i : Nat) :
    Frame w (wfc__collapse w i).2 := by
  rcases hs : wfc__collapse_find w
      ((w.rand w.ridx : Int) % (cellAt w i).sum_freqs)
      (cellAt w i).tiles with _ | t
  · rw [collapse_eq_none w i hs]
    exact ⟨rfl, rfl, rfl, rfl, rfl, rfl, rfl, rfl⟩
  · rw [collapse_eq_some w i t hs]
    refine ⟨rfl, rfl, rfl, rfl, rfl, ?_, rfl, rfl⟩
    simp [setCell]

theorem frame_next_cell (w : Wfc) : Frame w (wfc__next_cell w).2 :=
  ⟨rfl, rfl, rfl, rfl, rfl, rfl, rfl, rfl⟩

theorem frame_run_loop (fuel : Nat) (w : Wfc) (maxc : Int) (ci : Nat) :
    Frame w (wfc__run_loop fuel w maxc ci).2 := by
  induction fuel generalizing w ci with
  | zero => exact frame_refl w
  | succ fuel ih =>
    rcases hc : wfc__collapse w ci with ⟨b1, w1⟩
    have hf1 : Frame w w1 := by
      have := frame_collapse w ci
      rw [hc] at this
      exact this
    cases b1
    · rw [run_loop_eq_cfail fuel w w1 maxc ci hc]
      exact hf1
    · rcases hp : wfc__propagate w1 ci with ⟨b2, w2⟩
      have hf2 : Frame w1 w2 := by
        have := frame_propagate w1 ci
        rw [hp] at this
        exact this
      cases b2
      · rw [run_loop_eq_pfail fuel w w1 w2 maxc ci hc hp]
        exact frame_trans hf1 hf2
      · rcases hn : wfc__next_cell w2 with ⟨ci', w3⟩
        have hf3 : Frame w2 w3 := by
          have := frame_next_cell w2
          rw [hn] at this
          exact this
        rw [run_loop_eq_step fuel w w1 w2 w3 maxc ci ci' hc hp hn]
        by_cases hbr : ci' = -1 ∨ (w3.collapsed_cell_cnt : Int) = maxc
        · rw [if_pos hbr]
          exact frame_trans (frame_trans hf1 hf2) hf3
        · rw [if_neg hbr]
          exact frame_trans (frame_trans (frame_trans hf1 hf2) hf3) (ih _ _)

theorem frame_wfc_run (w : Wfc) (maxc : Int) :
    Frame w (wfc_run w maxc).2 := by
  rw [wfc_run]
  exact frame_trans (⟨rfl, rfl, rfl, rfl, rfl, rfl, rfl, rfl⟩ :
    Frame w {w with ridx := w.ridx + 1}) (frame_run_loop _ _ _ _)

theorem frame_init_cells (w : Wfc) : Frame w (wfc__init_cells w) := by
  refine ⟨rfl, rfl, rfl, rfl, rfl, ?_, rfl, rfl⟩
  simp [wfc__init_cells]

theorem frame_wfc_init (w : Wfc) : Frame w (wfc_init w) := by
  rw [wfc_init]
  exact frame_trans (⟨rfl, rfl, rfl, rfl, rfl, rfl, rfl, rfl⟩ :
    Frame w {w with collapsed_cell_cnt := 0}) (frame_init_cells _)

/-! ### `wfc__next_cell` characterization -/

theorem nextCell_fold_inv (w : Wfc) (m : Nat) :
    (((List.range m).foldl (nextCellStep w) ((-1 : Int), (none : Option ℚ))).1
          = -1
        ∧ ((List.range m).foldl (nextCellStep w) ((-1 : Int), (none : Option ℚ))).2
          = none
        ∧ ∀ i, i < m → (cellAt w i).tiles.length = 1)
    ∨ (∃ i, i < m
        ∧ ((List.range m).foldl (nextCellStep w) ((-1 : Int), (none : Option ℚ))).1
          = (i : Int)
        ∧ (∃ q, ((List.range m).foldl (nextCellStep w)
            ((-1 : Int), (none : Option ℚ))).2 = some q)
        ∧ (cellAt w i).tiles.length ≠ 1) := by
  induction m with
  | zero =>
    left
    exact ⟨rfl, rfl, by omega⟩
  | succ m ih =>
    rw [List.range_succ, List.foldl_append, List.foldl_cons, List.foldl_nil]
    rcases ih with ⟨h1, h2, h3⟩ | ⟨i, hi, h1, ⟨q, h2⟩, h3⟩
    · by_cases hc : (cellAt w m).tiles.length = 1
      · left
        have hstep : nextCellStep w
            ((List.range m).foldl (nextCellStep w) (-1, none)) m
            = (List.range m).foldl (nextCellStep w) (-1, none) := by
          rw [nextCellStep]
          simp [hc]
        rw [hstep]
        refine ⟨h1, h2, ?_⟩
        intro i him
        rcases Nat.lt_or_ge i m with him' | him'
        · exact h3 i him'
        · have : i = m := by omega
          rw [this]
          exact hc
      · right
        have hstep : nextCellStep w
            ((List.range m).foldl (nextCellStep w) (-1, none)) m
            = ((m : Int), some ((cellAt w m).entropy
                + (w.rand (w.ridx + m) : ℚ) / (100000 * 2147483647))) := by
          rw [nextCellStep]
          simp [hc, h2]
        rw [hstep]
        exact ⟨m, by omega, rfl, ⟨_, rfl⟩, hc⟩
    · by_cases hc : (cellAt w m).tiles.length = 1
      · have hstep : nextCellStep w
            ((List.range m).foldl (nextCellStep w) (-1, none)) m
            = (List.range m).foldl (nextCellStep w) (-1, none) := by
          rw [nextCellStep]
          simp [hc]
        rw [hstep]
        exact Or.inr ⟨i, by omega, h1, ⟨q, h2⟩, h3⟩
      · by_cases hlt : (cellAt w m).entropy
            + (w.rand (w.ridx + m) : ℚ) / (100000 * 2147483647) < q
        · have hstep : nextCellStep w
              ((List.range m).foldl (nextCellStep w) (-1, none)) m
              = ((m : Int), some ((cellAt w m).entropy
                  + (w.rand (w.ridx + m) : ℚ) / (100000 * 2147483647))) := by
            rw [nextCellStep]
            simp [hc, h2, hlt]
          rw [hstep]
          exact Or.inr ⟨m, by omega, rfl, ⟨_, rfl⟩, hc⟩
        · have hstep : nextCellStep w
              ((List.range m).foldl (nextCellStep w) (-1, none)) m
              = (List.range m).foldl (nextCellStep w) (-1, none) := by
            rw [nextCellStep]
            simp [hc, h2, hlt]
          rw [hstep]
          exact Or.inr ⟨i, by omega, h1, ⟨q, h2⟩, h3⟩

/-- `wfc__next_cell` returns `-1` exactly when no cell has
`tile_cnt != 1`. -/
theorem next_cell_neg_one_iff (w : Wfc) :
    (wfc__next_cell w).1 = -1
      ↔ ∀ i, i < w.cells.length → (cellAt w i).tiles.length = 1 := by
  rw [wfc__next_cell]
  rcases nextCell_fold_inv w w.cells.length with ⟨h1, _, h3⟩
    | ⟨j, hj, h1, _, h3⟩
  · simp only [h1]
    exact ⟨fun _ => h3, fun _ => trivial⟩
  · simp only [h1]
    constructor
    · intro hcon
      exact absurd hcon (by omega)
    · intro hall
      exact absurd (hall j hj) h3

/-- When `wfc__next_cell` does not return `-1`, it returns a valid cell
index with `tile_cnt != 1`. -/
theorem next_cell_valid (w : Wfc) (h : (wfc__next_cell w).1 ≠ -1) :
    ∃ i : Nat, (wfc__next_cell w).1 = (i : Int) ∧ i < w.cells.length
      ∧ (cellAt w i).tiles.length ≠ 1 := by
  rw [wfc__next_cell] at h ⊢
  rcases nextCell_fold_inv w w.cells.length with ⟨h1, _, _⟩
    | ⟨i, hi, h1, _, h3⟩
  · exact absurd h1 (by simpa using h)
  · exact ⟨i, by simpa using h1, hi, h3⟩

/-! ### Success characterization of the run loop -/

/-- A successful `wfc__run_loop` exits only through the `break`: at the
final state either `wfc__next_cell` found no cell with `tile_cnt != 1`,
or the collapsed counter equals the budget. -/
theorem run_loop_success (fuel : Nat) (w : Wfc) (maxc : Int) (ci : Nat)
    (h : (wfc__run_loop fuel w maxc ci).1 = true) :
    (∀ i, i < (wfc__run_loop fuel w maxc ci).2.cells.length →
      (cellAt (wfc__run_loop fuel w maxc ci).2 i).tiles.length = 1)
    ∨ ((wfc__run_loop fuel w maxc ci).2.collapsed_cell_cnt : Int) = maxc := by
  induction fuel generalizing w ci with
  | zero => exact absurd h (by simp [wfc__run_loop])
  | succ fuel ih =>
    rcases hc : wfc__collapse w ci with ⟨b1, w1⟩
    cases b1
    · rw [run_loop_eq_cfail fuel w w1 maxc ci hc] at h ⊢
      exact absurd h (by simp)
    · rcases hp : wfc__propagate w1 ci with ⟨b2, w2⟩
      cases b2
      · rw [run_loop_eq_pfail fuel w w1 w2 maxc ci hc hp] at h ⊢
        exact absurd h (by simp)
      · rcases hn : wfc__next_cell w2 with ⟨ci', w3⟩
        rw [run_loop_eq_step fuel w w1 w2 w3 maxc ci ci' hc hp hn] at h ⊢
        by_cases hbr : ci' = -1 ∨ (w3.collapsed_cell_cnt : Int) = maxc
        · rw [if_pos hbr] at h ⊢
          rcases hbr with hbr | hbr
          · left
            intro i hi
            have hiff := next_cell_neg_one_iff w2
            rw [hn] at hiff
            have hall := hiff.mp hbr
            have hcells : w3.cells = w2.cells := by
              have : (wfc__next_cell w2).2.cells = w2.cells := rfl
              rw [hn] at this
              exact this
            have : cellAt w3 i = cellAt w2 i := by
              rw [cellAt, cellAt, hcells]
            simp only at hi ⊢
            rw [this]
            exact hall i (by rw [← hcells]; exact hi)
          · right
            exact hbr
        · rw [if_neg hbr] at h ⊢
          exact ih _ _ h

/-- `wfc_run` lifts `run_loop_success`: success implies that in the
final state every cell is a singleton or the budget was hit exactly. -/
theorem wfc_run_success_cases (w : Wfc) (maxc : Int)
    (h : (wfc_run w maxc).1 = true) :
    (∀ i, i < (wfc_run w maxc).2.cells.length →
      (cellAt (wfc_run w maxc).2 i).tiles.length = 1)
    ∨ ((wfc_run w maxc).2.collapsed_cell_cnt : Int) = maxc := by
  rw [wfc_run] at h ⊢
  exact run_loop_success _ _ _ _ h

/-! ## Claim C2: success and singleton cells -/

/-- C2 counterexample: on `solverStripe` with budget `1`, `wfc_run`
returns success while cell `1` still has two candidates, refuting
"success implies every cell's candidate count equals 1". -/
theorem claim_C2_cex :
    (wfc_run (wfc_init solverStripe) 1).1 = true
      ∧ (cellAt (wfc_run (wfc_init solverStripe) 1).2 1).tiles.length = 2 := by
  decide

/-- C2 (amended): whenever `wfc_run` returns success with no budget
(`max_collapse_cnt = -1`, so termination cannot come from the budget
comparison), every cell's candidate count equals `1`. -/
theorem claim_C2 (w : Wfc) (h : (wfc_run w (-1)).1 = true) :
    ∀ i, i < (wfc_run w (-1)).2.cells.length →
      (cellAt (wfc_run w (-1)).2 i).tiles.length = 1 := by
  rcases wfc_run_success_cases w (-1) h with hall | hbudget
  · exact hall
  · exact absurd hbudget (by omega)

/-- Witness for C2: an unbounded run of `solverStripe` succeeds and the
theorem yields `count = 1` for cell `0`. -/
theorem claim_C2_witness :
    (wfc_run (wfc_init solverStripe) (-1)).1 = true
      ∧ (cellAt (wfc_run (wfc_init solverStripe) (-1)).2 0).tiles.length = 1 :=
  ⟨by decide, claim_C2 (wfc_init solverStripe) (by decide) 0 (by decide)⟩

/-! ## Claim C3: success versus termination cause -/

/-- C3 counterexample: `solverContra` is a post-init solver and
`K = 1 < W·H = 2`, yet `wfc_run` returns failure (the first
propagation empties a neighbour), refuting "wfc_run(solver, K) returns
success" for every post-init solver and budget. -/
theorem claim_C3_cex :
    (0 : Int) < 1
      ∧ (1 : Int) < ((wfc_init solverContra).output_width
          * (wfc_init solverContra).output_height : Nat)
      ∧ (wfc_run (wfc_init solverContra) 1).1 = false := by
  decide

/-- C3 (amended): `wfc_run` returns success only by terminating at a
state where no cell has `count > 1` or where `collapsed_count` equals
the budget; a contradiction in collapse or propagation returns failure
instead, so success is not guaranteed for every post-init solver and
budget `0 < K < W·H`. -/
theorem claim_C3 (w : Wfc) (K : Int) (h : (wfc_run w K).1 = true) :
    (∀ i, i < (wfc_run w K).2.cells.length →
      (cellAt (wfc_run w K).2 i).tiles.length = 1)
    ∨ ((wfc_run w K).2.collapsed_cell_cnt : Int) = K :=
  wfc_run_success_cases w K h

/-- Witness for C3 at `solverStripe` with budget `1`. -/
theorem claim_C3_witness :
    (∀ i, i < (wfc_run (wfc_init solverStripe) 1).2.cells.length →
      (cellAt (wfc_run (wfc_init solverStripe) 1).2 i).tiles.length = 1)
    ∨ ((wfc_run (wfc_init solverStripe) 1).2.collapsed_cell_cnt : Int) = 1 :=
  claim_C3 (wfc_init solverStripe) 1 (by decide)

theorem collapse_find_some_of_lt (w : Wfc) (rem : Int) (l : List Nat)
    (h0 : 0 ≤ rem) (hlt : rem < intFreqSum w l) :
    ∃ t, wfc__collapse_find w rem l = some t ∧ t ∈ l := by
  induction l generalizing rem with
  | nil =>
    simp only [intFreqSum, List.map_nil, List.sum_nil] at hlt
    omega
  | cons t rest ih =>
    rw [wfc__collapse_find]
    by_cases hc : (freqOf w t : Int) ≤ rem
    · rw [if_pos hc]
      simp only [intFreqSum, List.map_cons, List.sum_cons] at hlt
      obtain ⟨u, hu, hmem⟩ := ih (rem - (freqOf w t : Int)) (by omega)
        (by rw [intFreqSum]; omega)
      exact ⟨u, hu, by simp [hmem]⟩
    · rw [if_neg hc]
      exact ⟨t, rfl, by simp⟩

theorem range_map_getD {α : Type} (l : List α) (d : α) :
    (List.range l.length).map (fun i => l.getD i d) = l := by
  induction l with
  | nil => rfl
  | cons a t ih =>
    rw [List.length_cons, List.range_succ_eq_map, List.map_cons, List.map_map]
    simp only [List.getD_cons_zero, Function.comp_def, List.getD_cons_succ]
    rw [ih]

theorem getD_map_const {α β : Type} (l : List α) (c : β) (i : Nat) (d : β)
    (h : i < l.length) : (l.map fun _ => c).getD i d = c := by
  induction l generalizing i with
  | nil => simp at h
  | cons a t ih =>
    cases i with
    | zero => rfl
    | succ m => exact ih m (by simpa using h)

/-- The cells produced by `wfc_init`. -/
theorem wfc_init_cellAt (w0 : Wfc) (i : Nat) (h : i < w0.cells.length) :
    cellAt (wfc_init w0) i
      = ⟨List.range w0.tiles.length,
          (w0.tiles.map fun t => (t.freq : Int)).sum,
          -((w0.tiles.map fun t => w0.plogp t.freq).sum)⟩ := by
  rw [wfc_init, wfc__init_cells, cellAt]
  simp only []
  exact getD_map_const _ _ _ _ (by simpa using h)

theorem intFreqSum_range (w : Wfc) :
    intFreqSum w (List.range w.tiles.length)
      = (w.tiles.map fun t => (t.freq : Int)).sum := by
  rw [intFreqSum]
  have : (List.range w.tiles.length).map (fun t => (freqOf w t : Int))
      = (List.range w.tiles.length).map
          ((fun u : WfcTile => (u.freq : Int)) ∘ fun i => w.tiles.getD i default) := by
    simp [freqOf, Function.comp_def]
  rw [this, ← List.map_map, range_map_getD]

theorem collapsed_enqueueOne (p : WfcProp) (d : Direction) (w : Wfc) :
    (enqueueOne p d w).collapsed_cell_cnt = w.collapsed_cell_cnt := by
  rw [enqueueOne]
  by_cases hc : p.direction ≠ opposite d
      ∧ wfc__is_prop_pending w p.dst_cell_idx d = false
  · rw [if_pos hc, wfc__add_prop_dir]
    rcases neighborOf w p.dst_cell_idx d with _ | dst <;> rfl
  · rw [if_neg hc]

theorem collapsed_bumpAndEnqueue (w : Wfc) (p : WfcProp) (n : Nat) :
    (bumpAndEnqueue w p n).collapsed_cell_cnt
      = w.collapsed_cell_cnt + (if n = 1 then 1 else 0) := by
  simp only [bumpAndEnqueue, collapsed_enqueueOne]
  by_cases hn : n = 1
  · rw [if_pos hn, if_pos hn]
  · rw [if_neg hn, if_neg hn]
    omega

theorem propagate_prop_collapsed_mono (w : Wfc) (p : WfcProp) :
    w.collapsed_cell_cnt ≤ (wfc__propagate_prop w p).2.collapsed_cell_cnt := by
  rcases hf : wfc__filter_tiles w p.src_cell_idx p.direction
      (cellAt w p.dst_cell_idx).tiles (cellAt w p.dst_cell_idx).sum_freqs
      (cellAt w p.dst_cell_idx).entropy with ⟨sv, s', e', ok⟩
  cases ok with
  | false =>
    rw [propagate_prop_eq_fail w p sv s' e' hf]
    exact Nat.le_refl _
  | true =>
    rcases sv with _ | ⟨t, rest⟩
    · rw [propagate_prop_eq_empty w p s' e' hf]
      exact Nat.le_refl _
    · rw [propagate_prop_eq_success w p (t :: rest) s' e' (by simp) hf]
      by_cases hs : (cellAt w p.dst_cell_idx).tiles.length = (t :: rest).length
      · rw [if_neg (by simpa using hs)]
        exact Nat.le_refl _
      · rw [if_pos hs]
        have := collapsed_bumpAndEnqueue w p (t :: rest).length
        simp only [setCell]
        omega

theorem propagate_loop_collapsed_mono (fuel : Nat) (w : Wfc) :
    w.collapsed_cell_cnt
      ≤ (wfc__propagate_loop fuel w).2.collapsed_cell_cnt := by
  induction fuel generalizing w with
  | zero => exact Nat.le_refl _
  | succ fuel ih =>
    by_cases h : w.prop_idx < w.props.length
    · rcases hp : wfc__propagate_prop w (w.props.getD w.prop_idx default)
        with ⟨b, w'⟩
      have hm : w.collapsed_cell_cnt ≤ w'.collapsed_cell_cnt := by
        have := propagate_prop_collapsed_mono w (w.props.getD w.prop_idx default)
        rw [hp] at this
        exact this
      cases b
      · rw [propagate_loop_eq_fail fuel w w' h hp]
        exact hm
      · rw [propagate_loop_eq_step fuel w w' h hp]
        have hr := ih {w' with prop_idx := w'.prop_idx + 1}
        exact Nat.le_trans hm hr
    · rw [propagate_loop_eq_done fuel w h]

theorem collapsed_add_prop_dir (w : Wfc) (src : Nat) (d : Direction) :
    (wfc__add_prop_dir w src d).collapsed_cell_cnt = w.collapsed_cell_cnt := by
  rw [wfc__add_prop_dir]
  rcases neighborOf w src d with _ | dst <;> rfl

theorem propagate_collapsed_mono (w : Wfc) (i : Nat) :
    w.collapsed_cell_cnt ≤ (wfc__propagate w i).2.collapsed_cell_cnt := by
  rw [wfc__propagate]
  have h := propagate_loop_collapsed_mono
    (4 * totalTiles (wfc__add_prop_dir
        (wfc__add_prop_dir
          (wfc__add_prop_dir
            (wfc__add_prop_dir {w with props := [], prop_idx := 0} i
              Direction.up) i Direction.down) i Direction.left) i
        Direction.right)
      + (wfc__add_prop_dir
          (wfc__add_prop_dir
            (wfc__add_prop_dir
              (wfc__add_prop_dir {w with props := [], prop_idx := 0} i
                Direction.up) i Direction.down) i Direction.left) i
          Direction.right).props.length + 1)
    (wfc__add_prop_dir
      (wfc__add_prop_dir
        (wfc__add_prop_dir
          (wfc__add_prop_dir {w with props := [], prop_idx := 0} i
            Direction.up) i Direction.down) i Direction.left) i
      Direction.right)
  simp only [collapsed_add_prop_dir] at h
  exact h

theorem collapse_true_collapsed (w w1 : Wfc) (ci : Nat)
    (hc : wfc__collapse w ci = (true, w1)) :
    w1.collapsed_cell_cnt = w.collapsed_cell_cnt + 1 := by
  rcases hs : wfc__collapse_find w
      ((w.rand w.ridx : Int) % (cellAt w ci).sum_freqs)
      (cellAt w ci).tiles with _ | t
  · rw [collapse_eq_none w ci hs] at hc
    exact absurd (congrArg Prod.fst hc) (by simp)
  · rw [collapse_eq_some w ci t hs] at hc
    have := congrArg Prod.snd hc
    simp only at this
    rw [← this]

theorem run_loop_collapsed_mono (fuel : Nat) (w : Wfc) (maxc : Int)
    (ci : Nat) :
    w.collapsed_cell_cnt
      ≤ (wfc__run_loop fuel w maxc ci).2.collapsed_cell_cnt := by
  induction fuel generalizing w ci with
  | zero => exact Nat.le_refl _
  | succ fuel ih =>
    rcases hc : wfc__collapse w ci with ⟨b1, w1⟩
    cases b1
    · rw [run_loop_eq_cfail fuel w w1 maxc ci hc]
      have : w1 = {w with ridx := w.ridx + 1} := by
        rcases hs : wfc__collapse_find w
            ((w.rand w.ridx : Int) % (cellAt w ci).sum_freqs)
            (cellAt w ci).tiles with _ | t
        · rw [collapse_eq_none w ci hs] at hc
          have := congrArg Prod.snd hc
          simp only at this
          rw [← this]
        · rw [collapse_eq_some w ci t hs] at hc
          exact absurd (congrArg Prod.fst hc) (by simp)
      rw [this]
    · have h1 : w1.collapsed_cell_cnt = w.collapsed_cell_cnt + 1 :=
        collapse_true_collapsed w w1 ci hc
      rcases hp : wfc__propagate w1 ci with ⟨b2, w2⟩
      have h2 : w1.collapsed_cell_cnt ≤ w2.collapsed_cell_cnt := by
        have := propagate_collapsed_mono w1 ci
        rw [hp] at this
        exact this
      cases b2
      · rw [run_loop_eq_pfail fuel w w1 w2 maxc ci hc hp]
        show w.collapsed_cell_cnt ≤ w2.collapsed_cell_cnt
        omega
      · rcases hn : wfc__next_cell w2 with ⟨ci', w3⟩
        have h3 : w3.collapsed_cell_cnt = w2.collapsed_cell_cnt := by
          have : (wfc__next_cell w2).2.collapsed_cell_cnt
              = w2.collapsed_cell_cnt := rfl
          rw [hn] at this
          exact this
        rw [run_loop_eq_step fuel w w1 w2 w3 maxc ci ci' hc hp hn]
        by_cases hbr : ci' = -1 ∨ (w3.collapsed_cell_cnt : Int) = maxc
        · rw [if_pos hbr]
          show w.collapsed_cell_cnt ≤ w3.collapsed_cell_cnt
          omega
        · rw [if_neg hbr]
          have := ih w3 ci'.toNat
          omega

/-- A successful collapse leaves `collapsed_cell_cnt ≥ 1`, so the
budget comparisons against `0` and against `-1` both never fire: the
two runs are identical. -/
theorem run_loop_budget_zero_eq (fuel : Nat) (w : Wfc) (ci : Nat) :
    wfc__run_loop fuel w 0 ci = wfc__run_loop fuel w (-1) ci := by
  induction fuel generalizing w ci with
  | zero => rfl
  | succ fuel ih =>
    rcases hc : wfc__collapse w ci with ⟨b1, w1⟩
    cases b1
    · rw [run_loop_eq_cfail fuel w w1 0 ci hc,
        run_loop_eq_cfail fuel w w1 (-1) ci hc]
    · have h1 : w1.collapsed_cell_cnt = w.collapsed_cell_cnt + 1 :=
        collapse_true_collapsed w w1 ci hc
      rcases hp : wfc__propagate w1 ci with ⟨b2, w2⟩
      have h2 : w1.collapsed_cell_cnt ≤ w2.collapsed_cell_cnt := by
        have := propagate_collapsed_mono w1 ci
        rw [hp] at this
        exact this
      cases b2
      · rw [run_loop_eq_pfail fuel w w1 w2 0 ci hc hp,
          run_loop_eq_pfail fuel w w1 w2 (-1) ci hc hp]
      · rcases hn : wfc__next_cell w2 with ⟨ci', w3⟩
        have h3 : w3.collapsed_cell_cnt = w2.collapsed_cell_cnt := by
          have : (wfc__next_cell w2).2.collapsed_cell_cnt
              = w2.collapsed_cell_cnt := rfl
          rw [hn] at this
          exact this
        rw [run_loop_eq_step fuel w w1 w2 w3 0 ci ci' hc hp hn,
          run_loop_eq_step fuel w w1 w2 w3 (-1) ci ci' hc hp hn]
        have hnz : ¬ (w3.collapsed_cell_cnt : Int) = 0 := by omega
        have hnm : ¬ (w3.collapsed_cell_cnt : Int) = -1 := by omega
        by_cases hci : ci' = -1
        · rw [if_pos (Or.inl hci), if_pos (Or.inl hci)]
        · rw [if_neg (by tauto), if_neg (by tauto)]
          exact ih _ _

/-- As soon as the first collapse of an iteration succeeds, the final
state of the run loop carries `collapsed_cell_cnt ≥ 1`, on success and
on failure alike. -/
theorem run_loop_ge_one (fuel : Nat) (w : Wfc) (maxc : Int) (ci : Nat)
    (hex : ∃ w1, wfc__collapse w ci = (true, w1)) :
    1 ≤ (wfc__run_loop (fuel + 1) w maxc ci).2.collapsed_cell_cnt := by
  obtain ⟨w1, hc⟩ := hex
  have h1 : w1.collapsed_cell_cnt = w.collapsed_cell_cnt + 1 :=
    collapse_true_collapsed w w1 ci hc
  rcases hp : wfc__propagate w1 ci with ⟨b2, w2⟩
  have h2 : w1.collapsed_cell_cnt ≤ w2.collapsed_cell_cnt := by
    have := propagate_collapsed_mono w1 ci
    rw [hp] at this
    exact this
  cases b2
  · rw [run_loop_eq_pfail fuel w w1 w2 maxc ci hc hp]
    show 1 ≤ w2.collapsed_cell_cnt
    omega
  · rcases hn : wfc__next_cell w2 with ⟨ci', w3⟩
    have h3 : w3.collapsed_cell_cnt = w2.collapsed_cell_cnt := by
      have : (wfc__next_cell w2).2.collapsed_cell_cnt
          = w2.collapsed_cell_cnt := rfl
      rw [hn] at this
      exact this
    rw [run_loop_eq_step fuel w w1 w2 w3 maxc ci ci' hc hp hn]
    by_cases hbr : ci' = -1 ∨ (w3.collapsed_cell_cnt : Int) = maxc
    · rw [if_pos hbr]
      show 1 ≤ w3.collapsed_cell_cnt
      omega
    · rw [if_neg hbr]
      have := run_loop_collapsed_mono fuel w3 maxc ci'.toNat
      omega

/-! ## Claim C10: zero budget still collapses -/

/-- C10: for a post-init solver with at least one pattern (of positive
frequencies) and at least one cell, `wfc_run` with
`max_collapse_cnt = 0` does not return before collapsing: the final
state has `collapsed_cell_cnt ≥ 1`, and the zero-budget run is
identical to the unbounded (`-1`) run, because the budget is only
compared after a collapse and its propagation. -/
theorem claim_C10 (w0 : Wfc)
    (hP : 0 < w0.tiles.length)
    (hfr : ∀ t ∈ w0.tiles, 0 < t.freq)
    (hcells : w0.cells.length = w0.output_width * w0.output_height)
    (hne : 0 < w0.cells.length) :
    1 ≤ (wfc_run (wfc_init w0) 0).2.collapsed_cell_cnt
    ∧ wfc_run (wfc_init w0) 0 = wfc_run (wfc_init w0) (-1) := by
  have hlen : (wfc_init w0).cells.length = w0.cells.length := by
    simp [wfc_init, wfc__init_cells]
  constructor
  · simp only [wfc_run]
    apply run_loop_ge_one
    -- set up the first collapse on the post-init state
    have hprod : (wfc_init w0).output_height * (wfc_init w0).output_width
        = w0.cells.length := by
      have h1 : (wfc_init w0).output_height = w0.output_height := rfl
      have h2 : (wfc_init w0).output_width = w0.output_width := rfl
      rw [h1, h2, hcells]
      exact Nat.mul_comm _ _
    have hdiv : 0 < (wfc_init w0).output_height * (wfc_init w0).output_width := by
      rw [hprod]
      exact hne
    have hci : (wfc_init w0).rand (wfc_init w0).ridx
        % ((wfc_init w0).output_height * (wfc_init w0).output_width)
        < w0.cells.length := by
      rw [← hprod]
      exact Nat.mod_lt _ hdiv
    set wr : Wfc := {wfc_init w0 with ridx := (wfc_init w0).ridx + 1} with hwr
    set ci : Nat := (wfc_init w0).rand (wfc_init w0).ridx
      % (wr.output_height * wr.output_width) with hcidef
    have hcell : cellAt wr ci
        = ⟨List.range w0.tiles.length,
            (w0.tiles.map fun t => (t.freq : Int)).sum,
            -((w0.tiles.map fun t => w0.plogp t.freq).sum)⟩ := by
      have heq : cellAt wr ci = cellAt (wfc_init w0) ci := rfl
      rw [heq]
      exact wfc_init_cellAt w0 ci (by exact hci)
    have hcellt : (cellAt wr ci).tiles = List.range w0.tiles.length := by
      rw [hcell]
    have hcellsum : (cellAt wr ci).sum_freqs
        = (w0.tiles.map fun t => (t.freq : Int)).sum := by
      rw [hcell]
    have hS : 0 < (w0.tiles.map fun t => (t.freq : Int)).sum := by
      apply List.sum_pos
      · intro x hx
        obtain ⟨t, ht, rfl⟩ := List.mem_map.mp hx
        exact_mod_cast hfr t ht
      · intro hmap
        rw [List.map_eq_nil] at hmap
        rw [hmap] at hP
        simp at hP
    have hrem0 : 0 ≤ (wr.rand wr.ridx : Int) % (cellAt wr ci).sum_freqs := by
      rw [hcellsum]
      exact Int.emod_nonneg _ (by omega)
    have hremlt : (wr.rand wr.ridx : Int) % (cellAt wr ci).sum_freqs
        < intFreqSum wr (cellAt wr ci).tiles := by
      have h1 : intFreqSum wr (List.range w0.tiles.length)
          = (w0.tiles.map fun t => (t.freq : Int)).sum := by
        have h2 : wr.tiles = w0.tiles := rfl
        have := intFreqSum_range wr
        rw [h2] at this
        exact this
      rw [hcellsum, hcellt, h1]
      exact Int.emod_lt_of_pos _ hS
    obtain ⟨t, hfind, _⟩ := collapse_find_some_of_lt wr
      ((wr.rand wr.ridx : Int) % (cellAt wr ci).sum_freqs)
      (cellAt wr ci).tiles hrem0 hremlt
    exact ⟨_, collapse_eq_some wr ci t hfind⟩
  · simp only [wfc_run]
    exact run_loop_budget_zero_eq _ _ _

/-- Witness for C10 on `solverStripe`. -/
theorem claim_C10_witness :
    1 ≤ (wfc_run (wfc_init solverStripe) 0).2.collapsed_cell_cnt
    ∧ wfc_run (wfc_init solverStripe) 0 = wfc_run (wfc_init solverStripe) (-1) :=
  claim_C10 solverStripe (by decide) (by decide) (by decide) (by decide)

/-- C4 evaluation at the failing input: applying the collapse step to a
cell with `sum_freqs = 0` does **not** fail — in C the draw
`rand() % 0` is a division by zero (undefined behavior), and under the
model's total `x % 0 = x` semantics the step selects candidate `0` and
returns success with a bumped collapsed counter, contradicting the
claimed clean contradiction report. -/
theorem claim_C4 :
    (cellAt solverSumZero 0).sum_freqs = 0
    ∧ (wfc__collapse solverSumZero 0).1 = true
    ∧ (cellAt (wfc__collapse solverSumZero 0).2 0).tiles = [0]
    ∧ (wfc__collapse solverSumZero 0).2.collapsed_cell_cnt = 1 := by
  decide

/-! ## Claim C9: output compositor -/

/-- C9: for every solver state whose cells all have `count ≥ 1` (stated
for the addressed cell) and whose tile bytes are genuine bytes
(`< 256`), the output raster has the output dimensions and assigns to
pixel `(x, y)`, component `c`, the floor of the sum over the cell's
candidates `t` of component `c` of the top-left pixel of pattern `t`'s
image (byte `c` of its buffer), divided by the candidate count. -/
theorem claim_C9 (w : Wfc) (x y c : Nat)
    (hx : x < w.output_width) (hy : y < w.output_height)
    (hc : c < w.image_component_cnt)
    (hcnt : 1 ≤ (cellAt w (y * w.output_width + x)).tiles.length)
    (hbytes : ∀ t ∈ (cellAt w (y * w.output_width + x)).tiles,
      byteAt (w.tiles.getD t default).image c < 256) :
    (wfc_output_image w).width = w.output_width
    ∧ (wfc_output_image w).height = w.output_height
    ∧ (wfc_output_image w).component_cnt = w.image_component_cnt
    ∧ byteAt (wfc_output_image w)
        ((y * w.output_width + x) * w.image_component_cnt + c)
      = ((cellAt w (y * w.output_width + x)).tiles.map fun t =>
          byteAt (w.tiles.getD t default).image c).sum
        / (cellAt w (y * w.output_width + x)).tiles.length := by
  refine ⟨rfl, rfl, rfl, ?_⟩
  have hrowlen : ∀ y' : Nat,
      ((List.range w.output_width).flatMap fun x' =>
        (List.range w.image_component_cnt).map fun i =>
          (((cellAt w (y' * w.output_width + x')).tiles.map fun t =>
              byteAt (w.tiles.getD t default).image i).sum
            / (cellAt w (y' * w.output_width + x')).tiles.length) % 256).length
      = w.output_width * w.image_component_cnt := by
    intro y'
    exact length_range_flatMap _ _ _ fun x' => by simp
  have hidx : (y * w.output_width + x) * w.image_component_cnt + c
      = y * (w.output_width * w.image_component_cnt)
        + (x * w.image_component_cnt + c) := by ring
  have hr : x * w.image_component_cnt + c
      < w.output_width * w.image_component_cnt := by
    calc x * w.image_component_cnt + c
        < x * w.image_component_cnt + w.image_component_cnt := by omega
      _ = (x + 1) * w.image_component_cnt := by ring
      _ ≤ w.output_width * w.image_component_cnt :=
          Nat.mul_le_mul_right _ (by omega)
  rw [byteAt, wfc_output_image, hidx]
  rw [getD_range_flatMap _ (w.output_width * w.image_component_cnt)
    w.output_height y (x * w.image_component_cnt + c) 0 hrowlen hy hr]
  rw [getD_range_flatMap _ w.image_component_cnt w.output_width x c 0
    (fun x' => by simp) hx hc]
  rw [getD_map_range _ _ _ _ hc]
  have hle : (((cellAt w (y * w.output_width + x)).tiles.map fun t =>
      byteAt (w.tiles.getD t default).image c).sum)
      / (cellAt w (y * w.output_width + x)).tiles.length < 256 := by
    rw [Nat.div_lt_iff_lt_mul (by omega)]
    calc ((cellAt w (y * w.output_width + x)).tiles.map fun t =>
          byteAt (w.tiles.getD t default).image c).sum
        ≤ ((cellAt w (y * w.output_width + x)).tiles.map fun t =>
            byteAt (w.tiles.getD t default).image c).length * 255 := by
          apply List.sum_le_card_nsmul
          intro u hu
          obtain ⟨t, ht, rfl⟩ := List.mem_map.mp hu
          exact Nat.le_of_lt_succ (hbytes t ht)
      _ = (cellAt w (y * w.output_width + x)).tiles.length * 255 := by
          rw [List.length_map]
      _ < 256 * (cellAt w (y * w.output_width + x)).tiles.length := by
          omega
  exact Nat.mod_eq_of_lt hle

/-- Witness for C9 on `solverBlend`: the single output pixel is
`⌊(10+20)/2⌋ = 15`. -/
theorem claim_C9_witness :
    (wfc_output_image solverBlend).width = solverBlend.output_width
    ∧ (wfc_output_image solverBlend).height = solverBlend.output_height
    ∧ (wfc_output_image solverBlend).component_cnt
        = solverBlend.image_component_cnt
    ∧ byteAt (wfc_output_image solverBlend)
        ((0 * solverBlend.output_width + 0) * solverBlend.image_component_cnt + 0)
      = ((cellAt solverBlend (0 * solverBlend.output_width + 0)).tiles.map
          fun t => byteAt (solverBlend.tiles.getD t default).image 0).sum
        / (cellAt solverBlend (0 * solverBlend.output_width + 0)).tiles.length :=
  claim_C9 solverBlend 0 0 0 (by decide) (by decide) (by decide) (by decide)
    (by decide)

/-! ### The filtering loop, characterized -/

/-- When the filtering loop completes without aborting, the survivors
are exactly the candidates enabled by the source cell, in order. -/
theorem filter_tiles_ok_eq (w : Wfc) (src : Nat) (d : Direction)
    (l : List Nat) (s : Int) (e : ℚ)
    (h : (wfc__filter_tiles w src d l s e).2.2.2 = true) :
    (wfc__filter_tiles w src d l s e).1
      = l.filter fun t => wfc__tile_enabled w t src d := by
  induction l generalizing s e with
  | nil => rfl
  | cons t rest ih =>
    rcases hrec : wfc__filter_tiles w src d rest s e with ⟨l', s', e', ok⟩
    by_cases he : wfc__tile_enabled w t src d
    · have hstep : wfc__filter_tiles w src d (t :: rest) s e
          = (t :: l', s', e', ok) := by
        simp only [wfc__filter_tiles]
        rw [if_pos he, hrec]
      rw [hstep] at h ⊢
      rw [List.filter_cons_of_pos (by simpa using he)]
      have hih := ih s e
      rw [hrec] at hih
      simp only at h hih ⊢
      rw [hih h]
    · by_cases hz : s - (freqOf w t : Int) = 0
      · have hstep : wfc__filter_tiles w src d (t :: rest) s e
            = ([], s - (freqOf w t : Int), e + w.plogp (freqOf w t), false) := by
          simp only [wfc__filter_tiles]
          rw [if_neg he, if_pos hz]
        rw [hstep] at h
        exact absurd h (by simp)
      · have hstep : wfc__filter_tiles w src d (t :: rest) s e
            = wfc__filter_tiles w src d rest (s - (freqOf w t : Int))
                (e + w.plogp (freqOf w t)) := by
          simp only [wfc__filter_tiles]
          rw [if_neg he, if_neg hz]
        rw [hstep] at h ⊢
        rw [List.filter_cons_of_neg (by simpa using he)]
        exact ih _ _ h

/-- The survivors never outnumber the original candidates (also on the
aborted paths). -/
theorem filter_tiles_len_le (w : Wfc) (src : Nat) (d : Direction)
    (l : List Nat) (s : Int) (e : ℚ) :
    (wfc__filter_tiles w src d l s e).1.length ≤ l.length := by
  induction l generalizing s e with
  | nil => exact Nat.le_refl _
  | cons t rest ih =>
    rcases hrec : wfc__filter_tiles w src d rest s e with ⟨l', s', e', ok⟩
    by_cases he : wfc__tile_enabled w t src d
    · have hstep : wfc__filter_tiles w src d (t :: rest) s e
          = (t :: l', s', e', ok) := by
        simp only [wfc__filter_tiles]
        rw [if_pos he, hrec]
      rw [hstep]
      have hih := ih s e
      rw [hrec] at hih
      simpa using hih
    · by_cases hz : s - (freqOf w t : Int) = 0
      · have hstep : wfc__filter_tiles w src d (t :: rest) s e
            = ([], s - (freqOf w t : Int), e + w.plogp (freqOf w t), false) := by
          simp only [wfc__filter_tiles]
          rw [if_neg he, if_pos hz]
        rw [hstep]
        simp
      · have hstep : wfc__filter_tiles w src d (t :: rest) s e
            = wfc__filter_tiles w src d rest (s - (freqOf w t : Int))
                (e + w.plogp (freqOf w t)) := by
          simp only [wfc__filter_tiles]
          rw [if_neg he, if_neg hz]
        rw [hstep]
        exact Nat.le_trans (ih _ _) (by simp)

theorem countP_set {α : Type} (l : List α) (i : Nat) (a d : α)
    (p : α → Bool) (h : i < l.length) :
    (l.set i a).countP p + (if p (l.getD i d) then 1 else 0)
      = l.countP p + (if p a then 1 else 0) := by
  induction l generalizing i with
  | nil => simp at h
  | cons x t ih =>
    cases i with
    | zero =>
      simp only [List.set_cons_zero, List.countP_cons, List.getD_cons_zero]
      omega
    | succ m =>
      simp only [List.set_cons_succ, List.countP_cons, List.getD_cons_succ]
      have := ih m (by simpa using h)
      omega

theorem set_of_length_le {α : Type} (l : List α) (i : Nat) (a : α)
    (h : l.length ≤ i) : l.set i a = l := by
  induction l generalizing i with
  | nil => rfl
  | cons x t ih =>
    cases i with
    | zero => simp at h
    | succ m =>
      simp only [List.set_cons_succ]
      rw [ih m (by simpa using h)]

/-- Replacing a cell by one with an equal-length candidate list, or
writing out of range, leaves `countSingles` unchanged; shrinking a
non-singleton cell to a singleton raises it by one. -/
theorem countSingles_setCell (w : Wfc) (i : Nat) (c : Cell)
    (h : i < w.cells.length) :
    countSingles (setCell w i c)
        + (if (cellAt w i).tiles.length = 1 then 1 else 0)
      = countSingles w + (if c.tiles.length = 1 then 1 else 0) := by
  have := countP_set w.cells i c default
    (fun x => decide (x.tiles.length = 1)) h
  simp only [decide_eq_true_eq] at this
  simpa [countSingles, setCell, cellAt] using this

theorem countSingles_setCell_oob (w : Wfc) (i : Nat) (c : Cell)
    (h : w.cells.length ≤ i) :
    countSingles (setCell w i c) = countSingles w := by
  rw [countSingles, setCell]
  simp only []
  rw [set_of_length_le w.cells i c h]
  rfl

/-- `wfc__propagate_prop` preserves the bookkeeping invariant, on
success and on failure alike. -/
theorem propagate_prop_countInv (w : Wfc) (p : WfcProp)
    (hinv : CountInv w) : CountInv (wfc__propagate_prop w p).2 := by
  rcases hf : wfc__filter_tiles w p.src_cell_idx p.direction
      (cellAt w p.dst_cell_idx).tiles (cellAt w p.dst_cell_idx).sum_freqs
      (cellAt w p.dst_cell_idx).entropy with ⟨sv, s', e', ok⟩
  have hlen : sv.length ≤ (cellAt w p.dst_cell_idx).tiles.length := by
    have := filter_tiles_len_le w p.src_cell_idx p.direction
      (cellAt w p.dst_cell_idx).tiles (cellAt w p.dst_cell_idx).sum_freqs
      (cellAt w p.dst_cell_idx).entropy
    rw [hf] at this
    exact this
  cases ok with
  | false =>
    rw [propagate_prop_eq_fail w p sv s' e' hf]
    show w.collapsed_cell_cnt = countSingles (setCell w p.dst_cell_idx _)
    rcases Nat.lt_or_ge p.dst_cell_idx w.cells.length with hd | hd
    · have hc := countSingles_setCell w p.dst_cell_idx
        ⟨sv ++ (cellAt w p.dst_cell_idx).tiles.drop sv.length, s', e'⟩ hd
      simp only [List.length_append, List.length_drop] at hc
      rw [CountInv] at hinv
      have heq : sv.length + ((cellAt w p.dst_cell_idx).tiles.length
          - sv.length) = (cellAt w p.dst_cell_idx).tiles.length := by omega
      rw [heq] at hc
      omega
    · rw [countSingles_setCell_oob w _ _ hd]
      exact hinv
  | true =>
    cases sv with
    | nil =>
      rw [propagate_prop_eq_empty w p s' e' hf]
      show w.collapsed_cell_cnt = countSingles (setCell w p.dst_cell_idx _)
      rcases Nat.lt_or_ge p.dst_cell_idx w.cells.length with hd | hd
      · have hc := countSingles_setCell w p.dst_cell_idx
          ⟨(cellAt w p.dst_cell_idx).tiles, s', e'⟩ hd
        simp only at hc
        rw [CountInv] at hinv
        omega
      · rw [countSingles_setCell_oob w _ _ hd]
        exact hinv
    | cons t0 rest =>
      rw [propagate_prop_eq_success w p (t0 :: rest) s' e' (by simp) hf]
      -- the destination cell is in range: out-of-range cells are empty,
      -- and the filter of an empty list cannot return a cons
      have hd : p.dst_cell_idx < w.cells.length := by
        by_contra hge
        have hdef : (cellAt w p.dst_cell_idx).tiles = [] := by
          rw [cellAt, List.getD_eq_default _ _
            (by omega : w.cells.length ≤ p.dst_cell_idx)]
          rfl
        rw [hdef] at hf
        simp only [wfc__filter_tiles] at hf
        simp at hf
      by_cases hs : (cellAt w p.dst_cell_idx).tiles.length
          = (t0 :: rest).length
      · rw [if_neg (by simpa using hs)]
        show w.collapsed_cell_cnt = countSingles (setCell w p.dst_cell_idx _)
        have hc := countSingles_setCell w p.dst_cell_idx
          ⟨t0 :: rest, s', e'⟩ hd
        simp only at hc
        rw [CountInv] at hinv
        rw [hs] at hc
        omega
      · rw [if_pos hs]
        show (bumpAndEnqueue w p (t0 :: rest).length).collapsed_cell_cnt
          = countSingles (setCell (bumpAndEnqueue w p (t0 :: rest).length)
              p.dst_cell_idx _)
        have hcells : (bumpAndEnqueue w p (t0 :: rest).length).cells
            = w.cells := cells_bumpAndEnqueue w p _
        have hcoll := collapsed_bumpAndEnqueue w p (t0 :: rest).length
        have hsingles : countSingles (setCell
            (bumpAndEnqueue w p (t0 :: rest).length) p.dst_cell_idx
            ⟨t0 :: rest, s', e'⟩)
            = countSingles (setCell w p.dst_cell_idx ⟨t0 :: rest, s', e'⟩) := by
          rw [countSingles, countSingles, setCell, setCell]
          simp only [hcells]
        rw [hsingles, hcoll]
        have hc := countSingles_setCell w p.dst_cell_idx
          ⟨t0 :: rest, s', e'⟩ hd
        simp only at hc
        rw [CountInv] at hinv
        have hf1 : 1 ≤ (t0 :: rest).length := by simp
        by_cases h1 : (t0 :: rest).length = 1
        · rw [if_pos h1]
          rw [if_pos h1] at hc
          have hold : ¬ (cellAt w p.dst_cell_idx).tiles.length = 1 := by
            omega
          rw [if_neg hold] at hc
          omega
        · rw [if_neg h1]
          rw [if_neg h1] at hc
          have hold : ¬ (cellAt w p.dst_cell_idx).tiles.length = 1 := by
            omega
          rw [if_neg hold] at hc
          omega

theorem collapse_false_state (w w1 : Wfc) (ci : Nat)
    (hc : wfc__collapse w ci = (false, w1)) :
    w1 = {w with ridx := w.ridx + 1} := by
  rcases hs : wfc__collapse_find w
      ((w.rand w.ridx : Int) % (cellAt w ci).sum_freqs)
      (cellAt w ci).tiles with _ | t
  · rw [collapse_eq_none w ci hs] at hc
    have := congrArg Prod.snd hc
    simp only at this
    rw [← this]
  · rw [collapse_eq_some w ci t hs] at hc
    exact absurd (congrArg Prod.fst hc) (by simp)

theorem collapse_countInv (w w1 : Wfc) (ci : Nat)
    (hci : ci < w.cells.length)
    (hcnt : (cellAt w ci).tiles.length ≠ 1) (hinv : CountInv w)
    (hc : wfc__collapse w ci = (true, w1)) : CountInv w1 := by
  rcases hs : wfc__collapse_find w
      ((w.rand w.ridx : Int) % (cellAt w ci).sum_freqs)
      (cellAt w ci).tiles with _ | t
  · rw [collapse_eq_none w ci hs] at hc
    exact absurd (congrArg Prod.fst hc) (by simp)
  · rw [collapse_eq_some w ci t hs] at hc
    have hw1 := congrArg Prod.snd hc
    simp only at hw1
    rw [← hw1]
    show w.collapsed_cell_cnt + 1 = countSingles (setCell w ci ⟨[t], 0, 0⟩)
    have hc2 := countSingles_setCell w ci ⟨[t], 0, 0⟩ hci
    simp [hcnt] at hc2
    rw [CountInv] at hinv
    omega

theorem countInv_add_prop_dir (w : Wfc) (src : Nat) (d : Direction)
    (hinv : CountInv w) : CountInv (wfc__add_prop_dir w src d) := by
  rw [wfc__add_prop_dir]
  rcases neighborOf w src d with _ | dst
  · exact hinv
  · exact hinv

theorem propagate_loop_countInv (fuel : Nat) (w : Wfc)
    (hinv : CountInv w) : CountInv (wfc__propagate_loop fuel w).2 := by
  induction fuel generalizing w with
  | zero => exact hinv
  | succ fuel ih =>
    by_cases h : w.prop_idx < w.props.length
    · rcases hp : wfc__propagate_prop w (w.props.getD w.prop_idx default)
        with ⟨b, w'⟩
      have hinv' : CountInv w' := by
        have := propagate_prop_countInv w (w.props.getD w.prop_idx default)
          hinv
        rw [hp] at this
        exact this
      cases b
      · rw [propagate_loop_eq_fail fuel w w' h hp]
        exact hinv'
      · rw [propagate_loop_eq_step fuel w w' h hp]
        exact ih _ hinv'
    · rw [propagate_loop_eq_done fuel w h]
      exact hinv

theorem propagate_countInv (w : Wfc) (ci : Nat) (hinv : CountInv w) :
    CountInv (wfc__propagate w ci).2 := by
  rw [wfc__propagate]
  apply propagate_loop_countInv
  apply countInv_add_prop_dir
  apply countInv_add_prop_dir
  apply countInv_add_prop_dir
  apply countInv_add_prop_dir
  exact hinv

theorem run_loop_countInv (fuel : Nat) (w : Wfc) (maxc : Int) (ci : Nat)
    (hgood : (cellAt w ci).tiles = []
      ∨ (ci < w.cells.length ∧ (cellAt w ci).tiles.length ≠ 1))
    (hinv : CountInv w) :
    CountInv (wfc__run_loop fuel w maxc ci).2 := by
  induction fuel generalizing w ci with
  | zero => exact hinv
  | succ fuel ih =>
    rcases hc : wfc__collapse w ci with ⟨b1, w1⟩
    cases b1
    · rw [run_loop_eq_cfail fuel w w1 maxc ci hc]
      rw [collapse_false_state w w1 ci hc]
      exact hinv
    · have hgood' : ci < w.cells.length
          ∧ (cellAt w ci).tiles.length ≠ 1 := by
        rcases hgood with hempty | hok
        · exfalso
          have hfind : wfc__collapse_find w
              ((w.rand w.ridx : Int) % (cellAt w ci).sum_freqs)
              (cellAt w ci).tiles = none := by
            rw [hempty]
            rfl
          rw [collapse_eq_none w ci hfind] at hc
          exact absurd (congrArg Prod.fst hc) (by simp)
        · exact hok
      have hinv1 : CountInv w1 :=
        collapse_countInv w w1 ci hgood'.1 hgood'.2 hinv hc
      rcases hp : wfc__propagate w1 ci with ⟨b2, w2⟩
      have hinv2 : CountInv w2 := by
        have := propagate_countInv w1 ci hinv1
        rw [hp] at this
        exact this
      cases b2
      · rw [run_loop_eq_pfail fuel w w1 w2 maxc ci hc hp]
        exact hinv2
      · rcases hn : wfc__next_cell w2 with ⟨ci', w3⟩
        have hinv3 : CountInv w3 := by
          have h32 : w3 = (wfc__next_cell w2).2 := by rw [hn]
          rw [h32]
          exact hinv2
        rw [run_loop_eq_step fuel w w1 w2 w3 maxc ci ci' hc hp hn]
        by_cases hbr : ci' = -1 ∨ (w3.collapsed_cell_cnt : Int) = maxc
        · rw [if_pos hbr]
          exact hinv3
        · rw [if_neg hbr]
          apply ih
          · right
            have hv := next_cell_valid w2 (by
              rw [hn]
              intro hcon
              exact hbr (Or.inl hcon))
            rw [hn] at hv
            obtain ⟨i, hi1, hi2, hi3⟩ := hv
            simp only at hi1
            have htn : ci'.toNat = i := by
              rw [hi1]
              exact Int.toNat_natCast i
            rw [htn]
            have hcells32 : w3.cells = w2.cells := by
              have : (wfc__next_cell w2).2.cells = w2.cells := rfl
              rw [hn] at this
              exact this
            constructor
            · rw [hcells32]
              exact hi2
            · have : cellAt w3 i = cellAt w2 i := by
                rw [cellAt, cellAt, hcells32]
              rw [this]
              exact hi3
          · exact hinv3

/-- Establishment: right after `wfc_init`, `collapsed_cell_cnt = 0` and
(for `tile_cnt ≠ 1`) no cell is a singleton. -/
theorem countInv_init (w0 : Wfc) (hP : w0.tiles.length ≠ 1) :
    CountInv (wfc_init w0) := by
  show (0 : Nat) = countSingles (wfc_init w0)
  rw [countSingles, wfc_init, wfc__init_cells]
  simp only []
  rw [eq_comm, List.countP_eq_zero]
  intro c hcmem
  obtain ⟨_, _, rfl⟩ := List.mem_map.mp hcmem
  simpa using hP

/-! ## Claim C5: collapsed-count bookkeeping -/

/-- C5 counterexample: `solverSingle` has one pattern, so after init
both cells are already singletons; the run's first collapse bumps
`collapsed_cell_cnt` on an already-singleton cell, and at the
post-propagation checkpoint (here the final state of the successful
run) `collapsed_cell_cnt = 1` while two cells have `count = 1`. -/
theorem claim_C5_cex :
    (wfc_run (wfc_init solverSingle) (-1)).1 = true
    ∧ (wfc_run (wfc_init solverSingle) (-1)).2.collapsed_cell_cnt = 1
    ∧ countSingles (wfc_run (wfc_init solverSingle) (-1)).2 = 2 := by
  decide

/-- C5 (amended): provided the pattern count is at least `2` (so that
no collapse step is ever applied to an already-singleton cell),
`collapsed_cell_cnt` equals the number of cells with `count = 1` at
every observable checkpoint: after init, after each collapse step the
run performs (a step on a cell with `count ≠ 1`), after each
propagation run (successful or not), and hence at the final state of
each run. -/
theorem claim_C5 :
    (∀ w0 : Wfc, 2 ≤ w0.tiles.length → CountInv (wfc_init w0))
    ∧ (∀ (w w1 : Wfc) (ci : Nat), ci < w.cells.length →
        (cellAt w ci).tiles.length ≠ 1 → CountInv w →
        wfc__collapse w ci = (true, w1) → CountInv w1)
    ∧ (∀ (w : Wfc) (ci : Nat), CountInv w → CountInv (wfc__propagate w ci).2)
    ∧ (∀ (w0 : Wfc) (maxc : Int), 2 ≤ w0.tiles.length →
        w0.cells.length = w0.output_width * w0.output_height →
        CountInv (wfc_run (wfc_init w0) maxc).2) := by
  refine ⟨fun w0 hP => countInv_init w0 (by omega),
    fun w w1 ci hci hcnt hinv hc => collapse_countInv w w1 ci hci hcnt hinv hc,
    fun w ci hinv => propagate_countInv w ci hinv, ?_⟩
  intro w0 maxc hP hcells
  have hinv0 : CountInv (wfc_init w0) := countInv_init w0 (by omega)
  have hlen : (wfc_init w0).cells.length = w0.cells.length := by
    simp [wfc_init, wfc__init_cells]
  simp only [wfc_run]
  apply run_loop_countInv
  · rcases Nat.eq_zero_or_pos w0.cells.length with hz | hpos
    · left
      rw [cellAt, List.getD_eq_default]
      · rfl
      · show {wfc_init w0 with
            ridx := (wfc_init w0).ridx + 1}.cells.length ≤ _
        have : {wfc_init w0 with
            ridx := (wfc_init w0).ridx + 1}.cells.length = w0.cells.length := by
          rw [← hlen]
        omega
    · right
      have hprod : (wfc_init w0).output_height * (wfc_init w0).output_width
          = w0.cells.length := by
        have h1 : (wfc_init w0).output_height = w0.output_height := rfl
        have h2 : (wfc_init w0).output_width = w0.output_width := rfl
        rw [h1, h2, hcells]
        exact Nat.mul_comm _ _
      have hci : (wfc_init w0).rand (wfc_init w0).ridx
          % ((wfc_init w0).output_height * (wfc_init w0).output_width)
          < w0.cells.length := by
        rw [← hprod]
        exact Nat.mod_lt _ (by omega)
      constructor
      · show _ < {wfc_init w0 with
            ridx := (wfc_init w0).ridx + 1}.cells.length
        have : {wfc_init w0 with
            ridx := (wfc_init w0).ridx + 1}.cells.length = w0.cells.length := by
          rw [← hlen]
        omega
      · have hcell : cellAt {wfc_init w0 with
            ridx := (wfc_init w0).ridx + 1}
            ((wfc_init w0).rand (wfc_init w0).ridx
              % ({wfc_init w0 with
                  ridx := (wfc_init w0).ridx + 1}.output_height
                * {wfc_init w0 with
                    ridx := (wfc_init w0).ridx + 1}.output_width))
            = ⟨List.range w0.tiles.length,
                (w0.tiles.map fun t => (t.freq : Int)).sum,
                -((w0.tiles.map fun t => w0.plogp t.freq).sum)⟩ :=
          wfc_init_cellAt w0 _ hci
        rw [hcell]
        simp only [List.length_range]
        omega
  · exact hinv0

/-- Witness for C5's run-level conjunct on `solverStripe`. -/
theorem claim_C5_witness :
    CountInv (wfc_run (wfc_init solverStripe) (-1)).2 :=
  claim_C5.2.2.2 solverStripe (-1) (by decide) (by decide)

theorem neighborOf_up_elim {w : Wfc} {u v : Nat}
    (h : neighborOf w u Direction.up = some v) :
    w.output_width ≤ u ∧ v = u - w.output_width := by
  rw [neighborOf] at h
  by_cases hc : w.output_width ≤ u
  · rw [if_pos hc] at h
    exact ⟨hc, (Option.some.injEq _ _ ▸ h).symm⟩
  · rw [if_neg hc] at h
    exact absurd h (by simp)

theorem neighborOf_down_elim {w : Wfc} {u v : Nat}
    (h : neighborOf w u Direction.down = some v) :
    u + w.output_width < w.cells.length ∧ v = u + w.output_width := by
  rw [neighborOf] at h
  by_cases hc : u + w.output_width < w.cells.length
  · rw [if_pos hc] at h
    exact ⟨hc, (Option.some.injEq _ _ ▸ h).symm⟩
  · rw [if_neg hc] at h
    exact absurd h (by simp)

theorem neighborOf_left_elim {w : Wfc} {u v : Nat}
    (h : neighborOf w u Direction.left = some v) :
    u % w.output_width ≠ 0 ∧ v = u - 1 := by
  rw [neighborOf] at h
  by_cases hc : u % w.output_width ≠ 0
  · rw [if_pos hc] at h
    exact ⟨hc, (Option.some.injEq _ _ ▸ h).symm⟩
  · rw [if_neg hc] at h
    exact absurd h (by simp)

theorem neighborOf_right_elim {w : Wfc} {u v : Nat}
    (h : neighborOf w u Direction.right = some v) :
    u % w.output_width ≠ w.output_width - 1 ∧ v = u + 1 := by
  rw [neighborOf] at h
  by_cases hc : u % w.output_width ≠ w.output_width - 1
  · rw [if_pos hc] at h
    exact ⟨hc, (Option.some.injEq _ _ ▸ h).symm⟩
  · rw [if_neg hc] at h
    exact absurd h (by simp)

theorem mod_pred_of_ne_zero {W u : Nat} (hW : 0 < W) (h : u % W ≠ 0) :
    (u - 1) % W = u % W - 1 ∧ 1 ≤ u % W ∧ 1 ≤ u := by
  have hdm := Nat.div_add_mod u W
  have hlt := Nat.mod_lt u hW
  set q := u / W
  set r := u % W
  have h1 : 1 ≤ r := by omega
  refine ⟨?_, h1, by omega⟩
  have hu1 : u - 1 = r - 1 + W * q := by omega
  rw [hu1, Nat.add_mul_mod_self_left, Nat.mod_eq_of_lt (by omega)]

theorem mod_succ_of_ne_last {W u : Nat} (hW : 0 < W)
    (h : u % W ≠ W - 1) :
    (u + 1) % W = u % W + 1 := by
  have hdm := Nat.div_add_mod u W
  have hlt := Nat.mod_lt u hW
  set q := u / W
  set r := u % W
  have hu1 : u + 1 = r + 1 + W * q := by omega
  rw [hu1, Nat.add_mul_mod_self_left, Nat.mod_eq_of_lt (by omega)]

/-- The neighbour index is in bounds. -/
theorem adjacent_target_lt {w : Wfc} {u v : Nat} {d : Direction}
    (hW : 0 < w.output_width)
    (hlen : w.cells.length = w.output_width * w.output_height)
    (h : Adjacent w u v d) : v < w.cells.length := by
  obtain ⟨hu, hn⟩ := h
  cases d with
  | up =>
    obtain ⟨hc, rfl⟩ := neighborOf_up_elim hn
    omega
  | down =>
    obtain ⟨hc, rfl⟩ := neighborOf_down_elim hn
    omega
  | left =>
    obtain ⟨hc, rfl⟩ := neighborOf_left_elim hn
    omega
  | right =>
    obtain ⟨hc, rfl⟩ := neighborOf_right_elim hn
    have hdm := Nat.div_add_mod u w.output_width
    have hlt := Nat.mod_lt u hW
    set W := w.output_width
    set OH := w.output_height
    set q := u / W
    set r := u % W
    -- row q lies strictly inside the grid, and u+1 stays inside row q
    have hq : q + 1 ≤ OH := by
      by_contra hge
      have h2 : W * OH ≤ W * q := Nat.mul_le_mul_left _ (by omega)
      omega
    have h4 : W * (q + 1) = W * q + W := by ring
    have h5 : W * (q + 1) ≤ W * OH := Nat.mul_le_mul_left _ hq
    omega

/-- Grid adjacency is involutive: the neighbour's neighbour back along
the opposite direction is the original cell. -/
theorem neighborOf_involution {w : Wfc} {u v : Nat} {d : Direction}
    (hW : 0 < w.output_width)
    (hlen : w.cells.length = w.output_width * w.output_height)
    (h : Adjacent w u v d) :
    neighborOf w v (opposite d) = some u := by
  obtain ⟨hu, hn⟩ := h
  cases d with
  | up =>
    obtain ⟨hc, rfl⟩ := neighborOf_up_elim hn
    rw [opposite, neighborOf, if_pos (by omega)]
    congr 1
    omega
  | down =>
    obtain ⟨hc, rfl⟩ := neighborOf_down_elim hn
    rw [opposite, neighborOf, if_pos (by omega)]
    congr 1
    omega
  | left =>
    obtain ⟨hc, rfl⟩ := neighborOf_left_elim hn
    obtain ⟨hm, hr1, hu1⟩ := mod_pred_of_ne_zero hW hc
    have hlt := Nat.mod_lt u hW
    rw [opposite, neighborOf, if_pos (by rw [hm]; omega)]
    congr 1
    omega
  | right =>
    obtain ⟨hc, rfl⟩ := neighborOf_right_elim hn
    have hm := mod_succ_of_ne_last hW hc
    rw [opposite, neighborOf, if_pos (by rw [hm]; omega)]
    simp

/-- A cell is never its own neighbour. -/
theorem adjacent_ne {w : Wfc} {u v : Nat} {d : Direction}
    (hW : 0 < w.output_width) (h : Adjacent w u v d) : u ≠ v := by
  obtain ⟨hu, hn⟩ := h
  cases d with
  | up =>
    obtain ⟨hc, rfl⟩ := neighborOf_up_elim hn
    omega
  | down =>
    obtain ⟨hc, rfl⟩ := neighborOf_down_elim hn
    omega
  | left =>
    obtain ⟨hc, rfl⟩ := neighborOf_left_elim hn
    obtain ⟨_, _, hu1⟩ := mod_pred_of_ne_zero hW hc
    omega
  | right =>
    obtain ⟨hc, rfl⟩ := neighborOf_right_elim hn
    omega

/-- Two directions from one cell never reach the same neighbour. -/
theorem neighborOf_dir_injective {w : Wfc} {u v : Nat} {d1 d2 : Direction}
    (hW : 0 < w.output_width)
    (h1 : neighborOf w u d1 = some v) (h2 : neighborOf w u d2 = some v) :
    d1 = d2 := by
  have hmodW : w.output_width = 1 → u % w.output_width = 0 := by
    intro h1w
    rw [h1w]
    exact Nat.mod_one u
  cases d1 <;> cases d2 <;> first
    | rfl
    | (exfalso
       first
        | (obtain ⟨ha, hva⟩ := neighborOf_up_elim h1
           first
            | (obtain ⟨hb, hvb⟩ := neighborOf_down_elim h2
               omega)
            | (obtain ⟨hb, hvb⟩ := neighborOf_left_elim h2
               obtain ⟨_, _, h1b⟩ := mod_pred_of_ne_zero hW hb
               have := hmodW
               by_cases hw1 : w.output_width = 1
               · exact hb (hmodW hw1)
               · omega)
            | (obtain ⟨hb, hvb⟩ := neighborOf_right_elim h2
               omega))
        | (obtain ⟨ha, hva⟩ := neighborOf_down_elim h1
           first
            | (obtain ⟨hb, hvb⟩ := neighborOf_up_elim h2
               omega)
            | (obtain ⟨hb, hvb⟩ := neighborOf_left_elim h2
               obtain ⟨_, _, h1b⟩ := mod_pred_of_ne_zero hW hb
               omega)
            | (obtain ⟨hb, hvb⟩ := neighborOf_right_elim h2
               by_cases hw1 : w.output_width = 1
               · exact hb (by rw [hw1]; exact Nat.mod_one u)
               · omega))
        | (obtain ⟨ha, hva⟩ := neighborOf_left_elim h1
           obtain ⟨_, _, h1a⟩ := mod_pred_of_ne_zero hW ha
           first
            | (obtain ⟨hb, hvb⟩ := neighborOf_up_elim h2
               by_cases hw1 : w.output_width = 1
               · exact ha (by rw [hw1]; exact Nat.mod_one u)
               · omega)
            | (obtain ⟨hb, hvb⟩ := neighborOf_down_elim h2
               omega)
            | (obtain ⟨hb, hvb⟩ := neighborOf_right_elim h2
               omega))
        | (obtain ⟨ha, hva⟩ := neighborOf_right_elim h1
           first
            | (obtain ⟨hb, hvb⟩ := neighborOf_up_elim h2
               omega)
            | (obtain ⟨hb, hvb⟩ := neighborOf_down_elim h2
               by_cases hw1 : w.output_width = 1
               · exact ha (by rw [hw1]; exact Nat.mod_one u)
               · omega)
            | (obtain ⟨hb, hvb⟩ := neighborOf_left_elim h2
               obtain ⟨_, _, h1b⟩ := mod_pred_of_ne_zero hW hb
               omega)))

/-- Two distinct cells never share a neighbour in one direction. -/
theorem neighborOf_src_injective {w : Wfc} {x y v : Nat} {d : Direction}
    (h1 : neighborOf w x d = some v) (h2 : neighborOf w y d = some v) :
    x = y := by
  cases d with
  | up =>
    obtain ⟨ha, hva⟩ := neighborOf_up_elim h1
    obtain ⟨hb, hvb⟩ := neighborOf_up_elim h2
    omega
  | down =>
    obtain ⟨ha, hva⟩ := neighborOf_down_elim h1
    obtain ⟨hb, hvb⟩ := neighborOf_down_elim h2
    omega
  | left =>
    obtain ⟨ha, hva⟩ := neighborOf_left_elim h1
    obtain ⟨hb, hvb⟩ := neighborOf_left_elim h2
    have hx : 1 ≤ x := by
      by_contra hc
      have : x = 0 := by omega
      rw [this] at ha
      exact ha (by simp)
    have hy : 1 ≤ y := by
      by_contra hc
      have : y = 0 := by omega
      rw [this] at hb
      exact hb (by simp)
    omega
  | right =>
    obtain ⟨ha, hva⟩ := neighborOf_right_elim h1
    obtain ⟨hb, hvb⟩ := neighborOf_right_elim h2
    omega

/-- `neighborOf` only reads the grid geometry, which `Frame` fixes. -/
theorem neighborOf_frame {w w' : Wfc} (h : Frame w w') (i : Nat)
    (d : Direction) : neighborOf w' i d = neighborOf w i d := by
  obtain ⟨_, _, hw, _, _, hc, _, _⟩ := h
  cases d <;> rw [neighborOf, neighborOf] <;> simp only [hw, hc]

theorem mem_drop_append {α : Type} {l e : List α} {n : Nat} {a : α}
    (h : a ∈ l.drop n) : a ∈ (l ++ e).drop n := by
  rw [List.drop_append_eq_append_drop]
  exact List.mem_append_left _ h

theorem self_mem_drop_append {α : Type} (l e : List α) (n : Nat) (a : α)
    (hn : n ≤ l.length) : a ∈ (l ++ a :: e).drop n := by
  rw [List.drop_append_of_le_length hn]
  exact List.mem_append_right _ (List.mem_cons_self a e)

theorem is_prop_pending_iff (w : Wfc) (i : Nat) (d : Direction) :
    wfc__is_prop_pending w i d = true ↔ tailPending w i d := by
  rw [wfc__is_prop_pending, List.any_eq_true, tailPending]
  constructor
  · rintro ⟨q, hq, hqd⟩
    exact ⟨q, hq, by simpa using hqd⟩
  · rintro ⟨q, hq, h1, h2⟩
    exact ⟨q, hq, by simp [h1, h2]⟩

/-- The head of the unconsumed worklist is the entry being processed;
everything else pending is in the tail. -/
theorem pending_head_or_tail {w : Wfc} {i : Nat} {d : Direction}
    (hidx : w.prop_idx < w.props.length) (h : pendingFrom w i d) :
    ((w.props.getD w.prop_idx default).src_cell_idx = i
      ∧ (w.props.getD w.prop_idx default).direction = d)
    ∨ tailPending w i d := by
  obtain ⟨q, hq, h1, h2⟩ := h
  rw [List.drop_eq_getElem_cons hidx] at hq
  rcases List.mem_cons.mp hq with hhead | htail
  · left
    rw [List.getD_eq_getElem w.props default hidx, ← hhead]
    exact ⟨h1, h2⟩
  · right
    exact ⟨q, htail, h1, h2⟩

theorem tailPending_pendingFrom {w : Wfc} {i : Nat} {d : Direction}
    (h : tailPending w i d) : pendingFrom w i d := by
  obtain ⟨q, hq, h1, h2⟩ := h
  refine ⟨q, ?_, h1, h2⟩
  have hdd : (w.props.drop w.prop_idx).drop 1 = w.props.drop (w.prop_idx + 1) :=
    List.drop_drop 1 w.prop_idx w.props
  rw [← hdd] at hq
  exact List.mem_of_mem_drop hq

theorem propsExt_refl (w : Wfc) : PropsExt w w :=
  ⟨rfl, [], by simp⟩

theorem propsExt_trans {w1 w2 w3 : Wfc} (h12 : PropsExt w1 w2)
    (h23 : PropsExt w2 w3) : PropsExt w1 w3 := by
  obtain ⟨hi12, e12, he12⟩ := h12
  obtain ⟨hi23, e23, he23⟩ := h23
  exact ⟨hi23.trans hi12, e12 ++ e23,
    by rw [he23, he12, List.append_assoc]⟩

theorem propsExt_add_prop (w : Wfc) (src dst : Nat) (d : Direction) :
    PropsExt w (wfc__add_prop w src dst d) :=
  ⟨rfl, [⟨src, dst, d⟩], rfl⟩

theorem propsExt_add_prop_dir (w : Wfc) (src : Nat) (d : Direction) :
    PropsExt w (wfc__add_prop_dir w src d) := by
  rw [wfc__add_prop_dir]
  rcases neighborOf w src d with _ | dst
  · exact propsExt_refl w
  · exact propsExt_add_prop w src dst d

theorem propsExt_enqueueOne (p : WfcProp) (d : Direction) (w : Wfc) :
    PropsExt w (enqueueOne p d w) := by
  rw [enqueueOne]
  by_cases hc : p.direction ≠ opposite d
      ∧ wfc__is_prop_pending w p.dst_cell_idx d = false
  · rw [if_pos hc]
    exact propsExt_add_prop_dir w p.dst_cell_idx d
  · rw [if_neg hc]
    exact propsExt_refl w

theorem propsExt_bumpAndEnqueue (w : Wfc) (p : WfcProp) (n : Nat) :
    PropsExt w (bumpAndEnqueue w p n) := by
  simp only [bumpAndEnqueue]
  have h1 : PropsExt w
      (if n = 1 then {w with collapsed_cell_cnt := w.collapsed_cell_cnt + 1}
       else w) := by
    by_cases hn : n = 1
    · rw [if_pos hn]
      exact ⟨rfl, [], by simp⟩
    · rw [if_neg hn]
      exact propsExt_refl w
  exact propsExt_trans
    (propsExt_trans
      (propsExt_trans (propsExt_trans h1 (propsExt_enqueueOne _ _ _))
        (propsExt_enqueueOne _ _ _))
      (propsExt_enqueueOne _ _ _))
    (propsExt_enqueueOne _ _ _)

theorem tailPending_mono {w w' : Wfc} (h : PropsExt w w') {i : Nat}
    {d : Direction} (hp : tailPending w i d) : tailPending w' i d := by
  obtain ⟨hi, e, he⟩ := h
  obtain ⟨q, hq, h1, h2⟩ := hp
  refine ⟨q, ?_, h1, h2⟩
  rw [he, hi]
  exact mem_drop_append hq

theorem pendingFrom_mono {w w' : Wfc} (h : PropsExt w w') {i : Nat}
    {d : Direction} (hp : pendingFrom w i d) : pendingFrom w' i d := by
  obtain ⟨hi, e, he⟩ := h
  obtain ⟨q, hq, h1, h2⟩ := hp
  refine ⟨q, ?_, h1, h2⟩
  rw [he, hi]
  exact mem_drop_append hq

theorem cursor_lt_mono {w w' : Wfc} (h : PropsExt w w')
    (hidx : w.prop_idx < w.props.length) :
    w'.prop_idx < w'.props.length := by
  obtain ⟨hi, e, he⟩ := h
  rw [hi, he, List.length_append]
  omega

theorem getD_mem {α : Type} (l : List α) (n : Nat) (d : α)
    (h : n < l.length) : l.getD n d ∈ l := by
  rw [List.getD_eq_getElem l d h]
  exact List.getElem_mem h

theorem adjacent_transfer {w w' : Wfc} (hfr : Frame w w') {u v : Nat}
    {d : Direction} (h : Adjacent w' u v d) : Adjacent w u v d := by
  obtain ⟨h1, h2⟩ := h
  rw [hfr.2.2.2.2.2.1] at h1
  rw [neighborOf_frame hfr u d] at h2
  exact ⟨h1, h2⟩

theorem propsWF_transfer {w w' : Wfc} (hfr : Frame w w')
    (hpr : w'.props = w.props) (h : PropsWF w) : PropsWF w' := by
  intro q hq
  rw [hpr] at hq
  obtain ⟨h1, h2⟩ := h q hq
  refine ⟨?_, ?_⟩
  · rw [hfr.2.2.2.2.2.1]
    exact h1
  · rw [neighborOf_frame hfr]
    exact h2

theorem propsWF_add_prop_dir {w : Wfc} {src : Nat}
    (hwf : PropsWF w) (hsrc : src < w.cells.length) (d : Direction) :
    PropsWF (wfc__add_prop_dir w src d) := by
  rw [wfc__add_prop_dir]
  rcases hnb : neighborOf w src d with _ | dst
  · exact hwf
  · intro q hq
    have hq' : q ∈ w.props ++ [⟨src, dst, d⟩] := hq
    rcases List.mem_append.mp hq' with hin | hin
    · exact hwf q hin
    · rw [List.mem_singleton] at hin
      subst hin
      exact ⟨hsrc, hnb⟩

theorem propsWF_enqueueOne {w : Wfc} {p : WfcProp}
    (hwf : PropsWF w) (hdst : p.dst_cell_idx < w.cells.length)
    (d : Direction) : PropsWF (enqueueOne p d w) := by
  rw [enqueueOne]
  by_cases hc : p.direction ≠ opposite d
      ∧ wfc__is_prop_pending w p.dst_cell_idx d = false
  · rw [if_pos hc]
    exact propsWF_add_prop_dir hwf hdst d
  · rw [if_neg hc]
    exact hwf

theorem propsWF_bumpAndEnqueue {w : Wfc} {p : WfcProp} {n : Nat}
    (hwf : PropsWF w) (hdst : p.dst_cell_idx < w.cells.length) :
    PropsWF (bumpAndEnqueue w p n) := by
  simp only [bumpAndEnqueue]
  set wa := if n = 1 then
      {w with collapsed_cell_cnt := w.collapsed_cell_cnt + 1} else w
    with hwa_def
  have hfr_a : Frame w wa := by
    rw [hwa_def]
    by_cases hn : n = 1
    · rw [if_pos hn]
      exact ⟨rfl, rfl, rfl, rfl, rfl, rfl, rfl, rfl⟩
    · rw [if_neg hn]
      exact frame_refl w
  have hwf_a : PropsWF wa := by
    refine propsWF_transfer hfr_a ?_ hwf
    rw [hwa_def]
    by_cases hn : n = 1
    · rw [if_pos hn]
    · rw [if_neg hn]
  have hdst_a : p.dst_cell_idx < wa.cells.length := by
    rw [hfr_a.2.2.2.2.2.1]
    exact hdst
  have hfr_b : Frame w (enqueueOne p Direction.up wa) :=
    frame_trans hfr_a (frame_enqueueOne _ _ _)
  have hfr_c : Frame w
      (enqueueOne p Direction.down (enqueueOne p Direction.up wa)) :=
    frame_trans hfr_b (frame_enqueueOne _ _ _)
  have hfr_d : Frame w (enqueueOne p Direction.left
      (enqueueOne p Direction.down (enqueueOne p Direction.up wa))) :=
    frame_trans hfr_c (frame_enqueueOne _ _ _)
  refine propsWF_enqueueOne (propsWF_enqueueOne (propsWF_enqueueOne
    (propsWF_enqueueOne hwf_a hdst_a Direction.up) ?_ Direction.down)
    ?_ Direction.left) ?_ Direction.right
  · rw [hfr_b.2.2.2.2.2.1]
    exact hdst
  · rw [hfr_c.2.2.2.2.2.1]
    exact hdst
  · rw [hfr_d.2.2.2.2.2.1]
    exact hdst

/-- If the guard direction is eligible and the neighbour exists, after
`enqueueOne` the propagation is pending in the worklist tail (either it
already was, or the entry was just appended). -/
theorem enqueueOne_covers (p : WfcProp) (d : Direction) (w : Wfc) (x : Nat)
    (hidx : w.prop_idx < w.props.length)
    (hd : p.direction ≠ opposite d)
    (hn : neighborOf w p.dst_cell_idx d = some x) :
    tailPending (enqueueOne p d w) p.dst_cell_idx d := by
  rw [enqueueOne]
  by_cases hpend : wfc__is_prop_pending w p.dst_cell_idx d = false
  · rw [if_pos ⟨hd, hpend⟩, wfc__add_prop_dir, hn]
    refine ⟨⟨p.dst_cell_idx, x, d⟩, ?_, rfl, rfl⟩
    show _ ∈ (w.props ++ [(⟨p.dst_cell_idx, x, d⟩ : WfcProp)]).drop
      (w.prop_idx + 1)
    exact self_mem_drop_append w.props [] (w.prop_idx + 1) _ (by omega)
  · have htrue : wfc__is_prop_pending w p.dst_cell_idx d = true := by
      rcases h : wfc__is_prop_pending w p.dst_cell_idx d
      · exact absurd h hpend
      · rfl
    rw [if_neg (fun hcon => hpend hcon.2)]
    exact (is_prop_pending_iff w _ d).mp htrue

/-- After the post-shrink bookkeeping, every eligible direction from the
shrunk destination is pending in the worklist tail. -/
theorem bumpAndEnqueue_covers (w : Wfc) (p : WfcProp) (n : Nat)
    (d : Direction) (x : Nat)
    (hidx : w.prop_idx < w.props.length)
    (hd : p.direction ≠ opposite d)
    (hn : neighborOf w p.dst_cell_idx d = some x) :
    tailPending (bumpAndEnqueue w p n) p.dst_cell_idx d := by
  simp only [bumpAndEnqueue]
  set wa := if n = 1 then
      {w with collapsed_cell_cnt := w.collapsed_cell_cnt + 1} else w
    with hwa_def
  have hfr_a : Frame w wa := by
    rw [hwa_def]
    by_cases hn1 : n = 1
    · rw [if_pos hn1]
      exact ⟨rfl, rfl, rfl, rfl, rfl, rfl, rfl, rfl⟩
    · rw [if_neg hn1]
      exact frame_refl w
  have hext_a : PropsExt w wa := by
    rw [hwa_def]
    by_cases hn1 : n = 1
    · rw [if_pos hn1]
      exact ⟨rfl, [], by simp⟩
    · rw [if_neg hn1]
      exact propsExt_refl w
  have hfr_b : Frame w (enqueueOne p Direction.up wa) :=
    frame_trans hfr_a (frame_enqueueOne _ _ _)
  have hext_b : PropsExt w (enqueueOne p Direction.up wa) :=
    propsExt_trans hext_a (propsExt_enqueueOne _ _ _)
  have hfr_c : Frame w
      (enqueueOne p Direction.down (enqueueOne p Direction.up wa)) :=
    frame_trans hfr_b (frame_enqueueOne _ _ _)
  have hext_c : PropsExt w
      (enqueueOne p Direction.down (enqueueOne p Direction.up wa)) :=
    propsExt_trans hext_b (propsExt_enqueueOne _ _ _)
  have hfr_d : Frame w (enqueueOne p Direction.left
      (enqueueOne p Direction.down (enqueueOne p Direction.up wa))) :=
    frame_trans hfr_c (frame_enqueueOne _ _ _)
  have hext_d : PropsExt w (enqueueOne p Direction.left
      (enqueueOne p Direction.down (enqueueOne p Direction.up wa))) :=
    propsExt_trans hext_c (propsExt_enqueueOne _ _ _)
  cases d with
  | up =>
    refine tailPending_mono (propsExt_enqueueOne _ _ _)
      (tailPending_mono (propsExt_enqueueOne _ _ _)
        (tailPending_mono (propsExt_enqueueOne _ _ _) ?_))
    exact enqueueOne_covers p Direction.up wa x (cursor_lt_mono hext_a hidx)
      hd (by rw [neighborOf_frame hfr_a]; exact hn)
  | down =>
    refine tailPending_mono (propsExt_enqueueOne _ _ _)
      (tailPending_mono (propsExt_enqueueOne _ _ _) ?_)
    exact enqueueOne_covers p Direction.down _ x (cursor_lt_mono hext_b hidx)
      hd (by rw [neighborOf_frame hfr_b]; exact hn)
  | left =>
    refine tailPending_mono (propsExt_enqueueOne _ _ _) ?_
    exact enqueueOne_covers p Direction.left _ x (cursor_lt_mono hext_c hidx)
      hd (by rw [neighborOf_frame hfr_c]; exact hn)
  | right =>
    exact enqueueOne_covers p Direction.right _ x (cursor_lt_mono hext_d hidx)
      hd (by rw [neighborOf_frame hfr_d]; exact hn)

theorem opposite_opposite (d : Direction) : opposite (opposite d) = d := by
  cases d <;> rfl

/-- A singleton source cell enables a tile iff the adjacency relation
allows the pair. -/
theorem tile_enabled_singleton {w : Wfc} {src a t : Nat} {d : Direction}
    (hs : (cellAt w src).tiles = [a])
    (he : wfc__tile_enabled w t src d = true) :
    w.allowed d a t = true := by
  rw [wfc__tile_enabled, hs] at he
  simpa using he

/-- The static side conditions of the C1 invariant transfer along any
`Frame`-preserving step. -/
theorem statics_transfer {w w' : Wfc} (hfr : Frame w w')
    (hW : 0 < w.output_width)
    (hlen : w.cells.length = w.output_width * w.output_height)
    (hsym : ∀ d a b, w.allowed d a b = w.allowed (opposite d) b a) :
    0 < w'.output_width
    ∧ w'.cells.length = w'.output_width * w'.output_height
    ∧ ∀ d a b, w'.allowed d a b = w'.allowed (opposite d) b a := by
  obtain ⟨ht, ha, hw, hh, hc, hl, hp, hr⟩ := hfr
  refine ⟨by rw [hw]; exact hW, by rw [hl, hw, hh]; exact hlen, ?_⟩
  intro d a b
  rw [ha]
  exact hsym d a b

/-- One successful `wfc__propagate_prop` step preserves the worklist
well-formedness and the arc-consistency-modulo-pending invariant. -/
theorem propagate_prop_step_K (w : Wfc)
    (hW : 0 < w.output_width)
    (hlen : w.cells.length = w.output_width * w.output_height)
    (hsym : ∀ d a b, w.allowed d a b = w.allowed (opposite d) b a)
    (hidx : w.prop_idx < w.props.length)
    (hwf : PropsWF w) (hK : KInv w) (w' : Wfc)
    (hp : wfc__propagate_prop w (w.props.getD w.prop_idx default)
      = (true, w')) :
    PropsWF {w' with prop_idx := w'.prop_idx + 1}
    ∧ KInv {w' with prop_idx := w'.prop_idx + 1} := by
  set p := w.props.getD w.prop_idx default with hp_def
  have hpmem : p ∈ w.props := getD_mem _ _ _ hidx
  obtain ⟨hsrc_lt, hnb⟩ := hwf p hpmem
  have hadj_p : Adjacent w p.src_cell_idx p.dst_cell_idx p.direction :=
    ⟨hsrc_lt, hnb⟩
  have hdst_lt : p.dst_cell_idx < w.cells.length :=
    adjacent_target_lt hW hlen hadj_p
  have hsd_ne : p.src_cell_idx ≠ p.dst_cell_idx := adjacent_ne hW hadj_p
  rcases hf : wfc__filter_tiles w p.src_cell_idx p.direction
      (cellAt w p.dst_cell_idx).tiles (cellAt w p.dst_cell_idx).sum_freqs
      (cellAt w p.dst_cell_idx).entropy with ⟨sv, s', e', ok⟩
  cases ok with
  | false =>
    rw [propagate_prop_eq_fail w p sv s' e' hf] at hp
    exact absurd (congrArg Prod.fst hp) (by simp)
  | true =>
    rcases sv with _ | ⟨t0, rest⟩
    · rw [propagate_prop_eq_empty w p s' e' hf] at hp
      exact absurd (congrArg Prod.fst hp) (by simp)
    · rw [propagate_prop_eq_success w p (t0 :: rest) s' e' (by simp) hf] at hp
      have hw' : setCell
          (if (cellAt w p.dst_cell_idx).tiles.length ≠ (t0 :: rest).length
           then bumpAndEnqueue w p (t0 :: rest).length else w)
          p.dst_cell_idx ⟨t0 :: rest, s', e'⟩ = w' := by
        injection hp
      set w1 := if (cellAt w p.dst_cell_idx).tiles.length
          ≠ (t0 :: rest).length
        then bumpAndEnqueue w p (t0 :: rest).length else w with hw1_def
      have hsv_filter : t0 :: rest
          = (cellAt w p.dst_cell_idx).tiles.filter
              fun t => wfc__tile_enabled w t p.src_cell_idx p.direction := by
        have hok : (wfc__filter_tiles w p.src_cell_idx p.direction
            (cellAt w p.dst_cell_idx).tiles (cellAt w p.dst_cell_idx).sum_freqs
            (cellAt w p.dst_cell_idx).entropy).2.2.2 = true := by
          rw [hf]
        have := filter_tiles_ok_eq w p.src_cell_idx p.direction
          (cellAt w p.dst_cell_idx).tiles (cellAt w p.dst_cell_idx).sum_freqs
          (cellAt w p.dst_cell_idx).entropy hok
        rw [hf] at this
        exact this
      have hext1 : PropsExt w w1 := by
        rw [hw1_def]
        by_cases hsh : (cellAt w p.dst_cell_idx).tiles.length
            ≠ (t0 :: rest).length
        · rw [if_pos hsh]
          exact propsExt_bumpAndEnqueue w p _
        · rw [if_neg hsh]
          exact propsExt_refl w
      have hfr1 : Frame w w1 := by
        rw [hw1_def]
        by_cases hsh : (cellAt w p.dst_cell_idx).tiles.length
            ≠ (t0 :: rest).length
        · rw [if_pos hsh]
          exact frame_bumpAndEnqueue w p _
        · rw [if_neg hsh]
          exact frame_refl w
      have hcells1 : w1.cells = w.cells := by
        rw [hw1_def]
        by_cases hsh : (cellAt w p.dst_cell_idx).tiles.length
            ≠ (t0 :: rest).length
        · rw [if_pos hsh]
          exact cells_bumpAndEnqueue w p _
        · rw [if_neg hsh]
      have hwf1 : PropsWF w1 := by
        rw [hw1_def]
        by_cases hsh : (cellAt w p.dst_cell_idx).tiles.length
            ≠ (t0 :: rest).length
        · rw [if_pos hsh]
          exact propsWF_bumpAndEnqueue hwf hdst_lt
        · rw [if_neg hsh]
          exact hwf
      subst hw'
      set c : Cell := ⟨t0 :: rest, s', e'⟩ with hc_def
      set w2 := {setCell w1 p.dst_cell_idx c with
        prop_idx := (setCell w1 p.dst_cell_idx c).prop_idx + 1} with hw2_def
      have hfr2 : Frame w w2 :=
        frame_trans (frame_trans hfr1 (frame_setCell _ _ _))
          ⟨rfl, rfl, rfl, rfl, rfl, rfl, rfl, rfl⟩
      have hfrS2 : Frame (setCell w1 p.dst_cell_idx c) w2 :=
        ⟨rfl, rfl, rfl, rfl, rfl, rfl, rfl, rfl⟩
      have hcell_dst : cellAt w2 p.dst_cell_idx = c := by
        show cellAt (setCell w1 p.dst_cell_idx c) p.dst_cell_idx = c
        exact cellAt_setCell_eq w1 p.dst_cell_idx c
          (by rw [hcells1]; exact hdst_lt)
      have hcell_ne : ∀ i, i ≠ p.dst_cell_idx → cellAt w2 i = cellAt w i := by
        intro i hi
        show cellAt (setCell w1 p.dst_cell_idx c) i = cellAt w i
        rw [cellAt_setCell_ne w1 p.dst_cell_idx i c fun h => hi h.symm]
        rw [cellAt, cellAt, hcells1]
      have hprops2 : w2.props = w1.props := rfl
      have hpidx2 : w2.prop_idx = w.prop_idx + 1 := by
        show w1.prop_idx + 1 = w.prop_idx + 1
        rw [hext1.1]
      have hpend_of_tail1 : ∀ i dd, tailPending w1 i dd
          → pendingFrom w2 i dd := by
        intro i dd h
        obtain ⟨q, hq, h1, h2⟩ := h
        refine ⟨q, ?_, h1, h2⟩
        show q ∈ w2.props.drop w2.prop_idx
        rw [hprops2, hpidx2, ← hext1.1]
        exact hq
      have hpend_of_tail : ∀ i dd, tailPending w i dd
          → pendingFrom w2 i dd := by
        intro i dd h
        exact hpend_of_tail1 i dd (tailPending_mono hext1 h)
      have hwf2 : PropsWF w2 :=
        propsWF_transfer (frame_trans (frame_setCell w1 p.dst_cell_idx c)
          hfrS2) hprops2 hwf1
      refine ⟨hwf2, ?_⟩
      intro u v d hadj hu1 hv1
      have hadjw : Adjacent w u v d := adjacent_transfer hfr2 hadj
      have hvlt : v < w.cells.length := adjacent_target_lt hW hlen hadjw
      have huv_ne : u ≠ v := adjacent_ne hW hadjw
      have hal2 : w2.allowed = w.allowed := hfr2.2.1
      by_cases hu_dst : u = p.dst_cell_idx
      · -- the edge leaves the rewritten destination
        subst hu_dst
        have hv_dst : v ≠ p.dst_cell_idx := fun h => huv_ne h.symm
        have hrest : rest = [] := by
          rw [hcell_dst] at hu1
          have : (t0 :: rest).length = 1 := hu1
          simpa using this
        subst hrest
        have htileu : tileOf w2 p.dst_cell_idx = t0 := by
          rw [tileOf, hcell_dst]
          rfl
        have ht0_en : wfc__tile_enabled w t0 p.src_cell_idx p.direction
            = true := by
          have ht0_mem : t0 ∈ (cellAt w p.dst_cell_idx).tiles.filter
              fun t => wfc__tile_enabled w t p.src_cell_idx p.direction := by
            rw [← hsv_filter]
            exact List.mem_singleton_self t0
          exact (List.mem_filter.mp ht0_mem).2
        by_cases hv_src : v = p.src_cell_idx
        · -- back edge toward the singleton source: compatibility via hsym
          subst hv_src
          have hbackp : neighborOf w p.dst_cell_idx (opposite p.direction)
              = some p.src_cell_idx := neighborOf_involution hW hlen hadj_p
          have hd_eq : d = opposite p.direction :=
            neighborOf_dir_injective hW hadjw.2 hbackp
          subst hd_eq
          have hv_cell : cellAt w2 p.src_cell_idx = cellAt w p.src_cell_idx :=
            hcell_ne _ hsd_ne
          have hv1w : (cellAt w p.src_cell_idx).tiles.length = 1 := by
            rw [← hv_cell]
            exact hv1
          obtain ⟨a, ha⟩ := List.length_eq_one.mp hv1w
          have htilev : tileOf w2 p.src_cell_idx = a := by
            rw [tileOf, hv_cell, ha]
            rfl
          left
          rw [hal2, htileu, htilev, ← hsym p.direction a t0]
          exact tile_enabled_singleton ha ht0_en
        · -- forward edge away from the destination
          have hd_ne : p.direction ≠ opposite d := by
            intro hcon
            apply hv_src
            have hd2 : d = opposite p.direction := by
              rw [hcon, opposite_opposite]
            have hbackp := neighborOf_involution hW hlen hadj_p
            rw [← hd2] at hbackp
            exact Option.some.inj (hadjw.2.symm.trans hbackp)
          by_cases hsh : (cellAt w p.dst_cell_idx).tiles.length
              ≠ ([t0] : List Nat).length
          · -- the destination shrank: the step enqueued this direction
            right
            left
            apply hpend_of_tail1
            rw [hw1_def, if_pos hsh]
            exact bumpAndEnqueue_covers w p _ d v hidx hd_ne hadjw.2
          · -- no shrink: the destination was already the singleton [t0]
            push_neg at hsh
            obtain ⟨b, hb⟩ := List.length_eq_one.mp (by simpa using hsh)
            have hb_t0 : b = t0 := by
              have hft := hsv_filter
              rw [hb] at hft
              by_cases hfb : wfc__tile_enabled w b p.src_cell_idx p.direction
              · rw [List.filter_cons_of_pos (by simpa using hfb),
                  List.filter_nil] at hft
                injection hft with h1 h2
                exact h1.symm
              · rw [List.filter_cons_of_neg (by simpa using hfb),
                  List.filter_nil] at hft
                exact absurd hft (by simp)
            subst hb_t0
            have hv_cell : cellAt w2 v = cellAt w v := hcell_ne v hv_dst
            have hEdge := hK p.dst_cell_idx v d hadjw
              (by rw [hb]; rfl) (by rw [← hv_cell]; exact hv1)
            have htileu_w : tileOf w p.dst_cell_idx = b := by
              rw [tileOf, hb]
              rfl
            have htilev : tileOf w2 v = tileOf w v := by
              rw [tileOf, tileOf, hv_cell]
            rcases hEdge with hal | hpend | hpend
            · left
              rw [hal2, htileu, htilev, ← htileu_w]
              exact hal
            · rcases pending_head_or_tail hidx hpend with ⟨he1, _⟩ | htail
              · exact absurd he1 hsd_ne
              · right
                left
                exact hpend_of_tail _ d htail
            · rcases pending_head_or_tail hidx hpend with ⟨he1, _⟩ | htail
              · exact absurd he1.symm hv_src
              · right
                right
                exact hpend_of_tail v (opposite d) htail
      · by_cases hv_dst : v = p.dst_cell_idx
        · -- the edge enters the rewritten destination
          subst hv_dst
          have hrest : rest = [] := by
            rw [hcell_dst] at hv1
            have : (t0 :: rest).length = 1 := hv1
            simpa using this
          subst hrest
          have htilev : tileOf w2 p.dst_cell_idx = t0 := by
            rw [tileOf, hcell_dst]
            rfl
          have ht0_en : wfc__tile_enabled w t0 p.src_cell_idx p.direction
              = true := by
            have ht0_mem : t0 ∈ (cellAt w p.dst_cell_idx).tiles.filter
                fun t => wfc__tile_enabled w t p.src_cell_idx p.direction := by
              rw [← hsv_filter]
              exact List.mem_singleton_self t0
            exact (List.mem_filter.mp ht0_mem).2
          by_cases hu_src : u = p.src_cell_idx
          · -- the processed edge itself: survivors are enabled
            subst hu_src
            have hd_eq : d = p.direction :=
              neighborOf_dir_injective hW hadjw.2 hnb
            subst hd_eq
            have hu_cell : cellAt w2 p.src_cell_idx
                = cellAt w p.src_cell_idx := hcell_ne p.src_cell_idx hu_dst
            have hu1w : (cellAt w p.src_cell_idx).tiles.length = 1 := by
              rw [← hu_cell]
              exact hu1
            obtain ⟨a, ha⟩ := List.length_eq_one.mp hu1w
            have htileu : tileOf w2 p.src_cell_idx = a := by
              rw [tileOf, hu_cell, ha]
              rfl
            left
            rw [hal2, htileu, htilev]
            exact tile_enabled_singleton ha ht0_en
          · -- a different singleton neighbour: back edge must be covered
            have hback : neighborOf w p.dst_cell_idx (opposite d) = some u :=
              neighborOf_involution hW hlen hadjw
            have hd_ne : p.direction ≠ opposite (opposite d) := by
              rw [opposite_opposite]
              intro hcon
              apply hu_src
              exact neighborOf_src_injective hadjw.2 (by rw [← hcon]; exact hnb)
            by_cases hsh : (cellAt w p.dst_cell_idx).tiles.length
                ≠ ([t0] : List Nat).length
            · right
              right
              apply hpend_of_tail1
              rw [hw1_def, if_pos hsh]
              exact bumpAndEnqueue_covers w p _ (opposite d) u hidx hd_ne hback
            · push_neg at hsh
              obtain ⟨b, hb⟩ := List.length_eq_one.mp (by simpa using hsh)
              have hb_t0 : b = t0 := by
                have hft := hsv_filter
                rw [hb] at hft
                by_cases hfb : wfc__tile_enabled w b p.src_cell_idx p.direction
                · rw [List.filter_cons_of_pos (by simpa using hfb),
                    List.filter_nil] at hft
                  injection hft with h1 h2
                  exact h1.symm
                · rw [List.filter_cons_of_neg (by simpa using hfb),
                    List.filter_nil] at hft
                  exact absurd hft (by simp)
              subst hb_t0
              have hu_cell : cellAt w2 u = cellAt w u := hcell_ne u hu_dst
              have hEdge := hK u p.dst_cell_idx d hadjw
                (by rw [← hu_cell]; exact hu1) (by rw [hb]; rfl)
              have htilev_w : tileOf w p.dst_cell_idx = b := by
                rw [tileOf, hb]
                rfl
              have htileu : tileOf w2 u = tileOf w u := by
                rw [tileOf, tileOf, hu_cell]
              rcases hEdge with hal | hpend | hpend
              · left
                rw [hal2, htileu, htilev, ← htilev_w]
                exact hal
              · rcases pending_head_or_tail hidx hpend with ⟨he1, _⟩ | htail
                · exact absurd he1.symm hu_src
                · right
                  left
                  exact hpend_of_tail u d htail
              · rcases pending_head_or_tail hidx hpend with ⟨he1, _⟩ | htail
                · exact absurd he1 hsd_ne
                · right
                  right
                  exact hpend_of_tail _ (opposite d) htail
        · -- the edge does not touch the destination: inherited from `w`
          have hu_cell : cellAt w2 u = cellAt w u := hcell_ne u hu_dst
          have hv_cell : cellAt w2 v = cellAt w v := hcell_ne v hv_dst
          have hEdge := hK u v d hadjw
            (by rw [← hu_cell]; exact hu1) (by rw [← hv_cell]; exact hv1)
          have htileu : tileOf w2 u = tileOf w u := by
            rw [tileOf, tileOf, hu_cell]
          have htilev : tileOf w2 v = tileOf w v := by
            rw [tileOf, tileOf, hv_cell]
          rcases hEdge with hal | hpend | hpend
          · left
            rw [hal2, htileu, htilev]
            exact hal
          · rcases pending_head_or_tail hidx hpend with ⟨he1, he2⟩ | htail
            · exfalso
              apply hv_dst
              have hthis := hnb
              rw [he1, he2] at hthis
              exact Option.some.inj (hadjw.2.symm.trans hthis)
            · right
              left
              exact hpend_of_tail u d htail
          · rcases pending_head_or_tail hidx hpend with ⟨he1, he2⟩ | htail
            · exfalso
              apply hu_dst
              have hback := neighborOf_involution hW hlen hadjw
              have hthis := hnb
              rw [he1, he2] at hthis
              exact Option.some.inj (hback.symm.trans hthis)
            · right
              right
              exact hpend_of_tail v (opposite d) htail

/-- A successful propagation loop run drains the worklist while keeping
`KInv`, so the final state is arc-consistent outright. -/
theorem propagate_loop_K (fuel : Nat) (w : Wfc)
    (hW : 0 < w.output_width)
    (hlen : w.cells.length = w.output_width * w.output_height)
    (hsym : ∀ d a b, w.allowed d a b = w.allowed (opposite d) b a)
    (hwf : PropsWF w) (hK : KInv w)
    (hsucc : (wfc__propagate_loop fuel w).1 = true) :
    QuiescentK (wfc__propagate_loop fuel w).2 := by
  induction fuel generalizing w with
  | zero => exact absurd hsucc (by simp [wfc__propagate_loop])
  | succ fuel ih =>
    by_cases hidx : w.prop_idx < w.props.length
    · rcases hp : wfc__propagate_prop w (w.props.getD w.prop_idx default)
        with ⟨b, w'⟩
      cases b
      · rw [propagate_loop_eq_fail fuel w w' hidx hp] at hsucc
        exact absurd hsucc (by simp)
      · rw [propagate_loop_eq_step fuel w w' hidx hp] at hsucc ⊢
        obtain ⟨hwf', hK'⟩ := propagate_prop_step_K w hW hlen hsym hidx
          hwf hK w' hp
        have hfrp : Frame w w' := by
          have := frame_propagate_prop w (w.props.getD w.prop_idx default)
          rw [hp] at this
          exact this
        have hfr : Frame w {w' with prop_idx := w'.prop_idx + 1} :=
          frame_trans hfrp ⟨rfl, rfl, rfl, rfl, rfl, rfl, rfl, rfl⟩
        obtain ⟨hW', hlen', hsym'⟩ := statics_transfer hfr hW hlen hsym
        exact ih _ hW' hlen' hsym' hwf' hK' hsucc
    · rw [propagate_loop_eq_done fuel w hidx]
      intro u v d hadj hu hv
      rcases hK u v d hadj hu hv with hal | hpend | hpend
      · exact hal
      · exfalso
        obtain ⟨q, hq, _, _⟩ := hpend
        rw [List.drop_eq_nil_of_le (by omega)] at hq
        exact absurd hq (List.not_mem_nil q)
      · exfalso
        obtain ⟨q, hq, _, _⟩ := hpend
        rw [List.drop_eq_nil_of_le (by omega)] at hq
        exact absurd hq (List.not_mem_nil q)

theorem cells_add_prop_dir (w : Wfc) (src : Nat) (d : Direction) :
    (wfc__add_prop_dir w src d).cells = w.cells := by
  rw [wfc__add_prop_dir]
  rcases neighborOf w src d with _ | dst <;> rfl

/-- A freshly appended seed toward an existing neighbour is pending
once the cursor is `0`. -/
theorem add_prop_dir_pending (w : Wfc) (src x : Nat) (d : Direction)
    (hpi : w.prop_idx = 0) (hn : neighborOf w src d = some x) :
    pendingFrom (wfc__add_prop_dir w src d) src d := by
  rw [wfc__add_prop_dir, hn]
  refine ⟨⟨src, x, d⟩, ?_, rfl, rfl⟩
  show _ ∈ (w.props ++ [(⟨src, x, d⟩ : WfcProp)]).drop w.prop_idx
  rw [hpi, List.drop_zero]
  exact List.mem_append_right _ (List.mem_cons_self _ _)

theorem propagate_eq_seed (w : Wfc) (ci : Nat) :
    wfc__propagate w ci = wfc__propagate_loop
      (4 * totalTiles (seedState w ci) + (seedState w ci).props.length + 1)
      (seedState w ci) := rfl

theorem frame_seedState (w : Wfc) (ci : Nat) : Frame w (seedState w ci) := by
  rw [seedState]
  exact frame_trans
    (frame_trans
      (frame_trans
        (frame_trans (⟨rfl, rfl, rfl, rfl, rfl, rfl, rfl, rfl⟩ :
            Frame w {w with props := [], prop_idx := 0})
          (frame_add_prop_dir _ _ _))
        (frame_add_prop_dir _ _ _))
      (frame_add_prop_dir _ _ _))
    (frame_add_prop_dir _ _ _)

theorem cells_seedState (w : Wfc) (ci : Nat) :
    (seedState w ci).cells = w.cells := by
  rw [seedState, cells_add_prop_dir, cells_add_prop_dir, cells_add_prop_dir,
    cells_add_prop_dir]

/-- Every in-bounds direction from the collapsed cell is pending in the
seeded worklist. -/
theorem seedState_pending (w : Wfc) (ci : Nat) (d : Direction) (x : Nat)
    (hn : neighborOf w ci d = some x) :
    pendingFrom (seedState w ci) ci d := by
  rw [seedState]
  have hfr0 : Frame w {w with props := [], prop_idx := 0} :=
    ⟨rfl, rfl, rfl, rfl, rfl, rfl, rfl, rfl⟩
  have hfru : Frame w (wfc__add_prop_dir {w with props := [], prop_idx := 0}
      ci Direction.up) := frame_trans hfr0 (frame_add_prop_dir _ _ _)
  have hfrd : Frame w (wfc__add_prop_dir (wfc__add_prop_dir
      {w with props := [], prop_idx := 0} ci Direction.up) ci
      Direction.down) := frame_trans hfru (frame_add_prop_dir _ _ _)
  have hfrl : Frame w (wfc__add_prop_dir (wfc__add_prop_dir
      (wfc__add_prop_dir {w with props := [], prop_idx := 0} ci
        Direction.up) ci Direction.down) ci Direction.left) :=
    frame_trans hfrd (frame_add_prop_dir _ _ _)
  have hid0 : ({w with props := [], prop_idx := 0} : Wfc).prop_idx = 0 := rfl
  have hidu : (wfc__add_prop_dir {w with props := [], prop_idx := 0} ci
      Direction.up).prop_idx = 0 :=
    (propsExt_add_prop_dir _ _ _).1.trans hid0
  have hidd : (wfc__add_prop_dir (wfc__add_prop_dir
      {w with props := [], prop_idx := 0} ci Direction.up) ci
      Direction.down).prop_idx = 0 :=
    (propsExt_add_prop_dir _ _ _).1.trans hidu
  have hidl : (wfc__add_prop_dir (wfc__add_prop_dir (wfc__add_prop_dir
      {w with props := [], prop_idx := 0} ci Direction.up) ci
      Direction.down) ci Direction.left).prop_idx = 0 :=
    (propsExt_add_prop_dir _ _ _).1.trans hidd
  cases d with
  | up =>
    refine pendingFrom_mono (propsExt_add_prop_dir _ _ _)
      (pendingFrom_mono (propsExt_add_prop_dir _ _ _)
        (pendingFrom_mono (propsExt_add_prop_dir _ _ _) ?_))
    exact add_prop_dir_pending _ ci x Direction.up hid0
      (by rw [neighborOf_frame hfr0]; exact hn)
  | down =>
    refine pendingFrom_mono (propsExt_add_prop_dir _ _ _)
      (pendingFrom_mono (propsExt_add_prop_dir _ _ _) ?_)
    exact add_prop_dir_pending _ ci x Direction.down hidu
      (by rw [neighborOf_frame hfru]; exact hn)
  | left =>
    refine pendingFrom_mono (propsExt_add_prop_dir _ _ _) ?_
    exact add_prop_dir_pending _ ci x Direction.left hidd
      (by rw [neighborOf_frame hfrd]; exact hn)
  | right =>
    exact add_prop_dir_pending _ ci x Direction.right hidl
      (by rw [neighborOf_frame hfrl]; exact hn)

theorem propsWF_seedState {w : Wfc} {ci : Nat}
    (hci : ci < w.cells.length) : PropsWF (seedState w ci) := by
  rw [seedState]
  have hfr0 : Frame w {w with props := [], prop_idx := 0} :=
    ⟨rfl, rfl, rfl, rfl, rfl, rfl, rfl, rfl⟩
  have hwf0 : PropsWF ({w with props := [], prop_idx := 0} : Wfc) :=
    fun q hq => absurd hq (List.not_mem_nil q)
  have hfru := frame_trans hfr0
    (frame_add_prop_dir ({w with props := [], prop_idx := 0} : Wfc) ci
      Direction.up)
  have hfrd := frame_trans hfru (frame_add_prop_dir _ ci Direction.down)
  have hfrl := frame_trans hfrd (frame_add_prop_dir _ ci Direction.left)
  refine propsWF_add_prop_dir (propsWF_add_prop_dir (propsWF_add_prop_dir
    (propsWF_add_prop_dir hwf0 ?_ Direction.up) ?_ Direction.down)
    ?_ Direction.left) ?_ Direction.right
  · rw [hfr0.2.2.2.2.2.1]
    exact hci
  · rw [hfru.2.2.2.2.2.1]
    exact hci
  · rw [hfrd.2.2.2.2.2.1]
    exact hci
  · rw [hfrl.2.2.2.2.2.1]
    exact hci

/-- `wfc__collapse_find` never succeeds on an empty candidate list. -/
theorem collapse_find_ne_nil {w : Wfc} {r : Int} {t : Nat}
    (h : wfc__collapse_find w r [] = some t) : False := by
  simp [wfc__collapse_find] at h

/-- A successful collapse hits an in-bounds cell: out-of-range reads
yield the empty default cell, on which the selection loop fails. -/
theorem collapse_true_in_range (w w1 : Wfc) (ci : Nat)
    (hcol : wfc__collapse w ci = (true, w1)) : ci < w.cells.length := by
  by_contra hge
  rcases hfind : wfc__collapse_find w
      ((w.rand w.ridx : Int) % (cellAt w ci).sum_freqs)
      (cellAt w ci).tiles with _ | t
  · rw [collapse_eq_none w ci hfind] at hcol
    exact absurd (congrArg Prod.fst hcol) (by simp)
  · have hdef : cellAt w ci = default := by
      rw [cellAt]
      exact List.getD_eq_default _ _ (by omega)
    rw [hdef] at hfind
    have htl : (default : Cell).tiles = [] := rfl
    rw [htl] at hfind
    exact collapse_find_ne_nil hfind

/-- After a successful collapse of `ci`, a successful propagation
leaves an arc-consistent state, given that the pre-collapse state was
arc-consistent. -/
theorem propagate_after_collapse_K (w w1 : Wfc) (ci : Nat)
    (hW : 0 < w.output_width)
    (hlen : w.cells.length = w.output_width * w.output_height)
    (hsym : ∀ d a b, w.allowed d a b = w.allowed (opposite d) b a)
    (hQ : QuiescentK w)
    (hcol : wfc__collapse w ci = (true, w1))
    (hsucc : (wfc__propagate w1 ci).1 = true) :
    QuiescentK (wfc__propagate w1 ci).2 := by
  have hci : ci < w.cells.length := collapse_true_in_range w w1 ci hcol
  rcases hfind : wfc__collapse_find w
      ((w.rand w.ridx : Int) % (cellAt w ci).sum_freqs)
      (cellAt w ci).tiles with _ | t
  · rw [collapse_eq_none w ci hfind] at hcol
    exact absurd (congrArg Prod.fst hcol) (by simp)
  · rw [collapse_eq_some w ci t hfind] at hcol
    have hw1 : {setCell {w with ridx := w.ridx + 1} ci ⟨[t], 0, 0⟩ with
        collapsed_cell_cnt := w.collapsed_cell_cnt + 1} = w1 := by
      injection hcol
    have hfrc : Frame w w1 := by
      rw [← hw1]
      refine ⟨rfl, rfl, rfl, rfl, rfl, ?_, rfl, rfl⟩
      show (({w with ridx := w.ridx + 1} : Wfc).cells.set ci _).length
        = w.cells.length
      simp
    have hcell_ne : ∀ i, i ≠ ci → cellAt w1 i = cellAt w i := by
      intro i hi
      rw [← hw1]
      show cellAt (setCell {w with ridx := w.ridx + 1} ci ⟨[t], 0, 0⟩) i
        = cellAt w i
      rw [cellAt_setCell_ne _ _ _ _ fun h => hi h.symm]
      rfl
    rw [propagate_eq_seed] at hsucc ⊢
    have hfrS : Frame w (seedState w1 ci) :=
      frame_trans hfrc (frame_seedState w1 ci)
    obtain ⟨hW', hlen', hsym'⟩ := statics_transfer hfrS hW hlen hsym
    have hcAtS : ∀ i, i ≠ ci → cellAt (seedState w1 ci) i = cellAt w i := by
      intro i hi
      rw [cellAt, cells_seedState, ← cellAt]
      exact hcell_ne i hi
    refine propagate_loop_K _ _ hW' hlen' hsym' ?_ ?_ hsucc
    · exact propsWF_seedState (by rw [hfrc.2.2.2.2.2.1]; exact hci)
    · intro u v d hadj hu hv
      have hadjw : Adjacent w u v d := adjacent_transfer hfrS hadj
      by_cases hu_ci : u = ci
      · subst hu_ci
        right
        left
        exact seedState_pending w1 u d v
          (by rw [neighborOf_frame hfrc]; exact hadjw.2)
      · by_cases hv_ci : v = ci
        · subst hv_ci
          right
          right
          exact seedState_pending w1 v (opposite d) u
            (by rw [neighborOf_frame hfrc]
                exact neighborOf_involution hW hlen hadjw)
        · left
          have hu_cell := hcAtS u hu_ci
          have hv_cell := hcAtS v hv_ci
          have hal := hQ u v d hadjw (by rw [← hu_cell]; exact hu)
            (by rw [← hv_cell]; exact hv)
          have htileu : tileOf (seedState w1 ci) u = tileOf w u := by
            rw [tileOf, tileOf, hu_cell]
          have htilev : tileOf (seedState w1 ci) v = tileOf w v := by
            rw [tileOf, tileOf, hv_cell]
          rw [hfrS.2.1, htileu, htilev]
          exact hal

/-- Arc consistency is an invariant of the successful run loop. -/
theorem run_loop_K (fuel : Nat) (w : Wfc) (maxc : Int) (ci : Nat)
    (hW : 0 < w.output_width)
    (hlen : w.cells.length = w.output_width * w.output_height)
    (hsym : ∀ d a b, w.allowed d a b = w.allowed (opposite d) b a)
    (hQ : QuiescentK w)
    (hsucc : (wfc__run_loop fuel w maxc ci).1 = true) :
    QuiescentK (wfc__run_loop fuel w maxc ci).2 := by
  induction fuel generalizing w ci with
  | zero => exact absurd hsucc (by simp [wfc__run_loop])
  | succ fuel ih =>
    rcases hc : wfc__collapse w ci with ⟨b1, w1⟩
    cases b1
    · rw [run_loop_eq_cfail fuel w w1 maxc ci hc] at hsucc
      exact absurd hsucc (by simp)
    · rcases hp : wfc__propagate w1 ci with ⟨b2, w2⟩
      cases b2
      · rw [run_loop_eq_pfail fuel w w1 w2 maxc ci hc hp] at hsucc
        exact absurd hsucc (by simp)
      · have hQ2 : QuiescentK w2 := by
          have := propagate_after_collapse_K w w1 ci hW hlen hsym hQ hc
            (by rw [hp])
          rw [hp] at this
          exact this
        rcases hn : wfc__next_cell w2 with ⟨ci', w3⟩
        have hw3 : w3 = {w2 with ridx := w2.ridx + w2.cells.length} := by
          have := congrArg Prod.snd hn
          exact this.symm
        have hQ3 : QuiescentK w3 := by
          rw [hw3]
          exact hQ2
        rw [run_loop_eq_step fuel w w1 w2 w3 maxc ci ci' hc hp hn]
          at hsucc ⊢
        by_cases hbr : ci' = -1 ∨ (w3.collapsed_cell_cnt : Int) = maxc
        · rw [if_pos hbr]
          exact hQ3
        · rw [if_neg hbr] at hsucc ⊢
          have hfr3 : Frame w w3 := by
            have h1 : Frame w w1 := by
              have := frame_collapse w ci
              rw [hc] at this
              exact this
            have h2 : Frame w1 w2 := by
              have := frame_propagate w1 ci
              rw [hp] at this
              exact this
            have h3 : Frame w2 w3 := by
              have := frame_next_cell w2
              rw [hn] at this
              exact this
            exact frame_trans (frame_trans h1 h2) h3
          obtain ⟨hW', hlen', hsym'⟩ := statics_transfer hfr3 hW hlen hsym
          exact ih _ _ hW' hlen' hsym' hQ3 hsucc

theorem collapse_find_mem {w : Wfc} {r : Int} {l : List Nat} {t : Nat}
    (h : wfc__collapse_find w r l = some t) : t ∈ l := by
  induction l generalizing r with
  | nil => exact absurd h (by simp [wfc__collapse_find])
  | cons a rest ih =>
    rw [wfc__collapse_find] at h
    by_cases hc : (freqOf w a : Int) ≤ r
    · rw [if_pos hc] at h
      exact List.mem_cons_of_mem a (ih h)
    · rw [if_neg hc] at h
      rw [List.mem_cons]
      left
      exact (Option.some.inj h).symm

theorem collapse_P1 {w w1 : Wfc} {ci : Nat}
    (hall : AllP1 w) (hcol : wfc__collapse w ci = (true, w1)) :
    AllP1 w1 := by
  have hci := collapse_true_in_range w w1 ci hcol
  rcases hfind : wfc__collapse_find w
      ((w.rand w.ridx : Int) % (cellAt w ci).sum_freqs)
      (cellAt w ci).tiles with _ | t
  · rw [collapse_eq_none w ci hfind] at hcol
    exact absurd (congrArg Prod.fst hcol) (by simp)
  · rw [collapse_eq_some w ci t hfind] at hcol
    have hw1 : {setCell {w with ridx := w.ridx + 1} ci ⟨[t], 0, 0⟩ with
        collapsed_cell_cnt := w.collapsed_cell_cnt + 1} = w1 := by
      injection hcol
    have ht : t ∈ (cellAt w ci).tiles := collapse_find_mem hfind
    rw [hall ci hci] at ht
    have ht0 : t = 0 := by simpa using ht
    subst ht0
    rw [← hw1]
    intro i hi
    have hi0 : i < w.cells.length := by simpa [setCell] using hi
    by_cases hi_ci : i = ci
    · subst hi_ci
      show (cellAt (setCell {w with ridx := w.ridx + 1} i ⟨[0], 0, 0⟩)
        i).tiles = [0]
      rw [cellAt_setCell_eq _ _ _
        (show i < ({w with ridx := w.ridx + 1} : Wfc).cells.length from hi0)]
    · show (cellAt (setCell {w with ridx := w.ridx + 1} ci ⟨[0], 0, 0⟩)
        i).tiles = [0]
      rw [cellAt_setCell_ne _ _ _ _ fun h => hi_ci h.symm]
      exact hall i hi0

/-- With a single pattern nothing can shrink, so a successful worklist
run keeps every cell at `[0]` and certifies `allowed[d][0][0]` for the
direction of every entry it consumed. -/
theorem propagate_loop_P1 (fuel : Nat) (w : Wfc)
    (hall : AllP1 w)
    (hsucc : (wfc__propagate_loop fuel w).1 = true) :
    AllP1 (wfc__propagate_loop fuel w).2
    ∧ ∀ q ∈ w.props.drop w.prop_idx,
        w.allowed q.direction 0 0 = true := by
  induction fuel generalizing w with
  | zero => exact absurd hsucc (by simp [wfc__propagate_loop])
  | succ fuel ih =>
    by_cases hidx : w.prop_idx < w.props.length
    · rcases hp : wfc__propagate_prop w (w.props.getD w.prop_idx default)
        with ⟨b, w'⟩
      cases b
      · rw [propagate_loop_eq_fail fuel w w' hidx hp] at hsucc
        exact absurd hsucc (by simp)
      · rw [propagate_loop_eq_step fuel w w' hidx hp] at hsucc ⊢
        set p := w.props.getD w.prop_idx default with hp_def
        rcases hf : wfc__filter_tiles w p.src_cell_idx p.direction
            (cellAt w p.dst_cell_idx).tiles
            (cellAt w p.dst_cell_idx).sum_freqs
            (cellAt w p.dst_cell_idx).entropy with ⟨sv, s', e', ok⟩
        cases ok with
        | false =>
          rw [propagate_prop_eq_fail w p sv s' e' hf] at hp
          exact absurd (congrArg Prod.fst hp) (by simp)
        | true =>
          rcases sv with _ | ⟨t0, rest⟩
          · rw [propagate_prop_eq_empty w p s' e' hf] at hp
            exact absurd (congrArg Prod.fst hp) (by simp)
          · rw [propagate_prop_eq_success w p (t0 :: rest) s' e'
              (by simp) hf] at hp
            have hw' : setCell
                (if (cellAt w p.dst_cell_idx).tiles.length
                    ≠ (t0 :: rest).length
                 then bumpAndEnqueue w p (t0 :: rest).length else w)
                p.dst_cell_idx ⟨t0 :: rest, s', e'⟩ = w' := by
              injection hp
            have hsv_filter : t0 :: rest
                = (cellAt w p.dst_cell_idx).tiles.filter
                    fun t => wfc__tile_enabled w t p.src_cell_idx
                      p.direction := by
              have hok : (wfc__filter_tiles w p.src_cell_idx p.direction
                  (cellAt w p.dst_cell_idx).tiles
                  (cellAt w p.dst_cell_idx).sum_freqs
                  (cellAt w p.dst_cell_idx).entropy).2.2.2 = true := by
                rw [hf]
              have := filter_tiles_ok_eq w p.src_cell_idx p.direction
                (cellAt w p.dst_cell_idx).tiles
                (cellAt w p.dst_cell_idx).sum_freqs
                (cellAt w p.dst_cell_idx).entropy hok
              rw [hf] at this
              exact this
            have hdne : (cellAt w p.dst_cell_idx).tiles ≠ [] := by
              intro h0
              rw [h0] at hsv_filter
              simp at hsv_filter
            have hdlt : p.dst_cell_idx < w.cells.length := by
              by_contra hge
              apply hdne
              have hdef : cellAt w p.dst_cell_idx = default := by
                rw [cellAt]
                exact List.getD_eq_default _ _ (by omega)
              rw [hdef]
              rfl
            have hdt : (cellAt w p.dst_cell_idx).tiles = [0] :=
              hall _ hdlt
            have hsvP : t0 :: rest = [0] := by
              rw [hdt] at hsv_filter
              by_cases hf0 : wfc__tile_enabled w 0 p.src_cell_idx p.direction
              · rw [List.filter_cons_of_pos (by simpa using hf0),
                  List.filter_nil] at hsv_filter
                exact hsv_filter
              · rw [List.filter_cons_of_neg (by simpa using hf0),
                  List.filter_nil] at hsv_filter
                exact absurd hsv_filter (by simp)
            injection hsvP with ht0 hrest
            subst ht0
            subst hrest
            have h0mem : (0 : Nat) ∈ (cellAt w p.dst_cell_idx).tiles.filter
                fun t => wfc__tile_enabled w t p.src_cell_idx p.direction := by
              rw [← hsv_filter]
              exact List.mem_singleton_self 0
            have hen : wfc__tile_enabled w 0 p.src_cell_idx p.direction
                = true := (List.mem_filter.mp h0mem).2
            have hsne : (cellAt w p.src_cell_idx).tiles ≠ [] := by
              intro h0
              rw [wfc__tile_enabled, h0] at hen
              simp at hen
            have hslt : p.src_cell_idx < w.cells.length := by
              by_contra hge
              apply hsne
              have hdef : cellAt w p.src_cell_idx = default := by
                rw [cellAt]
                exact List.getD_eq_default _ _ (by omega)
              rw [hdef]
              rfl
            have hst : (cellAt w p.src_cell_idx).tiles = [0] := hall _ hslt
            have hallowed : w.allowed p.direction 0 0 = true :=
              tile_enabled_singleton hst hen
            have hw1 : (if (cellAt w p.dst_cell_idx).tiles.length
                ≠ ([0] : List Nat).length
              then bumpAndEnqueue w p ([0] : List Nat).length else w) = w := by
              rw [if_neg]
              rw [hdt]
              simp
            rw [hw1] at hw'
            subst hw'
            have hall2 : AllP1 {setCell w p.dst_cell_idx ⟨[0], s', e'⟩ with
                prop_idx :=
                  (setCell w p.dst_cell_idx ⟨[0], s', e'⟩).prop_idx + 1} := by
              intro i hi
              have hi0 : i < w.cells.length := by simpa [setCell] using hi
              by_cases hi_d : i = p.dst_cell_idx
              · subst hi_d
                show (cellAt (setCell w p.dst_cell_idx ⟨[0], s', e'⟩)
                  p.dst_cell_idx).tiles = [0]
                rw [cellAt_setCell_eq _ _ _ hi0]
              · show (cellAt (setCell w p.dst_cell_idx ⟨[0], s', e'⟩)
                  i).tiles = [0]
                rw [cellAt_setCell_ne _ _ _ _ fun h => hi_d h.symm]
                exact hall i hi0
            have hih := ih _ hall2 hsucc
            refine ⟨hih.1, ?_⟩
            intro q hq
            rw [List.drop_eq_getElem_cons hidx] at hq
            rcases List.mem_cons.mp hq with hhead | htail
            · have hqp : q = p := by
                rw [hhead, hp_def, List.getD_eq_getElem w.props default hidx]
              rw [hqp]
              exact hallowed
            · exact hih.2 q htail
    · rw [propagate_loop_eq_done fuel w hidx]
      refine ⟨hall, ?_⟩
      intro q hq
      rw [List.drop_eq_nil_of_le (by omega)] at hq
      exact absurd hq (List.not_mem_nil q)

/-- With a single pattern, a successful propagation keeps all cells at
`[0]` and certifies `allowed[d][0][0]` for every in-bounds direction
from the collapsed cell (via the seeds it processed). -/
theorem propagate_P1 (w : Wfc) (ci : Nat)
    (hall : AllP1 w)
    (hsucc : (wfc__propagate w ci).1 = true) :
    AllP1 (wfc__propagate w ci).2
    ∧ ∀ d x, neighborOf w ci d = some x → w.allowed d 0 0 = true := by
  rw [propagate_eq_seed] at hsucc ⊢
  have hfrS := frame_seedState w ci
  have hallS : AllP1 (seedState w ci) := by
    intro i hi
    rw [cellAt, cells_seedState, ← cellAt]
    exact hall i (by rw [← hfrS.2.2.2.2.2.1]; exact hi)
  obtain ⟨h1, h2⟩ := propagate_loop_P1 _ _ hallS hsucc
  refine ⟨h1, ?_⟩
  intro d x hn
  obtain ⟨q, hq, hqs, hqd⟩ := seedState_pending w ci d x hn
  have hq2 := h2 q hq
  rw [hqd] at hq2
  rw [hfrS.2.1] at hq2
  exact hq2

/-- Symmetry of `allowed` and the grid geometry propagate the validated
directions at the collapsed cell to every direction that carries an
edge at all. -/
theorem P1_directions (w : Wfc) (ci : Nat)
    (hW : 0 < w.output_width)
    (hlen : w.cells.length = w.output_width * w.output_height)
    (hsym : ∀ d a b, w.allowed d a b = w.allowed (opposite d) b a)
    (hseed : ∀ d x, neighborOf w ci d = some x → w.allowed d 0 0 = true) :
    ∀ u v d, Adjacent w u v d → w.allowed d 0 0 = true := by
  intro u v d hadj
  obtain ⟨hu, hn⟩ := hadj
  cases d with
  | left =>
    obtain ⟨hc, rfl⟩ := neighborOf_left_elim hn
    have hW2 : 2 ≤ w.output_width := by
      by_contra hlt
      have hW1 : w.output_width = 1 := by omega
      exact hc (by rw [hW1]; exact Nat.mod_one u)
    by_cases hcl : ci % w.output_width ≠ 0
    · exact hseed Direction.left (ci - 1) (by rw [neighborOf, if_pos hcl])
    · push_neg at hcl
      have hcr : ci % w.output_width ≠ w.output_width - 1 := by omega
      have h1 := hseed Direction.right (ci + 1)
        (by rw [neighborOf, if_pos hcr])
      have h2 := hsym Direction.right 0 0
      rw [h2] at h1
      exact h1
  | right =>
    obtain ⟨hc, rfl⟩ := neighborOf_right_elim hn
    have hW2 : 2 ≤ w.output_width := by
      by_contra hlt
      have hW1 : w.output_width = 1 := by omega
      apply hc
      rw [hW1, Nat.mod_one]
    by_cases hcr : ci % w.output_width ≠ w.output_width - 1
    · exact hseed Direction.right (ci + 1) (by rw [neighborOf, if_pos hcr])
    · push_neg at hcr
      have hlt := Nat.mod_lt ci hW
      have hcl : ci % w.output_width ≠ 0 := by omega
      have h1 := hseed Direction.left (ci - 1)
        (by rw [neighborOf, if_pos hcl])
      have h2 := hsym Direction.left 0 0
      rw [h2] at h1
      exact h1
  | up =>
    obtain ⟨hc, rfl⟩ := neighborOf_up_elim hn
    have hH2 : 2 ≤ w.output_height := by
      by_contra hlt
      have hH1 : w.output_height ≤ 1 := by omega
      have hle : w.output_width * w.output_height ≤ w.output_width * 1 :=
        Nat.mul_le_mul_left _ hH1
      omega
    by_cases hcu : w.output_width ≤ ci
    · exact hseed Direction.up (ci - w.output_width)
        (by rw [neighborOf, if_pos hcu])
    · push_neg at hcu
      have h2W : w.output_width * 2 ≤ w.output_width * w.output_height :=
        Nat.mul_le_mul_left _ hH2
      have hcd : ci + w.output_width < w.cells.length := by omega
      have h1 := hseed Direction.down (ci + w.output_width)
        (by rw [neighborOf, if_pos hcd])
      have h2 := hsym Direction.down 0 0
      rw [h2] at h1
      exact h1
  | down =>
    obtain ⟨hc, rfl⟩ := neighborOf_down_elim hn
    have hH2 : 2 ≤ w.output_height := by
      by_contra hlt
      have hH1 : w.output_height ≤ 1 := by omega
      have hle : w.output_width * w.output_height ≤ w.output_width * 1 :=
        Nat.mul_le_mul_left _ hH1
      omega
    by_cases hcd : ci + w.output_width < w.cells.length
    · exact hseed Direction.down (ci + w.output_width)
        (by rw [neighborOf, if_pos hcd])
    · push_neg at hcd
      have h2W : w.output_width * 2 ≤ w.output_width * w.output_height :=
        Nat.mul_le_mul_left _ hH2
      have hcu : w.output_width ≤ ci := by omega
      have h1 := hseed Direction.up (ci - w.output_width)
        (by rw [neighborOf, if_pos hcu])
      have h2 := hsym Direction.up 0 0
      rw [h2] at h1
      exact h1

/-- Single-pattern runs: success forces arc consistency of the final
state (every surviving edge direction was validated by the first
propagation of each iteration). -/
theorem run_loop_P1 (fuel : Nat) (w : Wfc) (maxc : Int) (ci : Nat)
    (hW : 0 < w.output_width)
    (hlen : w.cells.length = w.output_width * w.output_height)
    (hsym : ∀ d a b, w.allowed d a b = w.allowed (opposite d) b a)
    (hall : AllP1 w)
    (hsucc : (wfc__run_loop fuel w maxc ci).1 = true) :
    QuiescentK (wfc__run_loop fuel w maxc ci).2 := by
  induction fuel generalizing w ci with
  | zero => exact absurd hsucc (by simp [wfc__run_loop])
  | succ fuel ih =>
    rcases hc : wfc__collapse w ci with ⟨b1, w1⟩
    cases b1
    · rw [run_loop_eq_cfail fuel w w1 maxc ci hc] at hsucc
      exact absurd hsucc (by simp)
    · have hall1 : AllP1 w1 := collapse_P1 hall hc
      rcases hp : wfc__propagate w1 ci with ⟨b2, w2⟩
      cases b2
      · rw [run_loop_eq_pfail fuel w w1 w2 maxc ci hc hp] at hsucc
        exact absurd hsucc (by simp)
      · have hfr1 : Frame w w1 := by
          have := frame_collapse w ci
          rw [hc] at this
          exact this
        obtain ⟨hall2, hseed1⟩ : AllP1 w2
            ∧ ∀ d x, neighborOf w1 ci d = some x
                → w1.allowed d 0 0 = true := by
          have := propagate_P1 w1 ci hall1 (by rw [hp])
          rw [hp] at this
          exact this
        have hseedw : ∀ d x, neighborOf w ci d = some x
            → w.allowed d 0 0 = true := by
          intro d x hn
          have := hseed1 d x (by rw [neighborOf_frame hfr1]; exact hn)
          rw [hfr1.2.1] at this
          exact this
        have hdirs : ∀ u v d, Adjacent w u v d → w.allowed d 0 0 = true :=
          P1_directions w ci hW hlen hsym hseedw
        rcases hn : wfc__next_cell w2 with ⟨ci', w3⟩
        have hw3 : w3 = {w2 with ridx := w2.ridx + w2.cells.length} :=
          (congrArg Prod.snd hn).symm
        have hall3 : AllP1 w3 := by
          rw [hw3]
          exact hall2
        rw [run_loop_eq_step fuel w w1 w2 w3 maxc ci ci' hc hp hn]
          at hsucc ⊢
        have hfr3 : Frame w w3 := by
          have hfr2 : Frame w1 w2 := by
            have := frame_propagate w1 ci
            rw [hp] at this
            exact this
          have hfrn : Frame w2 w3 := by
            have := frame_next_cell w2
            rw [hn] at this
            exact this
          exact frame_trans (frame_trans hfr1 hfr2) hfrn
        obtain ⟨hW', hlen', hsym'⟩ := statics_transfer hfr3 hW hlen hsym
        by_cases hbr : ci' = -1 ∨ (w3.collapsed_cell_cnt : Int) = maxc
        · rw [if_pos hbr]
          intro u v d hadj hu hv
          have hadjw : Adjacent w u v d := adjacent_transfer hfr3 hadj
          have hvlt3 : v < w3.cells.length :=
            adjacent_target_lt hW' hlen' hadj
          have hu3 : (cellAt w3 u).tiles = [0] := hall3 u hadj.1
          have hv3 : (cellAt w3 v).tiles = [0] := hall3 v hvlt3
          have htileu : tileOf w3 u = 0 := by
            rw [tileOf, hu3]
            rfl
          have htilev : tileOf w3 v = 0 := by
            rw [tileOf, hv3]
            rfl
          rw [hfr3.2.1, htileu, htilev]
          exact hdirs u v d hadjw
        · rw [if_neg hbr] at hsucc ⊢
          exact ih _ _ hW' hlen' hsym' hall3 hsucc

theorem wfc_run_eq (w0 : Wfc) (maxc : Int) :
    wfc_run w0 maxc
      = wfc__run_loop (totalTiles {w0 with ridx := w0.ridx + 1} + 1)
          {w0 with ridx := w0.ridx + 1} maxc
          (w0.rand w0.ridx % (w0.output_height * w0.output_width)) := rfl

/-- C1: for every run of the solver over a well-formed `W×H` grid with
a direction-symmetric adjacency matrix (symmetry is what
`wfc__compute_allowed_tiles` produces, see C6) that completes
successfully, every pair of cells that are grid-adjacent in direction
`d` and were driven down to singletons satisfies the compiled adjacency
relation: `allowed[d][u.tile][v.tile]` is true at the final state. -/
theorem claim_C1 (w0 : Wfc) (maxc : Int)
    (hW : 0 < w0.output_width)
    (hlen : w0.cells.length = w0.output_width * w0.output_height)
    (hsym : ∀ d a b, w0.allowed d a b = w0.allowed (opposite d) b a)
    (hsucc : (wfc_run (wfc_init w0) maxc).1 = true) :
    ∀ u v d, Adjacent (wfc_run (wfc_init w0) maxc).2 u v d →
      (cellAt (wfc_run (wfc_init w0) maxc).2 u).tiles.length = 1 →
      (cellAt (wfc_run (wfc_init w0) maxc).2 v).tiles.length = 1 →
      (wfc_run (wfc_init w0) maxc).2.allowed d
        (tileOf (wfc_run (wfc_init w0) maxc).2 u)
        (tileOf (wfc_run (wfc_init w0) maxc).2 v) = true := by
  rw [wfc_run_eq] at hsucc ⊢
  have hfri : Frame w0 {wfc_init w0 with ridx := (wfc_init w0).ridx + 1} :=
    frame_trans (frame_wfc_init w0)
      ⟨rfl, rfl, rfl, rfl, rfl, rfl, rfl, rfl⟩
  obtain ⟨hW', hlen', hsym'⟩ := statics_transfer hfri hW hlen hsym
  by_cases hP : w0.tiles.length = 1
  · refine run_loop_P1 _ _ _ _ hW' hlen' hsym' ?_ hsucc
    intro i hi
    have hi0 : i < w0.cells.length := by
      rw [← hfri.2.2.2.2.2.1]
      exact hi
    show (cellAt (wfc_init w0) i).tiles = [0]
    rw [wfc_init_cellAt w0 i hi0]
    show List.range w0.tiles.length = [0]
    rw [hP]
    rfl
  · refine run_loop_K _ _ _ _ hW' hlen' hsym' ?_ hsucc
    intro u v d hadj hu hv
    exfalso
    have hu0 : u < w0.cells.length := by
      rw [← hfri.2.2.2.2.2.1]
      exact hadj.1
    have hucell : cellAt {wfc_init w0 with ridx := (wfc_init w0).ridx + 1} u
        = cellAt (wfc_init w0) u := rfl
    rw [hucell, wfc_init_cellAt w0 u hu0] at hu
    apply hP
    simpa using hu

/-- C1 witness: the unbounded stripe run succeeds and the two adjacent
(and collapsed) cells of its `2×1` grid carry compatible tiles. -/
theorem claim_C1_witness :
    (wfc_run (wfc_init solverStripe) (-1)).1 = true
    ∧ (wfc_run (wfc_init solverStripe) (-1)).2.allowed Direction.right
        (tileOf (wfc_run (wfc_init solverStripe) (-1)).2 0)
        (tileOf (wfc_run (wfc_init solverStripe) (-1)).2 1) = true :=
  ⟨by decide,
    claim_C1 solverStripe (-1) (by decide) (by decide) (fun d a b => rfl)
      (by decide) 0 1 Direction.right ⟨by decide, by decide⟩
      (by decide) (by decide)⟩

end WfcSpec
